import Mathlib

/-
Verification of the sharded map / LRU cache subsystem of the repository.

The Go source is shallowly embedded:
  * a Go map[K]V is modelled as an association list with at most one binding
    per key; Set replaces the binding, Delete drops it, len counts bindings;
  * heap pointers of the intrusive doubly linked LRU list are modelled as
    indices into an allocation arena (a list of entries); Go nil is none;
  * the injectable time source nowFn is modelled by passing the current time
    (an integer, as nanoseconds) to each operation that calls nowFn();
  * the keyed hash maphash.Comparable(seed, k) is modelled as an arbitrary
    function hf : K -> Nat fixed at construction;
  * the per-call result of an onEvict callback is modelled as the list of
    (key, value) pairs the operation passes to the callback, together with a
    flag cb saying whether a callback is configured (onEvict != nil).
Go int values are modelled as Int, the uint64 statistics counters as Nat.
-/

namespace Zmap

variable {K V : Type}

/-! ## Plain sharded map: ShardMap (src/unnamed/part_017) -/

/-- One shard of the plain sharded map: a mutex plus a Go map[K]V
(type ShardMap in src/unnamed/part_017), modelled as an association list
with at most one binding per key. -/
abbrev ShardM (K V : Type) := List (K × V)

/-- ShardMap.Get: lookup in the Go map (the found boolean is Option here). -/
def shardFind [DecidableEq K] (s : ShardM K V) (k : K) : Option V :=
  (s.find? (fun p => decide (p.1 = k))).map (·.2)

/-- ShardMap.Set: store key -> value, replacing any previous binding. -/
def shardSet [DecidableEq K] (s : ShardM K V) (k : K) (v : V) : ShardM K V :=
  (k, v) :: s.filter (fun p => decide (p.1 ≠ k))

/-- ShardMap.Delete: drop the binding of key, if any. -/
def shardDel [DecidableEq K] (s : ShardM K V) (k : K) : ShardM K V :=
  s.filter (fun p => decide (p.1 ≠ k))

/-- ShardMap.Len: the number of bindings of the Go map. -/
def shardLen (s : ShardM K V) : Nat := s.length

/-- Keys of a shard, as stored. -/
def shardKeys (s : ShardM K V) : List K := s.map Prod.fst

/-- Well-formedness of the association-list encoding of a Go map:
every key is bound at most once. -/
def ShardWF (s : ShardM K V) : Prop := (shardKeys s).Nodup

theorem find_filter_ne [DecidableEq K] (t : List (K × V)) (k k' : K) (h : k' ≠ k) :
    List.find? (fun p => decide (p.1 = k')) (t.filter (fun p => decide (p.1 ≠ k)))
      = List.find? (fun p => decide (p.1 = k')) t := by
  induction t with
  | nil => rfl
  | cons p t ih =>
    by_cases hp : p.1 = k
    · rw [List.filter_cons_of_neg (by simpa using hp), ih,
        List.find?_cons_of_neg _
          (by simp only [decide_eq_true_eq, hp]; exact fun hc => h hc.symm)]
    · rw [List.filter_cons_of_pos (by simpa using hp)]
      by_cases hk' : p.1 = k'
      · rw [List.find?_cons_of_pos _ (by simpa using hk'),
          List.find?_cons_of_pos _ (by simpa using hk')]
      · rw [List.find?_cons_of_neg _ (by simpa using hk'),
          List.find?_cons_of_neg _ (by simpa using hk'), ih]

theorem shardFind_set_self [DecidableEq K] (s : ShardM K V) (k : K) (v : V) :
    shardFind (shardSet s k v) k = some v := by
  simp only [shardFind, shardSet]
  rw [List.find?_cons_of_pos _ (by simp)]
  rfl

theorem shardFind_set_ne [DecidableEq K] (s : ShardM K V) (k k' : K) (v : V)
    (h : k' ≠ k) : shardFind (shardSet s k v) k' = shardFind s k' := by
  simp only [shardFind, shardSet]
  rw [List.find?_cons_of_neg _ (by simpa using Ne.symm h), find_filter_ne s k k' h]

theorem shardFind_del_self [DecidableEq K] (s : ShardM K V) (k : K) :
    shardFind (shardDel s k) k = none := by
  simp only [shardFind, shardDel, Option.map_eq_none']
  rw [List.find?_eq_none]
  intro p hp
  have := List.of_mem_filter hp
  simpa using this

theorem shardFind_del_ne [DecidableEq K] (s : ShardM K V) (k k' : K)
    (h : k' ≠ k) : shardFind (shardDel s k) k' = shardFind s k' := by
  simp only [shardFind, shardDel]
  rw [find_filter_ne s k k' h]

theorem shardWF_set [DecidableEq K] (s : ShardM K V) (k : K) (v : V)
    (h : ShardWF s) : ShardWF (shardSet s k v) := by
  unfold ShardWF shardKeys shardSet
  refine List.Nodup.cons ?_ ?_
  · intro hmem
    simp only [List.mem_map] at hmem
    obtain ⟨p, hp, hpk⟩ := hmem
    have := List.of_mem_filter hp
    simp [hpk] at this
  · unfold ShardWF shardKeys at h
    exact h.sublist ((List.filter_sublist s).map Prod.fst)

theorem shardWF_del [DecidableEq K] (s : ShardM K V) (k : K)
    (h : ShardWF s) : ShardWF (shardDel s k) :=
  h.sublist ((List.filter_sublist s).map Prod.fst)

/-- If key k is bound in a well-formed shard, deleting it removes exactly
one binding. -/
theorem shardLen_del_mem [DecidableEq K] (s : ShardM K V) (k : K)
    (hwf : ShardWF s) (h : (shardFind s k).isSome) :
    shardLen (shardDel s k) + 1 = shardLen s := by
  unfold shardLen shardDel
  induction s with
  | nil => simp [shardFind] at h
  | cons p t ih =>
    by_cases hp : p.1 = k
    · rw [List.filter_cons_of_neg (by simpa using hp)]
      have hkeys : k ∉ shardKeys t := by
        unfold ShardWF shardKeys at hwf
        simp only [List.map_cons, List.nodup_cons] at hwf
        exact hp ▸ hwf.1
      have : List.filter (fun p => decide (p.1 ≠ k)) t = t := by
        apply List.filter_eq_self.2
        intro a ha
        simp only [decide_eq_true_eq]
        intro hc
        exact hkeys (hc ▸ List.mem_map_of_mem Prod.fst ha)
      rw [this]
      simp
    · rw [List.filter_cons_of_pos (by simpa using hp)]
      simp only [List.length_cons]
      have ht : (shardFind t k).isSome := by
        simp only [shardFind] at h
        rw [List.find?_cons_of_neg _ (by simpa using hp)] at h
        exact h
      have hwt : ShardWF t := by
        unfold ShardWF shardKeys at hwf ⊢
        simp only [List.map_cons, List.nodup_cons] at hwf
        exact hwf.2
      have := ih hwt ht
      omega

theorem shardLen_del_not_mem [DecidableEq K] (s : ShardM K V) (k : K)
    (h : shardFind s k = none) : shardDel s k = s := by
  unfold shardDel
  apply List.filter_eq_self.2
  intro p hp
  simp only [decide_eq_true_eq]
  intro hc
  simp only [shardFind, Option.map_eq_none'] at h
  rw [List.find?_eq_none] at h
  have := h p hp
  simp [hc] at this

/-! ## HashMap: the plain sharded map (src/zmap/hash_map.go) -/

/-- HashMap: an array of ShardMap shards. The shard count is the length of
the list; maphash.Comparable with the internal seed is modelled by the
ambient hash function hf. -/
structure HashMapM (K V : Type) where
  shards : List (ShardM K V)

/-- getShard: index of the shard owning key k,
computed as int(hash) AND (shardCount - 1). -/
def hmIdx (hf : K → Nat) (n : Nat) (k : K) : Nat := hf k &&& (n - 1)

/-- The shard owning key k (out-of-range indexing cannot happen when the
shard list is nonempty, see hmIdx_lt). -/
def hmShard (hf : K → Nat) (m : HashMapM K V) (k : K) : ShardM K V :=
  m.shards.getD (hmIdx hf m.shards.length k) []

theorem hmIdx_lt (hf : K → Nat) (n : Nat) (k : K) (h : 0 < n) :
    hmIdx hf n k < n := by
  have : hf k &&& (n - 1) ≤ n - 1 := Nat.and_le_right
  unfold hmIdx
  omega

/-- HashMap.Set. -/
def hmSet [DecidableEq K] (hf : K → Nat) (m : HashMapM K V) (k : K) (v : V) :
    HashMapM K V :=
  ⟨m.shards.set (hmIdx hf m.shards.length k) (shardSet (hmShard hf m k) k v)⟩

/-- HashMap.Get. -/
def hmGet [DecidableEq K] (hf : K → Nat) (m : HashMapM K V) (k : K) : Option V :=
  shardFind (hmShard hf m k) k

/-- HashMap.Delete. -/
def hmDel [DecidableEq K] (hf : K → Nat) (m : HashMapM K V) (k : K) :
    HashMapM K V :=
  ⟨m.shards.set (hmIdx hf m.shards.length k) (shardDel (hmShard hf m k) k)⟩

/-- HashMap.Len: sum of the per-shard lengths. -/
def hmLen (m : HashMapM K V) : Nat := (m.shards.map shardLen).sum

/-- HashMap.Clear: clears every shard. -/
def hmClear (m : HashMapM K V) : HashMapM K V :=
  ⟨m.shards.map (fun _ => [])⟩

/-- Well-formedness of a HashMap state: at least one shard (NewHashMap
always builds nextPowerOfTwo(...) of them, which is at least 1) and each
shard a well-formed Go map. -/
def HMWF (m : HashMapM K V) : Prop :=
  0 < m.shards.length ∧ ∀ s ∈ m.shards, ShardWF s

theorem hmGet_set_self [DecidableEq K] (hf : K → Nat) (m : HashMapM K V)
    (k : K) (v : V) (h : 0 < m.shards.length) :
    hmGet hf (hmSet hf m k v) k = some v := by
  unfold hmGet hmSet hmShard
  simp only [List.length_set]
  rw [List.getD_eq_getElem?_getD, List.getElem?_set_self (hmIdx_lt hf _ k h)]
  simp [shardFind_set_self]

theorem hmWF_set [DecidableEq K] (hf : K → Nat) (m : HashMapM K V)
    (k : K) (v : V) (h : HMWF m) : HMWF (hmSet hf m k v) := by
  obtain ⟨h0, hsh⟩ := h
  constructor
  · simpa [hmSet] using h0
  · intro s hs
    simp only [hmSet] at hs
    rcases List.mem_or_eq_of_mem_set hs with hmem | rfl
    · exact hsh s hmem
    · apply shardWF_set
      unfold hmShard
      rcases Nat.lt_or_ge (hmIdx hf m.shards.length k) m.shards.length with hlt | hge
      · rw [List.getD_eq_getElem?_getD, List.getElem?_eq_getElem hlt]
        exact hsh _ (List.getElem_mem hlt)
      · rw [List.getD_eq_getElem?_getD, List.getElem?_eq_none hge]
        simp [ShardWF, shardKeys]

theorem hmWF_del [DecidableEq K] (hf : K → Nat) (m : HashMapM K V)
    (k : K) (h : HMWF m) : HMWF (hmDel hf m k) := by
  obtain ⟨h0, hsh⟩ := h
  constructor
  · simpa [hmDel] using h0
  · intro s hs
    simp only [hmDel] at hs
    rcases List.mem_or_eq_of_mem_set hs with hmem | rfl
    · exact hsh s hmem
    · apply shardWF_del
      unfold hmShard
      rcases Nat.lt_or_ge (hmIdx hf m.shards.length k) m.shards.length with hlt | hge
      · rw [List.getD_eq_getElem?_getD, List.getElem?_eq_getElem hlt]
        exact hsh _ (List.getElem_mem hlt)
      · rw [List.getD_eq_getElem?_getD, List.getElem?_eq_none hge]
        simp [ShardWF, shardKeys]

theorem hmGet_del_self [DecidableEq K] (hf : K → Nat) (m : HashMapM K V)
    (k : K) (h : 0 < m.shards.length) : hmGet hf (hmDel hf m k) k = none := by
  unfold hmGet hmDel hmShard
  simp only [List.length_set]
  rw [List.getD_eq_getElem?_getD, List.getElem?_set_self (hmIdx_lt hf _ k h)]
  simp [shardFind_del_self]

theorem sum_set_nat (l : List Nat) : ∀ (i : Nat) (x : Nat), i < l.length →
    (l.set i x).sum + l[i]! = l.sum + x := by
  induction l with
  | nil => intro i x h; simp at h
  | cons a t ih =>
    intro i x h
    match i with
    | 0 => simp [List.sum_cons]; omega
    | Nat.succ j =>
      simp only [List.set_cons_succ, List.sum_cons]
      have hj : j < t.length := by simpa using h
      have := ih j x hj
      have hget : (a :: t)[j + 1]! = t[j]! := by
        rw [List.getElem!_cons_succ]
      rw [hget]
      omega

/-- Deleting a bound key decreases Len by exactly one. -/
theorem hmLen_del_mem [DecidableEq K] (hf : K → Nat) (m : HashMapM K V)
    (k : K) (hwf : HMWF m) (h : (hmGet hf m k).isSome) :
    hmLen (hmDel hf m k) + 1 = hmLen m := by
  obtain ⟨h0, hsh⟩ := hwf
  have hlt := hmIdx_lt hf m.shards.length k h0
  unfold hmLen hmDel
  unfold hmGet hmShard at h
  rw [List.getD_eq_getElem?_getD, List.getElem?_eq_getElem hlt] at h
  simp only [Option.getD_some] at h
  have hshard := hsh _ (List.getElem_mem hlt)
  have hdel := shardLen_del_mem (m.shards[hmIdx hf m.shards.length k]) k hshard h
  simp only [List.map_set]
  have hlt' : hmIdx hf m.shards.length k < (m.shards.map shardLen).length := by
    simpa using hlt
  have hsum := sum_set_nat (m.shards.map shardLen) (hmIdx hf m.shards.length k)
    (shardLen (shardDel (hmShard hf m k) k)) hlt'
  have hgetm : (m.shards.map shardLen)[hmIdx hf m.shards.length k]! =
      shardLen (m.shards[hmIdx hf m.shards.length k]) := by
    rw [getElem!_pos (List.map shardLen m.shards) (hmIdx hf m.shards.length k) hlt',
      List.getElem_map]
  rw [hgetm] at hsum
  have hshardEq : hmShard hf m k = m.shards[hmIdx hf m.shards.length k] := by
    unfold hmShard
    rw [List.getD_eq_getElem?_getD, List.getElem?_eq_getElem hlt]
    rfl
  rw [hshardEq] at hsum ⊢
  omega

theorem list_set_getElem_self {α : Type} (l : List α) (i : Nat)
    (h : i < l.length) : l.set i l[i] = l := by
  apply List.ext_getElem
  · simp
  · intro n h1 h2
    rcases eq_or_ne n i with rfl | hne
    · rw [List.getElem_set_self]
    · rw [List.getElem_set_ne (by omega)]

theorem hmLen_del_not_mem [DecidableEq K] (hf : K → Nat) (m : HashMapM K V)
    (k : K) (h : hmGet hf m k = none) : hmDel hf m k = m := by
  unfold hmDel
  unfold hmGet at h
  have : shardDel (hmShard hf m k) k = hmShard hf m k :=
    shardLen_del_not_mem _ _ h
  rw [this]
  unfold hmShard
  rcases Nat.lt_or_ge (hmIdx hf m.shards.length k) m.shards.length with hlt | hge
  · rw [List.getD_eq_getElem?_getD, List.getElem?_eq_getElem hlt]
    simp only [Option.getD_some]
    rw [list_set_getElem_self _ _ hlt]
  · rw [List.set_eq_of_length_le (by omega)]

/-! ## TtlMap: expiring map over HashMap (src/zmap/ttlmap.go) -/

/-- ttlValue: a stored value plus its absolute expiry instant
(time.Time modelled as Int nanoseconds). -/
structure TtlValue (V : Type) where
  value : V
  exp : Int
deriving DecidableEq

/-- TtlMap: a HashMap from keys to ttlValue, plus the configured default
TTL. The nowFn time source is modelled by handing the current time to each
operation that reads the clock. -/
structure TtlMapM (K V : Type) where
  hashMap : HashMapM K (TtlValue V)
  defaultTTL : Int

/-- TtlMap.SetWithTTL: stores (value, now + ttl). -/
def ttlSetWithTTL [DecidableEq K] (hf : K → Nat) (m : TtlMapM K V)
    (now : Int) (k : K) (v : V) (ttl : Int) : TtlMapM K V :=
  { m with hashMap := hmSet hf m.hashMap k ⟨v, now + ttl⟩ }

/-- TtlMap.Set: SetWithTTL with the default TTL. -/
def ttlSet [DecidableEq K] (hf : K → Nat) (m : TtlMapM K V)
    (now : Int) (k : K) (v : V) : TtlMapM K V :=
  ttlSetWithTTL hf m now k v m.defaultTTL

/-- TtlMap.Delete. -/
def ttlDelete [DecidableEq K] (hf : K → Nat) (m : TtlMapM K V) (k : K) :
    TtlMapM K V :=
  { m with hashMap := hmDel hf m.hashMap k }

/-- TtlMap.Get: on a hit whose expiry lies strictly in the past
(time.Time.After), deletes the key and reports not found; the V component
of a miss is the Go zero value, modelled by default. -/
def ttlGet [DecidableEq K] [Inhabited V] (hf : K → Nat) (m : TtlMapM K V)
    (now : Int) (k : K) : (V × Bool) × TtlMapM K V :=
  match hmGet hf m.hashMap k with
  | none => ((default, false), m)
  | some tv =>
    if now > tv.exp then ((tv.value, false), ttlDelete hf m k)
    else ((tv.value, true), m)

/-- TtlMap.Length. -/
def ttlLength (m : TtlMapM K V) : Nat := hmLen m.hashMap

/-- TtlMap.DeleteExpired: the janitor sweep body; for every shard, drops
exactly the entries whose expiry is strictly before the current time
(time.Time.Before). -/
def ttlDeleteExpired (m : TtlMapM K V) (now : Int) : TtlMapM K V :=
  { m with hashMap :=
      ⟨m.hashMap.shards.map (fun s => s.filter (fun p => decide (¬ p.2.exp < now)))⟩ }

/-- Well-formedness of a TtlMap state. -/
def TtlWF (m : TtlMapM K V) : Prop := HMWF m.hashMap

/-! ## Janitor (src/zmap/janitor.go) -/

/-- Events the select loop of janitor.Run can wake up on: a ticker tick or
a delivery on the stop channel. -/
inductive JEvent where
  | tick : JEvent
  | stop : JEvent
deriving DecidableEq

/-- janitor.Run, as a function of the sequence of events delivered to its
select loop: a tick runs c.DeleteExpired and loops; a stop delivery stops
the ticker and returns. The boolean records whether the loop has returned. -/
def janitorRun (sweep : σ → σ) : List JEvent → σ → σ × Bool
  | [], st => (st, false)
  | JEvent.tick :: rest, st => janitorRun sweep rest (sweep st)
  | JEvent.stop :: _, st => (st, true)

/-- The exported API of TtlMap together with the methods reachable from it
(janitor.Run is driven internally; the janitor struct exports no method
and its stop channel is an unexported field). Each constructor is one
exported method of src/zmap/ttlmap.go, with the times its nowFn calls
return as arguments. -/
inductive TtlExportedOp (K V : Type) where
  | set : K → V → Int → TtlExportedOp K V
  | setWithTTL : K → V → Int → Int → TtlExportedOp K V
  | get : K → Int → TtlExportedOp K V
  | delete : K → TtlExportedOp K V
  | length : TtlExportedOp K V
  | deleteExpired : Int → TtlExportedOp K V
  | setJanitor : TtlExportedOp K V
  | janitorGetter : TtlExportedOp K V

/-- Running one exported TtlMap method against the map state and the state
of the janitor stop channel (true once a stop has been delivered). -/
def runTtlExportedOp [DecidableEq K] [Inhabited V] (hf : K → Nat) :
    TtlExportedOp K V → TtlMapM K V × Bool → TtlMapM K V × Bool
  | .set k v now, (m, j) => (ttlSet hf m now k v, j)
  | .setWithTTL k v ttl now, (m, j) => (ttlSetWithTTL hf m now k v ttl, j)
  | .get k now, (m, j) => ((ttlGet hf m now k).2, j)
  | .delete k, (m, j) => (ttlDelete hf m k, j)
  | .length, (m, j) => (m, j)
  | .deleteExpired now, (m, j) => (ttlDeleteExpired m now, j)
  | .setJanitor, (m, j) => (m, j)
  | .janitorGetter, (m, j) => (m, j)

/-- stopJanitor (the function runtime.SetFinalizer installs in NewTtlMap):
sends on the stop channel of the janitor. -/
def runStopJanitor (m : TtlMapM K V × Bool) : TtlMapM K V × Bool :=
  (m.1, true)

/-! ## Construction arithmetic (src/zmap/lru_shard_map.go NewLRUShardMap,
src/unnamed/part_023 NewShardLRU) -/

/-- math/bits.Len on a non-negative value: the number of bits required to
represent n, with bitsLen 0 = 0. -/
def bitsLen (n : Nat) : Nat := if n = 0 then 0 else n.log2 + 1

/-- nextPowerOfTwo (src/unnamed/part_017 and part_023):
1 for non-positive n, otherwise 1 <<< bits.Len(uint(n)-1). -/
def nextPowerOfTwo (n : Int) : Int :=
  if n ≤ 0 then 1 else 2 ^ bitsLen (n - 1).toNat

/-- The shard count NewLRUShardMap ends up with: a non-positive request
falls back to 16, then the count is rounded with
shardCount = 1 <<< bits.Len(uint(shardCount-1)). -/
def lruShardMapShardCount (shardCount : Int) : Int :=
  let sc : Int := if shardCount ≤ 0 then 16 else shardCount
  2 ^ bitsLen (sc - 1).toNat

/-- The total capacity NewLRUShardMap ends up with: a non-positive request
falls back to 1024. -/
def lruShardMapCapacity (capacity : Int) : Int :=
  if capacity ≤ 0 then 1024 else capacity

/-- The per-shard capacity NewLRUShardMap assigns:
capacity / shardCount, forced up to 1 when that is not positive. -/
def lruShardMapPerShardCap (shardCount capacity : Int) : Int :=
  let p := lruShardMapCapacity capacity / lruShardMapShardCount shardCount
  if p ≤ 0 then 1 else p

/-- The construction-time options of NewShardLRU (src/unnamed/part_023)
that shape the pure configuration; WithLRUOnEvict only installs the
callback. -/
inductive ShardLRUOpt where
  | withShardCount : Int → ShardLRUOpt
  | withCapacity : Int → ShardLRUOpt
  | withLRUOnEvict : ShardLRUOpt

/-- The pure configuration of a ShardLRU. -/
structure ShardLRUConfig where
  shardCount : Int
  capacity : Int
  onEvict : Bool
deriving DecidableEq

/-- Applying one ShardLRU option (each applies nextPowerOfTwo eagerly). -/
def applyShardLRUOpt (c : ShardLRUConfig) : ShardLRUOpt → ShardLRUConfig
  | .withShardCount n => { c with shardCount := nextPowerOfTwo n }
  | .withCapacity n => { c with capacity := nextPowerOfTwo n }
  | .withLRUOnEvict => { c with onEvict := true }

/-- NewShardLRU: defaults (shardCount = nextPowerOfTwo(GOMAXPROCS*4),
capacity = 4096), the options in order, then both fields are forced to
powers of two once more. -/
def newShardLRUConfig (gomaxprocs : Int) (opts : List ShardLRUOpt) :
    ShardLRUConfig :=
  let c0 : ShardLRUConfig :=
    { shardCount := nextPowerOfTwo (gomaxprocs * 4), capacity := 4096,
      onEvict := false }
  let c1 := opts.foldl applyShardLRUOpt c0
  { c1 with shardCount := nextPowerOfTwo c1.shardCount,
            capacity := nextPowerOfTwo c1.capacity }

/-- The per-shard capacity NewShardLRU assigns:
capacity / shardCount after the rounding above, forced up to 1. -/
def shardLRUPerShardCap (c : ShardLRUConfig) : Int :=
  let p := c.capacity / c.shardCount
  if p ≤ 0 then 1 else p

/-! ## The intrusive doubly linked LRU shard
(lruShard in src/zmap/lru_shard_map.go; SimpleLRU in src/lru/simple_lru.go).
Heap pointers are indices into an allocation arena; Go nil is none. -/

/-- lruEntry: key, value and the prev/next pointers of the intrusive list. -/
structure LruEntry (K V : Type) where
  key : K
  value : V
  prev : Option Nat
  next : Option Nat
deriving DecidableEq

instance [Inhabited K] [Inhabited V] : Inhabited (LruEntry K V) :=
  ⟨⟨default, default, none, none⟩⟩

/-- The allocation arena: position p models one heap allocated lruEntry. -/
abbrev Arena (K V : Type) := List (LruEntry K V)

/-- Dereference a pointer (valid under the established invariants). -/
def getE [Inhabited K] [Inhabited V] (A : Arena K V) (p : Nat) : LruEntry K V :=
  A.getD p default

/-- Write through a pointer: replace the entry at p by f of it. -/
def modifyE (A : Arena K V) (p : Nat) (f : LruEntry K V → LruEntry K V) :
    Arena K V :=
  match A[p]? with
  | some e => A.set p (f e)
  | none => A

/-- One LRU shard, the state shared by lruShard (src/zmap/lru_shard_map.go)
and SimpleLRU (src/lru/simple_lru.go): the Go map items (key to entry
pointer), the list head/tail pointers, the fixed capacity, the size counter
and the access/hit counters (zero and unused in SimpleLRU, which has no
counters). -/
structure LruShard (K V : Type) where
  arena : Arena K V
  items : List (K × Nat)
  head : Option Nat
  tail : Option Nat
  capacity : Int
  size : Int
  accessCnt : Nat
  hitCnt : Nat
deriving DecidableEq

/-- Lookup in the items map (shard.items[key]). -/
def findPtr [DecidableEq K] (items : List (K × Nat)) (k : K) : Option Nat :=
  (items.find? (fun p => decide (p.1 = k))).map (·.2)

/-- delete(s.items, key). -/
def eraseKey [DecidableEq K] (items : List (K × Nat)) (k : K) :
    List (K × Nat) :=
  items.filter (fun p => decide (p.1 ≠ k))

/-- A freshly constructed shard of the given capacity (empty map, nil head
and tail, zero counters). -/
def newLruShard (capacity : Int) : LruShard K V :=
  { arena := [], items := [], head := none, tail := none,
    capacity := capacity, size := 0, accessCnt := 0, hitCnt := 0 }

/-- lruShard.moveToFront (src/zmap/lru_shard_map.go), statement by
statement; each pointer read rereads the current arena, as the Go
statements do. The argument entry is never nil at the call sites, so only
the s.head == nil half of the first guard is modelled. -/
def zMoveToFront [DecidableEq K] [Inhabited K] [Inhabited V]
    (s : LruShard K V) (p : Nat) : LruShard K V :=
  match s.head with
  | none =>
    { s with head := some p, tail := some p,
             arena := modifyE (modifyE s.arena p (fun e => { e with prev := none }))
                        p (fun e => { e with next := none }) }
  | some h =>
    if p = h then s
    else
      let A0 := s.arena
      let e0 := getE A0 p
      let A1 := match e0.prev with
        | some q => modifyE A0 q (fun e => { e with next := e0.next })
        | none => A0
      let e1 := getE A1 p
      let A2 := match e1.next with
        | some r => modifyE A1 r (fun e => { e with prev := e1.prev })
        | none => A1
      let e2 := getE A2 p
      let tail2 := if s.tail = some p then e2.prev else s.tail
      let A3 := modifyE A2 p (fun e => { e with prev := none })
      let A4 := modifyE A3 p (fun e => { e with next := some h })
      let A5 := modifyE A4 h (fun e => { e with prev := some p })
      { s with arena := A5, head := some p, tail := tail2 }

/-- lruShard.removeEntry (src/zmap/lru_shard_map.go): unlink entry p,
invoke the eviction callback when one is configured (cb), delete its key
from items, decrement size, and zero the entry before it is pooled. The
returned list holds the (key, value) arguments of the callback calls this
operation makes. -/
def zRemoveEntry [DecidableEq K] [Inhabited K] [Inhabited V] (cb : Bool)
    (s : LruShard K V) (p : Nat) : LruShard K V × List (K × V) :=
  let A0 := s.arena
  let e0 := getE A0 p
  let step1 : Arena K V × Option Nat :=
    match e0.prev with
    | some q => (modifyE A0 q (fun e => { e with next := e0.next }), s.head)
    | none => (A0, e0.next)
  let A1 := step1.1
  let e1 := getE A1 p
  let step2 : Arena K V × Option Nat :=
    match e1.next with
    | some r => (modifyE A1 r (fun e => { e with prev := e1.prev }), s.tail)
    | none => (A1, e1.prev)
  let A2 := step2.1
  let e2 := getE A2 p
  let ev := if cb then [(e2.key, e2.value)] else []
  let items2 := eraseKey s.items e2.key
  let A3 := modifyE A2 p
    (fun _ => { key := default, value := default, prev := none, next := none })
  ({ s with arena := A3, items := items2, head := step1.2, tail := step2.2,
            size := s.size - 1 }, ev)

/-- The removeEntry guard entry == nil (removeEntry is called on s.tail in
Set, which the source guards with a nil check inside removeEntry). -/
def zRemoveEntryOpt [DecidableEq K] [Inhabited K] [Inhabited V] (cb : Bool)
    (s : LruShard K V) : Option Nat → LruShard K V × List (K × V)
  | none => (s, [])
  | some p => zRemoveEntry cb s p

/-- LRUShardMap.Set, restricted to the owning shard
(src/zmap/lru_shard_map.go): update and move to front on a hit; otherwise
allocate an entry, link it at the head, insert it into items, bump size,
and evict the tail when size exceeds capacity. -/
def zSet [DecidableEq K] [Inhabited K] [Inhabited V] (cb : Bool)
    (s : LruShard K V) (k : K) (v : V) : LruShard K V × List (K × V) :=
  match findPtr s.items k with
  | some p =>
    (zMoveToFront { s with arena := modifyE s.arena p (fun e => { e with value := v }) } p, [])
  | none =>
    let p := s.arena.length
    let A0 := s.arena ++ [⟨k, v, none, none⟩]
    let linked : Arena K V × Option Nat × Option Nat :=
      match s.head with
      | none => (A0, some p, some p)
      | some h =>
        (modifyE (modifyE A0 p (fun e => { e with next := some h }))
           h (fun e => { e with prev := some p }), some p, s.tail)
    let s1 : LruShard K V :=
      { s with arena := linked.1, head := linked.2.1, tail := linked.2.2,
               items := (k, p) :: s.items, size := s.size + 1 }
    if s1.size > s1.capacity then zRemoveEntryOpt cb s1 s1.tail else (s1, [])

/-- LRUShardMap.Get, restricted to the owning shard: bump accessCnt, read
under the read lock, and revalidate the entry after the lock upgrade (in
this sequential model the revalidation always succeeds, but the source
branches are kept). On a hit the entry moves to the front and hitCnt is
bumped. -/
def zGet [DecidableEq K] [Inhabited K] [Inhabited V] (s : LruShard K V)
    (k : K) : (V × Bool) × LruShard K V :=
  let s0 := { s with accessCnt := s.accessCnt + 1 }
  match findPtr s0.items k with
  | none => ((default, false), s0)
  | some p =>
    let value := (getE s0.arena p).value
    match findPtr s0.items k with
    | some p2 =>
      if p2 = p then
        let s1 := zMoveToFront s0 p
        ((value, true), { s1 with hitCnt := s1.hitCnt + 1 })
      else
        match findPtr s0.items k with
        | none => ((default, false), s0)
        | some p3 =>
          let value3 := (getE s0.arena p3).value
          let s1 := zMoveToFront s0 p3
          ((value3, true), { s1 with hitCnt := s1.hitCnt + 1 })
    | none =>
      match findPtr s0.items k with
      | none => ((default, false), s0)
      | some p3 =>
        let value3 := (getE s0.arena p3).value
        let s1 := zMoveToFront s0 p3
        ((value3, true), { s1 with hitCnt := s1.hitCnt + 1 })

/-- LRUShardMap.Delete, restricted to the owning shard: false on a miss,
otherwise removeEntry and true. -/
def zDelete [DecidableEq K] [Inhabited K] [Inhabited V] (cb : Bool)
    (s : LruShard K V) (k : K) : (Bool × LruShard K V) × List (K × V) :=
  match findPtr s.items k with
  | none => ((false, s), [])
  | some p =>
    let r := zRemoveEntry cb s p
    ((true, r.1), r.2)

/-- LRUShardMap.Clear, restricted to one shard: fresh items map, nil head
and tail, size zero; the counters are not reset. -/
def zClear (s : LruShard K V) : LruShard K V :=
  { s with items := [], head := none, tail := none, size := 0 }

/-- LRUShardMap.Contains, restricted to the owning shard: a lookup that
does not alter recency. -/
def zContains [DecidableEq K] (s : LruShard K V) (k : K) : Bool :=
  (findPtr s.items k).isSome

/-! ## SimpleLRU (src/lru/simple_lru.go): the single shard cache. The same
LruShard state is reused; SimpleLRU has no counters, so accessCnt and
hitCnt stay untouched. -/

/-- NewSimpleLRU: non-positive capacity falls back to defaultCapacity
(4096, src/unnamed/part_023). -/
def newSimpleLRU (capacity : Int) : LruShard K V :=
  newLruShard (if capacity ≤ 0 then 4096 else capacity)

/-- SimpleLRU.moveToFront: as lruShard.moveToFront but with a plain
early return when head is nil. -/
def sMoveToFront [DecidableEq K] [Inhabited K] [Inhabited V]
    (s : LruShard K V) (p : Nat) : LruShard K V :=
  match s.head with
  | none => s
  | some h =>
    if p = h then s
    else
      let A0 := s.arena
      let e0 := getE A0 p
      let A1 := match e0.prev with
        | some q => modifyE A0 q (fun e => { e with next := e0.next })
        | none => A0
      let e1 := getE A1 p
      let A2 := match e1.next with
        | some r => modifyE A1 r (fun e => { e with prev := e1.prev })
        | none => A1
      let e2 := getE A2 p
      let tail2 := if s.tail = some p then e2.prev else s.tail
      let A3 := modifyE A2 p (fun e => { e with prev := none })
      let A4 := modifyE A3 p (fun e => { e with next := some h })
      let A5 := modifyE A4 h (fun e => { e with prev := some p })
      { s with arena := A5, head := some p, tail := tail2 }

/-- SimpleLRU.removeEntry: unlink p, delete its key from items, decrement
size. No callback and no zeroing here; Delete and evictLocked read the
evicted pair before calling this. -/
def sRemoveEntry [DecidableEq K] [Inhabited K] [Inhabited V]
    (s : LruShard K V) (p : Nat) : LruShard K V :=
  let A0 := s.arena
  let e0 := getE A0 p
  let step1 : Arena K V × Option Nat :=
    match e0.prev with
    | some q => (modifyE A0 q (fun e => { e with next := e0.next }), s.head)
    | none => (A0, e0.next)
  let A1 := step1.1
  let e1 := getE A1 p
  let step2 : Arena K V × Option Nat :=
    match e1.next with
    | some r => (modifyE A1 r (fun e => { e with prev := e1.prev }), s.tail)
    | none => (A1, e1.prev)
  let A2 := step2.1
  let e2 := getE A2 p
  let items2 := eraseKey s.items e2.key
  { s with arena := A2, items := items2, head := step1.2, tail := step2.2,
           size := s.size - 1 }

/-- SimpleLRU.evictLocked: remove the tail entry; the (key, value) pair is
read (and later passed to onEvict) only when a callback is configured. -/
def sEvictLocked [DecidableEq K] [Inhabited K] [Inhabited V] (cb : Bool)
    (s : LruShard K V) : LruShard K V × List (K × V) :=
  match s.tail with
  | none => (s, [])
  | some p =>
    if cb then
      let e := getE s.arena p
      (sRemoveEntry s p, [(e.key, e.value)])
    else (sRemoveEntry s p, [])

/-- SimpleLRU.Set: update and move to front on a hit; otherwise allocate,
link at head, insert into items, bump size, and call evictLocked when size
exceeds capacity (the callback runs after the unlock, with the pair
evictLocked returned). -/
def sSet [DecidableEq K] [Inhabited K] [Inhabited V] (cb : Bool)
    (s : LruShard K V) (k : K) (v : V) : LruShard K V × List (K × V) :=
  match findPtr s.items k with
  | some p =>
    (sMoveToFront { s with arena := modifyE s.arena p (fun e => { e with value := v }) } p, [])
  | none =>
    let p := s.arena.length
    let A0 := s.arena ++ [⟨k, v, none, none⟩]
    let linked : Arena K V × Option Nat × Option Nat :=
      match s.head with
      | none => (A0, some p, some p)
      | some h =>
        (modifyE (modifyE A0 p (fun e => { e with next := some h }))
           h (fun e => { e with prev := some p }), some p, s.tail)
    let s1 : LruShard K V :=
      { s with arena := linked.1, head := linked.2.1, tail := linked.2.2,
               items := (k, p) :: s.items, size := s.size + 1 }
    if s1.size > s1.capacity then sEvictLocked cb s1 else (s1, [])

/-- SimpleLRU.Get: on a hit, move to front and return the entry value; no
counters exist on SimpleLRU. -/
def sGet [DecidableEq K] [Inhabited K] [Inhabited V] (s : LruShard K V)
    (k : K) : (V × Bool) × LruShard K V :=
  match findPtr s.items k with
  | none => ((default, false), s)
  | some p =>
    let s1 := sMoveToFront s p
    (((getE s1.arena p).value, true), s1)

/-- SimpleLRU.Delete: false on a miss; otherwise read the pair (when a
callback is configured), removeEntry, and invoke the callback after the
unlock. -/
def sDelete [DecidableEq K] [Inhabited K] [Inhabited V] (cb : Bool)
    (s : LruShard K V) (k : K) : (Bool × LruShard K V) × List (K × V) :=
  match findPtr s.items k with
  | none => ((false, s), [])
  | some p =>
    let e := getE s.arena p
    ((true, sRemoveEntry s p), if cb then [(e.key, e.value)] else [])

/-- SimpleLRU.Clear: collect every (key, value) for the callback when one
is configured (Go map iteration order modelled by the list order), then
reset items, head, tail and size. -/
def sClear [DecidableEq K] [Inhabited K] [Inhabited V] (cb : Bool)
    (s : LruShard K V) : LruShard K V × List (K × V) :=
  (zClear s,
   if cb then s.items.map (fun q => (q.1, (getE s.arena q.2).value)) else [])

/-! ## The linked list invariant: ChainAux A pr h ps says that following
next pointers from h visits exactly the pointers ps, with prev pointers
mirroring next pointers and the first prev equal to pr. -/

def ChainAux (A : Arena K V) : Option Nat → Option Nat → List Nat → Prop
  | _, h, [] => h = none
  | pr, h, p :: ps =>
    h = some p ∧
      ∃ e, A[p]? = some e ∧ e.prev = pr ∧ ChainAux A (some p) e.next ps

theorem length_modifyE (A : Arena K V) (q : Nat)
    (f : LruEntry K V → LruEntry K V) : (modifyE A q f).length = A.length := by
  unfold modifyE
  cases hq : A[q]? with
  | none => rfl
  | some e => simp

theorem get?_modifyE_ne (A : Arena K V) (p q : Nat)
    (f : LruEntry K V → LruEntry K V) (h : p ≠ q) :
    (modifyE A q f)[p]? = A[p]? := by
  unfold modifyE
  cases hq : A[q]? with
  | none => rfl
  | some e => exact List.getElem?_set_ne (Ne.symm h)

theorem get?_modifyE_self (A : Arena K V) (p : Nat)
    (f : LruEntry K V → LruEntry K V) :
    (modifyE A p f)[p]? = A[p]?.map f := by
  unfold modifyE
  cases hq : A[p]? with
  | none => simp [hq]
  | some e =>
    have hlt : p < A.length := by
      rcases List.getElem?_eq_some_iff.1 hq with ⟨hlt, _⟩
      exact hlt
    simp only [hq, Option.map_some]
    rw [List.getElem?_set_self hlt]
    rfl

theorem get?_append_lt (A B : Arena K V) (p : Nat) (h : p < A.length) :
    (A ++ B)[p]? = A[p]? :=
  List.getElem?_append_left h

theorem get?_append_len (A : Arena K V) (e : LruEntry K V) :
    (A ++ [e])[A.length]? = some e := by
  rw [List.getElem?_append_right (Nat.le_refl _)]
  simp

theorem chainAux_congr (A A' : Arena K V) :
    ∀ (ps : List Nat) (pr h : Option Nat),
      (∀ p ∈ ps, A'[p]? = A[p]?) →
      ChainAux A pr h ps → ChainAux A' pr h ps := by
  intro ps
  induction ps with
  | nil => intro pr h _ hc; exact hc
  | cons p t ih =>
    intro pr h hag hc
    obtain ⟨hh, e, hget, hprev, hrest⟩ := hc
    exact ⟨hh, e, (hag p (by simp)) ▸ hget, hprev,
      ih (some p) e.next (fun x hx => hag x (by simp [hx])) hrest⟩

theorem chainAux_mem_lt (A : Arena K V) :
    ∀ (ps : List Nat) (pr h : Option Nat),
      ChainAux A pr h ps → ∀ p ∈ ps, p < A.length := by
  intro ps
  induction ps with
  | nil => intro _ _ _ p hp; simp at hp
  | cons q t ih =>
    intro pr h hc p hp
    obtain ⟨hh, e, hget, hprev, hrest⟩ := hc
    rcases List.mem_cons.1 hp with rfl | hmem
    · rcases List.getElem?_eq_some_iff.1 hget with ⟨hlt, _⟩
      exact hlt
    · exact ih (some q) e.next hrest p hmem

theorem chainAux_head_eq (A : Arena K V) (ps : List Nat) (pr h : Option Nat)
    (hc : ChainAux A pr h ps) : h = ps.head? := by
  cases ps with
  | nil => exact hc
  | cons p t => exact hc.1

/-- The pointer just before a segment: the last element of xs, or the
anchor pr when xs is empty. -/
def lastOr (xs : List Nat) (pr : Option Nat) : Option Nat :=
  match xs.getLast? with
  | some q => some q
  | none => pr

/-- The entry in the middle of a chain: its prev is the previous chain
element (or the anchor) and its next is the following chain element. -/
theorem chainAux_entry_at (A : Arena K V) (p : Nat) :
    ∀ (xs : List Nat) (pr h : Option Nat) (ys : List Nat),
      ChainAux A pr h (xs ++ p :: ys) →
      ∃ e, A[p]? = some e ∧ e.prev = lastOr xs pr ∧
        ChainAux A (some p) e.next ys ∧ e.next = ys.head? := by
  intro xs
  induction xs with
  | nil =>
    intro pr h ys hc
    obtain ⟨hh, e, hget, hprev, hrest⟩ := hc
    exact ⟨e, hget, by simpa [lastOr] using hprev, hrest,
      chainAux_head_eq A ys (some p) e.next hrest⟩
  | cons x xs ih =>
    intro pr h ys hc
    obtain ⟨hh, e, hget, hprev, hrest⟩ := hc
    obtain ⟨e', hget', hprev', hrest', hnext'⟩ := ih (some x) e.next ys hrest
    refine ⟨e', hget', ?_, hrest', hnext'⟩
    rw [hprev']
    cases hxs : xs.getLast? with
    | none =>
      have : xs = [] := List.getLast?_eq_none_iff.1 hxs
      subst this
      simp [lastOr, hxs]
    | some q =>
      match xs, hxs with
      | y :: ys2, hxs =>
        simp only [lastOr, hxs]
        rw [List.getLast?_cons_cons, hxs]

/-- The arena after the two unlink writes of removeEntry / moveToFront:
the next pointer of the predecessor (when there is one) is redirected to
nextP, and the prev pointer of the successor (when there is one) is
redirected to prevP. -/
def unlinkW (A : Arena K V) (prevP nextP : Option Nat) : Arena K V :=
  let A1 := match prevP with
    | some q => modifyE A q (fun e => { e with next := nextP })
    | none => A
  match nextP with
  | some r => modifyE A1 r (fun e => { e with prev := prevP })
  | none => A1

theorem get?_unlinkW_ne (A : Arena K V) (pp np : Option Nat) (x : Nat)
    (h1 : pp ≠ some x) (h2 : np ≠ some x) :
    (unlinkW A pp np)[x]? = A[x]? := by
  unfold unlinkW
  cases pp with
  | none =>
    cases np with
    | none => rfl
    | some r => exact get?_modifyE_ne _ x r _ (fun hc => h2 (by rw [hc]))
  | some q =>
    cases np with
    | none => exact get?_modifyE_ne _ x q _ (fun hc => h1 (by rw [hc]))
    | some r =>
      rw [get?_modifyE_ne _ x r _ (fun hc => h2 (by rw [hc]))]
      exact get?_modifyE_ne _ x q _ (fun hc => h1 (by rw [hc]))

theorem get?_unlinkW_next (A : Arena K V) (np : Option Nat) (x : Nat)
    (e : LruEntry K V) (hget : A[x]? = some e) (h2 : np ≠ some x) :
    (unlinkW A (some x) np)[x]? = some { e with next := np } := by
  unfold unlinkW
  cases np with
  | none => rw [get?_modifyE_self, hget]; rfl
  | some r =>
    rw [get?_modifyE_ne _ x r _ (fun hc => h2 (by rw [hc])),
      get?_modifyE_self, hget]
    rfl

theorem get?_unlinkW_prev (A : Arena K V) (pp : Option Nat) (x : Nat)
    (e : LruEntry K V) (hget : A[x]? = some e) (h1 : pp ≠ some x) :
    (unlinkW A pp (some x))[x]? = some { e with prev := pp } := by
  unfold unlinkW
  cases pp with
  | none => rw [get?_modifyE_self, hget]; rfl
  | some q =>
    rw [get?_modifyE_self, get?_modifyE_ne _ x q _ (fun hc => h1 (by rw [hc])),
      hget]
    rfl

theorem lastOr_cons (x : Nat) (xs : List Nat) (pr : Option Nat) :
    lastOr (x :: xs) pr = lastOr xs (some x) := by
  cases xs with
  | nil => rfl
  | cons y t =>
    unfold lastOr
    rw [List.getLast?_cons_cons]
    cases hl : (y :: t).getLast? with
    | none => simp at hl
    | some z => rfl

/-- Unlinking one element of a chain: after the two removeEntry pointer
writes, the chain without that element is again a chain. -/
theorem chainAux_unlink (A : Arena K V) (p : Nat) :
    ∀ (xs : List Nat) (pr : Option Nat) (ys : List Nat) (h : Option Nat),
      ChainAux A pr h (xs ++ p :: ys) →
      (xs ++ p :: ys).Nodup →
      (∀ q0, pr = some q0 → q0 ∉ xs ++ p :: ys) →
      ChainAux (unlinkW A (lastOr xs pr) ys.head?) pr (xs ++ ys).head?
        (xs ++ ys) := by
  intro xs
  induction xs with
  | nil =>
    intro pr ys h hc hnd hpr
    obtain ⟨hh, e, hget, hprev, hrest⟩ := hc
    cases ys with
    | nil => simp [ChainAux]
    | cons r ys2 =>
      obtain ⟨hh2, er, hgetr, hprevr, hrestr⟩ := hrest
      have hrne : ∀ q0, pr = some q0 → q0 ≠ r := by
        intro q0 hq0 hc0
        exact hpr q0 hq0 (by simp [hc0])
      have hrA : (unlinkW A (lastOr [] pr) (r :: ys2).head?)[r]?
          = some { er with prev := pr } := by
        simp only [lastOr, List.getLast?_nil, List.head?_cons]
        exact get?_unlinkW_prev A pr r er hgetr
          (fun hc0 => hrne r hc0 rfl)
      refine ⟨by simp, { er with prev := pr }, hrA, rfl, ?_⟩
      have hframe : ∀ x ∈ ys2,
          (unlinkW A (lastOr [] pr) (r :: ys2).head?)[x]? = A[x]? := by
        intro x hx
        simp only [lastOr, List.getLast?_nil, List.head?_cons]
        apply get?_unlinkW_ne
        · intro hc0
          exact hpr x (by rw [hc0]) (by simp [hx])
        · intro hc0
          have : r = x := by simpa using hc0
          have hnd2 : (r :: ys2).Nodup := (List.nodup_cons.1 hnd).2
          exact (List.nodup_cons.1 hnd2).1 (this ▸ hx)
      exact chainAux_congr A _ ys2 (some r) er.next hframe hrestr
  | cons x xs ih =>
    intro pr ys h hc hnd hpr
    obtain ⟨hh, e, hget, hprev, hrest⟩ := hc
    have hndt : (xs ++ p :: ys).Nodup := (List.nodup_cons.1 hnd).2
    have hxnot : x ∉ xs ++ p :: ys := (List.nodup_cons.1 hnd).1
    have hih := ih (some x) ys e.next hrest hndt
      (by intro q0 hq0; cases hq0; exact hxnot)
    rw [← lastOr_cons x xs pr] at hih
    set A' := unlinkW A (lastOr (x :: xs) pr) ys.head? with hA'
    refine ⟨by cases xs <;> simp, ?_⟩
    cases xs with
    | nil =>
      have hlast : lastOr ([] : List Nat) (some x) = some x := rfl
      have hxA : A'[x]? = some { e with next := ys.head? } := by
        rw [hA', lastOr_cons, hlast]
        apply get?_unlinkW_next A ys.head? x e hget
        intro hc0
        apply hxnot
        cases ys with
        | nil => simp at hc0
        | cons r ys2 =>
          simp only [List.head?_cons, Option.some_inj] at hc0
          simp [hc0]
      refine ⟨{ e with next := ys.head? }, hxA, hprev, ?_⟩
      simpa using hih
    | cons y t =>
      have hxA : A'[x]? = some e := by
        rw [hA']
        have h1 : lastOr (x :: y :: t) pr ≠ some x := by
          rw [lastOr_cons]
          intro hc0
          have hmem : ∀ q0, lastOr (y :: t) (some x) = some q0 →
              q0 ∈ y :: t := by
            intro q0 hq0
            unfold lastOr at hq0
            cases hl : (y :: t).getLast? with
            | none => simp at hl
            | some z =>
              rw [hl] at hq0
              cases hq0
              obtain ⟨hne9, hz9⟩ := List.mem_getLast?_eq_getLast
                (show q0 ∈ (y :: t).getLast? by rw [hl]; rfl)
              exact hz9 ▸ List.getLast_mem hne9
          have := hmem x hc0
          exact hxnot (by
            simp only [List.cons_append, List.mem_cons, List.mem_append] at this ⊢
            tauto)
        have h2 : ys.head? ≠ some x := by
          intro hc0
          cases ys with
          | nil => simp at hc0
          | cons r ys2 =>
            simp only [List.head?_cons, Option.some_inj] at hc0
            exact hxnot (by simp [hc0])
        rw [get?_unlinkW_ne A _ _ x h1 h2]
        exact hget
      refine ⟨e, hxA, hprev, ?_⟩
      have hnexte : e.next = some y := by
        have := chainAux_head_eq A ((y :: t) ++ p :: ys) (some x) e.next hrest
        simpa using this
      rw [hnexte]
      have hhead : ((y :: t) ++ ys).head? = some y := by simp
      rw [hhead] at hih
      exact hih

/-- Prepending a fresh entry to a chain: the new entry has nil prev and
points at the old head, whose prev pointer now points back at it; all
other entries are untouched. -/
theorem chainAux_prepend (A A' : Arena K V) (p : Nat) (e' : LruEntry K V) :
    ∀ (ps : List Nat) (h : Option Nat),
      ChainAux A none h ps →
      A'[p]? = some e' → e'.prev = none → e'.next = h →
      (∀ x ∈ ps.tail, A'[x]? = A[x]?) →
      (∀ h0, ps.head? = some h0 →
        ∃ e0, A[h0]? = some e0 ∧ A'[h0]? = some { e0 with prev := some p }) →
      ChainAux A' none (some p) (p :: ps) := by
  intro ps h hc hp' hprev' hnext' hframe hhead
  refine ⟨rfl, e', hp', hprev', ?_⟩
  rw [hnext']
  cases ps with
  | nil =>
    have : h = none := hc
    rw [this]
    simp [ChainAux]
  | cons h0 rest =>
    obtain ⟨hh, e0c, hget0, _, hrest⟩ := hc
    obtain ⟨e0, hget0', hA'h0⟩ := hhead h0 rfl
    have he0 : e0 = e0c := by
      rw [hget0] at hget0'
      exact (Option.some_inj.1 hget0').symm
    subst he0
    rw [hh]
    refine ⟨rfl, { e0 with prev := some p }, hA'h0, rfl, ?_⟩
    exact chainAux_congr A A' rest (some h0) e0.next
      (fun x hx => hframe x (by simpa using hx)) hrest

/-- Every chain member dereferences to its chain entry. -/
theorem chainAux_getE [Inhabited K] [Inhabited V] (A : Arena K V)
    (ps : List Nat) (pr h : Option Nat) (hc : ChainAux A pr h ps)
    (p : Nat) (hp : p ∈ ps) : A[p]? = some (getE A p) := by
  have hlt := chainAux_mem_lt A ps pr h hc p hp
  unfold getE
  rw [List.getD_eq_getElem?_getD, List.getElem?_eq_getElem hlt]
  rfl

/-! ## The shard representation invariant -/

/-- The key stored at pointer p. -/
def keyAt [Inhabited K] [Inhabited V] (A : Arena K V) (p : Nat) : K :=
  (getE A p).key

/-- The (key, value) list a pointer list denotes, front (most recently
used) first. -/
def absOf [Inhabited K] [Inhabited V] (A : Arena K V) (ps : List Nat) :
    List (K × V) :=
  ps.map (fun p => ((getE A p).key, (getE A p).value))

/-- Rep s ps: the shard state s is a well-formed LRU shard whose linked
list is the pointer list ps (head first): following next pointers from
head visits exactly ps, tail is the last of ps, the items map holds
exactly the pairs (key of p, p) for p in ps, keys are distinct, and the
size counter is the number of entries. -/
structure Rep [DecidableEq K] [Inhabited K] [Inhabited V]
    (s : LruShard K V) (ps : List Nat) : Prop where
  chain : ChainAux s.arena none s.head ps
  tailEq : s.tail = ps.getLast?
  nodup : ps.Nodup
  itemsPerm : s.items.Perm (ps.map (fun p => (keyAt s.arena p, p)))
  keysNodup : (ps.map (keyAt s.arena)).Nodup
  sizeEq : s.size = ps.length

theorem key_unique {l : List (K × Nat)} (hnd : (l.map Prod.fst).Nodup)
    {k : K} {p q : Nat} (hp : (k, p) ∈ l) (hq : (k, q) ∈ l) : p = q := by
  induction l with
  | nil => simp at hp
  | cons a t ih =>
    simp only [List.map_cons, List.nodup_cons] at hnd
    rcases List.mem_cons.1 hp with rfl | hp2
    · rcases List.mem_cons.1 hq with h | hq2
      · exact (congrArg Prod.snd h).symm
      · exact absurd (List.mem_map_of_mem Prod.fst hq2) (by simpa using hnd.1)
    · rcases List.mem_cons.1 hq with rfl | hq2
      · exact absurd (List.mem_map_of_mem Prod.fst hp2) (by simpa using hnd.1)
      · exact ih hnd.2 hp2 hq2

theorem findPtr_eq_some_iff [DecidableEq K] {l : List (K × Nat)}
    (hnd : (l.map Prod.fst).Nodup) (k : K) (p : Nat) :
    findPtr l k = some p ↔ (k, p) ∈ l := by
  constructor
  · intro h
    unfold findPtr at h
    cases hf : l.find? (fun q => decide (q.1 = k)) with
    | none => rw [hf] at h; simp at h
    | some q =>
      rw [hf] at h
      have h : q.2 = p := Option.some_inj.1 h
      have hmem := List.mem_of_find?_eq_some hf
      have hkey := List.find?_some hf
      simp only [decide_eq_true_eq] at hkey
      have : q = (k, p) := by
        cases q
        simp only at hkey h
        simp [hkey, h]
      exact this ▸ hmem
  · intro h
    induction l with
    | nil => simp at h
    | cons a t ih =>
      simp only [List.map_cons, List.nodup_cons] at hnd
      rcases List.mem_cons.1 h with rfl | h2
      · unfold findPtr
        rw [List.find?_cons_of_pos _ (by simp)]
        rfl
      · unfold findPtr
        have hak : a.1 ≠ k := by
          intro hc
          exact hnd.1 (hc ▸ List.mem_map_of_mem Prod.fst h2)
        rw [List.find?_cons_of_neg _ (by simpa using hak)]
        exact ih hnd.2 h2

theorem findPtr_eq_none_iff [DecidableEq K] (l : List (K × Nat)) (k : K) :
    findPtr l k = none ↔ k ∉ l.map Prod.fst := by
  unfold findPtr
  rw [Option.map_eq_none']
  constructor
  · intro h hmem
    rw [List.find?_eq_none] at h
    obtain ⟨q, hq, hqk⟩ := List.mem_map.1 hmem
    exact absurd (by simpa using hqk) (by simpa using h q hq)
  · intro h
    rw [List.find?_eq_none]
    intro q hq
    simp only [decide_eq_true_eq]
    intro hc
    exact h (hc ▸ List.mem_map_of_mem Prod.fst hq)

theorem perm_map_nodup {α β : Type} {l1 l2 : List α} (f : α → β)
    (h : l1.Perm l2) (hnd : (l2.map f).Nodup) : (l1.map f).Nodup :=
  ((h.map f).nodup_iff).2 hnd

theorem findPtr_perm [DecidableEq K] {l1 l2 : List (K × Nat)}
    (h : l1.Perm l2) (hnd : (l2.map Prod.fst).Nodup) (k : K) :
    findPtr l1 k = findPtr l2 k := by
  have hnd1 : (l1.map Prod.fst).Nodup := perm_map_nodup Prod.fst h hnd
  cases hf : findPtr l2 k with
  | some p =>
    rw [(findPtr_eq_some_iff hnd1 k p).2 (h.mem_iff.2 ((findPtr_eq_some_iff hnd k p).1 hf))]
  | none =>
    rw [(findPtr_eq_none_iff l1 k).2]
    intro hmem
    exact (findPtr_eq_none_iff l2 k).1 hf ((h.map Prod.fst).mem_iff.1 hmem)

/-- findPtr under Rep: the items lookup returns exactly the chain pointer
carrying key k. -/
theorem rep_findPtr [DecidableEq K] [Inhabited K] [Inhabited V]
    {s : LruShard K V} {ps : List Nat} (hr : Rep s ps) (k : K) (p : Nat) :
    findPtr s.items k = some p ↔ p ∈ ps ∧ keyAt s.arena p = k := by
  have hnd : ((ps.map (fun p => (keyAt s.arena p, p))).map Prod.fst).Nodup := by
    have : (ps.map (fun p => (keyAt s.arena p, p))).map Prod.fst
        = ps.map (keyAt s.arena) := by
      rw [List.map_map]
      rfl
    rw [this]
    exact hr.keysNodup
  rw [findPtr_perm hr.itemsPerm hnd k, findPtr_eq_some_iff hnd k p]
  constructor
  · intro h
    obtain ⟨q, hq, hqk⟩ := List.mem_map.1 h
    have h1 : keyAt s.arena q = k := congrArg Prod.fst hqk
    have h2 : q = p := congrArg Prod.snd hqk
    subst h2
    exact ⟨hq, h1⟩
  · intro ⟨hp, hk⟩
    exact List.mem_map.2 ⟨p, hp, by rw [hk]⟩

theorem rep_findPtr_none [DecidableEq K] [Inhabited K] [Inhabited V]
    {s : LruShard K V} {ps : List Nat} (hr : Rep s ps) (k : K) :
    findPtr s.items k = none ↔ k ∉ ps.map (keyAt s.arena) := by
  have hnd : ((ps.map (fun p => (keyAt s.arena p, p))).map Prod.fst).Nodup := by
    have : (ps.map (fun p => (keyAt s.arena p, p))).map Prod.fst
        = ps.map (keyAt s.arena) := by
      rw [List.map_map]
      rfl
    rw [this]
    exact hr.keysNodup
  rw [findPtr_perm hr.itemsPerm hnd k, findPtr_eq_none_iff]
  have : (ps.map (fun p => (keyAt s.arena p, p))).map Prod.fst
      = ps.map (keyAt s.arena) := by
    rw [List.map_map]
    rfl
  rw [this]

/-- The key and value stored at pointer p. -/
def kvAt [Inhabited K] [Inhabited V] (A : Arena K V) (p : Nat) : K × V :=
  ((getE A p).key, (getE A p).value)

/-- The arenas agree on keys and values everywhere (only prev/next links
were rewritten). -/
def SameKV [Inhabited K] [Inhabited V] (A A' : Arena K V) : Prop :=
  ∀ x, kvAt A' x = kvAt A x

theorem sameKV_refl [Inhabited K] [Inhabited V] (A : Arena K V) :
    SameKV A A := fun _ => rfl

theorem sameKV_trans [Inhabited K] [Inhabited V] {A B C : Arena K V}
    (h1 : SameKV A B) (h2 : SameKV B C) : SameKV A C :=
  fun x => (h2 x).trans (h1 x)

theorem absOf_congr [Inhabited K] [Inhabited V] {A A' : Arena K V}
    (h : SameKV A A') (ps : List Nat) : absOf A' ps = absOf A ps := by
  unfold absOf
  apply List.map_congr_left
  intro p _
  have := h p
  unfold kvAt at this
  have h1 := congrArg Prod.fst this
  have h2 := congrArg Prod.snd this
  simp only at h1 h2
  rw [h1, h2]

theorem keyAt_congr [Inhabited K] [Inhabited V] {A A' : Arena K V}
    (h : SameKV A A') (ps : List Nat) :
    ps.map (keyAt A') = ps.map (keyAt A) := by
  apply List.map_congr_left
  intro p _
  have := congrArg Prod.fst (h p)
  simpa [kvAt, keyAt] using this

theorem itemsMap_congr [Inhabited K] [Inhabited V] {A A' : Arena K V}
    (h : SameKV A A') (ps : List Nat) :
    ps.map (fun p => (keyAt A' p, p)) = ps.map (fun p => (keyAt A p, p)) := by
  apply List.map_congr_left
  intro p _
  have := congrArg Prod.fst (h p)
  simp only [kvAt] at this
  simp [keyAt, this]

/-- modifyE with a link-only rewrite preserves keys and values. -/
theorem sameKV_modifyE [Inhabited K] [Inhabited V] (A : Arena K V) (q : Nat)
    (f : LruEntry K V → LruEntry K V)
    (hf : ∀ e, (f e).key = e.key ∧ (f e).value = e.value) :
    SameKV A (modifyE A q f) := by
  intro x
  rcases eq_or_ne x q with rfl | hne
  · unfold kvAt getE
    rw [List.getD_eq_getElem?_getD, List.getD_eq_getElem?_getD,
      get?_modifyE_self]
    cases hx : A[x]? with
    | none => rfl
    | some e =>
      simp [(hf e).1, (hf e).2]
  · unfold kvAt getE
    rw [List.getD_eq_getElem?_getD, List.getD_eq_getElem?_getD,
      get?_modifyE_ne _ x q _ hne]

theorem sameKV_unlinkW [Inhabited K] [Inhabited V] (A : Arena K V)
    (pp np : Option Nat) : SameKV A (unlinkW A pp np) := by
  unfold unlinkW
  cases pp with
  | none =>
    cases np with
    | none => exact sameKV_refl A
    | some r =>
      exact sameKV_modifyE A r (fun e => { e with prev := none })
        (fun e => ⟨rfl, rfl⟩)
  | some q =>
    cases np with
    | none =>
      exact sameKV_modifyE A q (fun e => { e with next := none })
        (fun e => ⟨rfl, rfl⟩)
    | some r =>
      show SameKV A (modifyE (modifyE A q fun e => { e with next := some r })
        r fun e => { e with prev := some q })
      exact sameKV_trans
        (sameKV_modifyE A q (fun e => { e with next := some r })
          (fun e => ⟨rfl, rfl⟩))
        (sameKV_modifyE (modifyE A q fun e => { e with next := some r }) r
          (fun e => { e with prev := some q }) (fun e => ⟨rfl, rfl⟩))

theorem length_unlinkW (A : Arena K V) (pp np : Option Nat) :
    (unlinkW A pp np).length = A.length := by
  unfold unlinkW
  cases pp with
  | none => cases np with
    | none => rfl
    | some r => exact length_modifyE _ _ _
  | some q =>
    cases np with
    | none => exact length_modifyE _ _ _
    | some r => rw [length_modifyE, length_modifyE]

theorem getE_eq_of_get? [Inhabited K] [Inhabited V] {A : Arena K V} {p : Nat}
    {e : LruEntry K V} (h : A[p]? = some e) : getE A p = e := by
  unfold getE
  rw [List.getD_eq_getElem?_getD, h]
  rfl

theorem getE_modifyE_ne [Inhabited K] [Inhabited V] (A : Arena K V)
    (p q : Nat) (f : LruEntry K V → LruEntry K V) (h : p ≠ q) :
    getE (modifyE A q f) p = getE A p := by
  unfold getE
  rw [List.getD_eq_getElem?_getD, List.getD_eq_getElem?_getD,
    get?_modifyE_ne A p q f h]

theorem lastOr_none (xs : List Nat) : lastOr xs none = xs.getLast? := by
  unfold lastOr
  cases xs.getLast? <;> rfl

/-- The relink writes of moveToFront: entry.prev = nil, entry.next = head,
head.prev = entry. -/
def frontW (A : Arena K V) (p h0 : Nat) : Arena K V :=
  modifyE (modifyE (modifyE A p (fun e => { e with prev := none })) p
    (fun e => { e with next := some h0 })) h0 (fun e => { e with prev := some p })

theorem sameKV_frontW [Inhabited K] [Inhabited V] (A : Arena K V)
    (p h0 : Nat) : SameKV A (frontW A p h0) := by
  unfold frontW
  exact sameKV_trans
    (sameKV_trans
      (sameKV_modifyE A p (fun e => { e with prev := none })
        (fun e => ⟨rfl, rfl⟩))
      (sameKV_modifyE (modifyE A p fun e => { e with prev := none }) p
        (fun e => { e with next := some h0 }) (fun e => ⟨rfl, rfl⟩)))
    (sameKV_modifyE (modifyE (modifyE A p fun e => { e with prev := none }) p
        fun e => { e with next := some h0 }) h0
      (fun e => { e with prev := some p }) (fun e => ⟨rfl, rfl⟩))

theorem length_frontW (A : Arena K V) (p h0 : Nat) :
    (frontW A p h0).length = A.length := by
  unfold frontW
  rw [length_modifyE, length_modifyE, length_modifyE]

/-- Computation of sMoveToFront when the entry is linked mid-chain: the
rereads of the entry see its original fields, and the writes are exactly
the unlink writes followed by the relink writes. -/
theorem sMoveToFront_eq [DecidableEq K] [Inhabited K] [Inhabited V]
    (s : LruShard K V) (p h0 q : Nat) (hh : s.head = some h0) (hne : p ≠ h0)
    (hq : (getE s.arena p).prev = some q) (hqp : q ≠ p)
    (hrp : ∀ r, (getE s.arena p).next = some r → r ≠ p) :
    sMoveToFront s p = { s with
      arena := frontW (unlinkW s.arena (getE s.arena p).prev
        (getE s.arena p).next) p h0,
      head := some p,
      tail := if s.tail = some p then (getE s.arena p).prev else s.tail } := by
  obtain ⟨A, items, head, tail, cap, sz, ac, hc⟩ := s
  simp only at hh hq hrp ⊢
  subst hh
  cases hnext : (getE A p).next with
  | none =>
    simp only [sMoveToFront, hq, hnext, if_neg hne,
      getE_modifyE_ne A p q _ (Ne.symm hqp)]
    unfold frontW unlinkW
    simp only [hq, hnext]
  | some r =>
    have hrne : p ≠ r := fun hc => (hrp r hnext) hc.symm
    simp only [sMoveToFront, hq, hnext, if_neg hne,
      getE_modifyE_ne A p q _ (Ne.symm hqp)]
    rw [getE_modifyE_ne _ p r _ hrne, getE_modifyE_ne A p q _ (Ne.symm hqp)]
    unfold frontW unlinkW
    simp only [hq, hnext]

theorem sMoveToFront_head [DecidableEq K] [Inhabited K] [Inhabited V]
    (s : LruShard K V) (p : Nat) (hh : s.head = some p) :
    sMoveToFront s p = s := by
  obtain ⟨A, items, head, tail, cap, sz, ac, hc⟩ := s
  simp only at hh
  subst hh
  simp [sMoveToFront]

/-- Moving a linked entry to the front preserves the representation, with
the pointer list rotated to the front; keys, values, items, size and
counters are untouched. -/
theorem rep_moveToFront [DecidableEq K] [Inhabited K] [Inhabited V]
    {s : LruShard K V} {p : Nat} {xs ys : List Nat}
    (hr : Rep s (xs ++ p :: ys)) :
    Rep (sMoveToFront s p) (p :: (xs ++ ys)) ∧
      SameKV s.arena (sMoveToFront s p).arena ∧
      (sMoveToFront s p).arena.length = s.arena.length ∧
      (sMoveToFront s p).items = s.items ∧
      (sMoveToFront s p).size = s.size ∧
      (sMoveToFront s p).capacity = s.capacity ∧
      (sMoveToFront s p).accessCnt = s.accessCnt ∧
      (sMoveToFront s p).hitCnt = s.hitCnt := by
  have hh := chainAux_head_eq s.arena _ none s.head hr.chain
  cases xs with
  | nil =>
    have hh' : s.head = some p := by simpa using hh
    have hsv := sMoveToFront_head s p hh'
    rw [hsv]
    exact ⟨hr, sameKV_refl _, rfl, rfl, rfl, rfl, rfl, rfl⟩
  | cons h0 xs' =>
    have hh' : s.head = some h0 := by simpa using hh
    have hnd := hr.nodup
    have hndsplit : (h0 :: xs').Nodup ∧ (p :: ys).Nodup ∧
        (h0 :: xs').Disjoint (p :: ys) := List.nodup_append.1 hnd
    have hh0not : h0 ∉ xs' ++ p :: ys := by
      intro hc
      rcases List.mem_append.1 hc with h9 | h9
      · exact (List.nodup_cons.1 hndsplit.1).1 h9
      · exact hndsplit.2.2 (by simp) h9
    have hpne : p ≠ h0 := by
      intro hc
      exact hh0not (by simp [hc])
    obtain ⟨e, hget, hprev, hchainys, hnext⟩ :=
      chainAux_entry_at s.arena p (h0 :: xs') none s.head ys hr.chain
    have hgetE : getE s.arena p = e := getE_eq_of_get? hget
    cases hl : (h0 :: xs').getLast? with
    | none => simp at hl
    | some q =>
      have hqprev : (getE s.arena p).prev = some q := by
        rw [hgetE, hprev, lastOr_none, hl]
      have hqmem : q ∈ h0 :: xs' := by
        obtain ⟨hne9, hz9⟩ := List.mem_getLast?_eq_getLast
          (show q ∈ (h0 :: xs').getLast? by rw [hl]; rfl)
        exact hz9 ▸ List.getLast_mem hne9
      have hpnotxs : p ∉ h0 :: xs' := by
        intro hc
        exact hndsplit.2.2 hc (by simp)
      have hpnotys : p ∉ ys := (List.nodup_cons.1 hndsplit.2.1).1
      have hqp : q ≠ p := fun hc => hpnotxs (hc ▸ hqmem)
      have hrp : ∀ r, (getE s.arena p).next = some r → r ≠ p := by
        intro r hr9 hc
        rw [hgetE, hnext] at hr9
        subst hc
        cases ys with
        | nil => simp at hr9
        | cons y t =>
          have h9 : y = r := by simpa using hr9
          exact hpnotys (by simp [h9])
      have heq := sMoveToFront_eq s p h0 q hh' hpne hqprev hqp hrp
      rw [heq]
      set A2 := unlinkW s.arena (getE s.arena p).prev (getE s.arena p).next
        with hA2
      have hA2alt : A2 = unlinkW s.arena (lastOr (h0 :: xs') none) ys.head? := by
        rw [hA2, hqprev, hgetE, hnext, lastOr_none, hl]
      have hunlink : ChainAux A2 none ((h0 :: xs') ++ ys).head?
          ((h0 :: xs') ++ ys) := by
        rw [hA2alt]
        exact chainAux_unlink s.arena p (h0 :: xs') none ys s.head hr.chain
          hnd (by intro q0 hq0; cases hq0)
      have hsame2 : SameKV s.arena A2 := hA2 ▸ sameKV_unlinkW _ _ _
      set A' := frontW A2 p h0 with hA'
      have hsame : SameKV s.arena A' :=
        sameKV_trans hsame2 (hA' ▸ sameKV_frontW A2 p h0)
      have hA2p : A2[p]? = some e := by
        rw [hA2, hqprev, hgetE, hnext]
        rw [get?_unlinkW_ne]
        · exact hget
        · intro hc
          exact hqp (by simpa using hc)
        · intro hc
          cases ys with
          | nil => simp at hc
          | cons y t =>
            exact hpnotys (by simp only [List.head?_cons,
              Option.some_inj] at hc; simp [hc])
      have hA'p : A'[p]? = some { e with prev := none, next := some h0 } := by
        rw [hA']
        unfold frontW
        rw [get?_modifyE_ne _ p h0 _ hpne, get?_modifyE_self, get?_modifyE_self,
          hA2p]
        rfl
      have hchain' : ChainAux A' none (some p) (p :: ((h0 :: xs') ++ ys)) := by
        apply chainAux_prepend A2 A' p { e with prev := none, next := some h0 }
          ((h0 :: xs') ++ ys) (((h0 :: xs') ++ ys).head?) hunlink hA'p rfl
          (by simp)
        · intro x hx
          have hxmem : x ∈ xs' ++ ys := by simpa using hx
          have hxnep : x ≠ p := by
            intro hc
            subst hc
            rcases List.mem_append.1 hxmem with h9 | h9
            · exact hpnotxs (by simp [h9])
            · exact hpnotys h9
          have hxneh0 : x ≠ h0 := by
            intro hc
            subst hc
            rcases List.mem_append.1 hxmem with h9 | h9
            · exact (List.nodup_cons.1 hndsplit.1).1 h9
            · exact hh0not (by simp [h9])
          rw [hA']
          unfold frontW
          rw [get?_modifyE_ne _ x h0 _ hxneh0, get?_modifyE_ne _ x p _ hxnep,
            get?_modifyE_ne _ x p _ hxnep]
        · intro hx0 hhx0
          have hx0eq : h0 = hx0 := by simpa using hhx0
          cases hx0eq
          have hh0mem : h0 ∈ (h0 :: xs') ++ ys := by simp
          have hA2h0 := chainAux_getE A2 _ none _ hunlink h0 hh0mem
          refine ⟨getE A2 h0, hA2h0, ?_⟩
          rw [hA']
          unfold frontW
          rw [get?_modifyE_self, get?_modifyE_ne _ h0 p _ (Ne.symm hpne),
            get?_modifyE_ne _ h0 p _ (Ne.symm hpne), hA2h0]
          rfl
      refine ⟨?_, hsame, ?_, rfl, rfl, rfl, rfl, rfl⟩
      · refine ⟨hchain', ?_, ?_, ?_, ?_, ?_⟩
        · show (if s.tail = some p then (getE s.arena p).prev else s.tail)
            = (p :: ((h0 :: xs') ++ ys)).getLast?
          have htl := hr.tailEq
          cases ys with
          | nil =>
            have hst : s.tail = some p := by
              rw [htl]
              exact List.getLast?_concat _
            rw [if_pos hst, hqprev]
            show some q = (p :: ((h0 :: xs') ++ [])).getLast?
            rw [List.append_nil]
            rw [show (p :: (h0 :: xs')).getLast? = (h0 :: xs').getLast? from
              List.getLast?_cons_cons]
            rw [hl]
          | cons r ys2 =>
            have hyne : (r :: ys2) ≠ [] := by simp
            have hpne2 : (p :: r :: ys2) ≠ [] := by simp
            have hst : s.tail = (r :: ys2).getLast? := by
              rw [htl, List.getLast?_append_of_ne_nil _ hpne2,
                List.getLast?_cons_cons]
            have hstne : s.tail ≠ some p := by
              rw [hst]
              intro hc
              obtain ⟨hne9, hz9⟩ := List.mem_getLast?_eq_getLast
                (show p ∈ (r :: ys2).getLast? by rw [hc]; rfl)
              exact hpnotys (hz9 ▸ List.getLast_mem hne9)
            rw [if_neg hstne, hst]
            rw [show (p :: ((h0 :: xs') ++ r :: ys2)).getLast?
                = ((h0 :: xs') ++ r :: ys2).getLast? by
              rw [List.cons_append, List.getLast?_cons_cons]]
            rw [List.getLast?_append_of_ne_nil _ hyne]
        · exact (List.perm_middle.nodup_iff).1 hnd
        · show s.items.Perm ((p :: ((h0 :: xs') ++ ys)).map
            (fun x => (keyAt A' x, x)))
          rw [itemsMap_congr hsame]
          exact hr.itemsPerm.trans (List.perm_middle.map _)
        · show ((p :: ((h0 :: xs') ++ ys)).map (keyAt A')).Nodup
          rw [keyAt_congr hsame]
          exact ((List.perm_middle.map (keyAt s.arena)).nodup_iff).1
            hr.keysNodup
        · show s.size = ((p :: ((h0 :: xs') ++ ys)) : List Nat).length
          rw [hr.sizeEq]
          simp
          omega
      · show A'.length = s.arena.length
        rw [hA', length_frontW, hA2, length_unlinkW]

/-- Agreement of keys and values on a set of pointers. -/
def KVOn [Inhabited K] [Inhabited V] (A A' : Arena K V) (l : List Nat) : Prop :=
  ∀ x ∈ l, kvAt A' x = kvAt A x

theorem sameKV_kvOn [Inhabited K] [Inhabited V] {A A' : Arena K V}
    (h : SameKV A A') (l : List Nat) : KVOn A A' l :=
  fun x _ => h x

theorem absOf_congrOn [Inhabited K] [Inhabited V] {A A' : Arena K V}
    {l : List Nat} (h : KVOn A A' l) : absOf A' l = absOf A l := by
  unfold absOf
  apply List.map_congr_left
  intro p hp
  have := h p hp
  unfold kvAt at this
  have h1 := congrArg Prod.fst this
  have h2 := congrArg Prod.snd this
  simp only at h1 h2
  rw [h1, h2]

theorem keyAt_congrOn [Inhabited K] [Inhabited V] {A A' : Arena K V}
    {l : List Nat} (h : KVOn A A' l) : l.map (keyAt A') = l.map (keyAt A) := by
  apply List.map_congr_left
  intro p hp
  have := congrArg Prod.fst (h p hp)
  simpa [kvAt, keyAt] using this

theorem itemsMap_congrOn [Inhabited K] [Inhabited V] {A A' : Arena K V}
    {l : List Nat} (h : KVOn A A' l) :
    l.map (fun p => (keyAt A' p, p)) = l.map (fun p => (keyAt A p, p)) := by
  apply List.map_congr_left
  intro p hp
  have := congrArg Prod.fst (h p hp)
  simp only [kvAt] at this
  simp [keyAt, this]

/-- Deleting the key of the middle pointer from the items image of the
chain removes exactly that pair. -/
theorem eraseKey_map [DecidableEq K] [Inhabited K] [Inhabited V]
    (A : Arena K V) (xs ys : List Nat) (p : Nat)
    (hnd : ((xs ++ p :: ys).map (keyAt A)).Nodup) :
    eraseKey ((xs ++ p :: ys).map (fun x => (keyAt A x, x))) (keyAt A p)
      = (xs ++ ys).map (fun x => (keyAt A x, x)) := by
  have hsplit : (xs.map (keyAt A)).Nodup ∧ (keyAt A p :: ys.map (keyAt A)).Nodup
      ∧ (xs.map (keyAt A)).Disjoint (keyAt A p :: ys.map (keyAt A)) := by
    rw [List.map_append, List.map_cons] at hnd
    exact List.nodup_append.1 hnd
  have hx : ∀ x ∈ xs, keyAt A x ≠ keyAt A p := by
    intro x hx hc
    exact hsplit.2.2 (List.mem_map_of_mem (keyAt A) hx) (by simp [hc])
  have hy : ∀ y ∈ ys, keyAt A y ≠ keyAt A p := by
    intro y hy hc
    have := (List.nodup_cons.1 hsplit.2.1).1
    exact this (hc ▸ List.mem_map_of_mem (keyAt A) hy)
  unfold eraseKey
  rw [List.map_append, List.map_cons, List.filter_append, List.filter_cons]
  simp only [decide_not, Prod.fst]
  rw [if_neg (by simp)]
  rw [List.map_append]
  congr 1
  · rw [List.filter_eq_self]
    intro a ha
    obtain ⟨x, hxm, rfl⟩ := List.mem_map.1 ha
    simpa using hx x hxm
  · rw [List.filter_eq_self]
    intro a ha
    obtain ⟨y, hym, rfl⟩ := List.mem_map.1 ha
    simpa using hy y hym

/-- Computation of zRemoveEntry: under no-aliasing of the prev/next
pointers of the removed entry, the rereads see the original entry and the
writes are the two unlink writes followed by the zeroing write. -/
theorem zRemoveEntry_eq [DecidableEq K] [Inhabited K] [Inhabited V]
    (cb : Bool) (s : LruShard K V) (p : Nat)
    (hq : ∀ q, (getE s.arena p).prev = some q → q ≠ p)
    (hrne : ∀ r, (getE s.arena p).next = some r → r ≠ p) :
    zRemoveEntry cb s p = ({ s with
      arena := modifyE (unlinkW s.arena (getE s.arena p).prev
        (getE s.arena p).next) p
        (fun _ => { key := default, value := default, prev := none,
                    next := none }),
      items := eraseKey s.items (getE s.arena p).key,
      head := match (getE s.arena p).prev with
              | some _ => s.head
              | none => (getE s.arena p).next,
      tail := match (getE s.arena p).next with
              | some _ => s.tail
              | none => (getE s.arena p).prev,
      size := s.size - 1 },
      if cb then [((getE s.arena p).key, (getE s.arena p).value)] else []) := by
  obtain ⟨A, items, head, tail, cap, sz, ac, hc⟩ := s
  simp only at hq hrne ⊢
  cases hprev : (getE A p).prev with
  | none =>
    cases hnext : (getE A p).next with
    | none =>
      simp only [zRemoveEntry, hprev, hnext]
      unfold unlinkW
      simp only [hprev, hnext]
    | some r =>
      have hrp : p ≠ r := fun hc9 => (hrne r hnext) hc9.symm
      simp only [zRemoveEntry, hprev, hnext]
      rw [getE_modifyE_ne _ p r _ hrp]
      unfold unlinkW
      simp only [hprev, hnext]
  | some q =>
    have hqp : p ≠ q := fun hc9 => (hq q hprev) hc9.symm
    cases hnext : (getE A p).next with
    | none =>
      simp only [zRemoveEntry, hprev, hnext]
      rw [getE_modifyE_ne _ p q _ hqp]
      simp only [hprev, hnext]
      rw [getE_modifyE_ne _ p q _ hqp]
      unfold unlinkW
      simp only [hprev, hnext]
    | some r =>
      have hrp : p ≠ r := fun hc9 => (hrne r hnext) hc9.symm
      simp only [zRemoveEntry, hprev, hnext]
      rw [getE_modifyE_ne _ p q _ hqp]
      simp only [hprev, hnext]
      rw [getE_modifyE_ne _ p r _ hrp, getE_modifyE_ne _ p q _ hqp]
      unfold unlinkW
      simp only [hprev, hnext]

/-- Computation of sRemoveEntry: the same unlink writes, without zeroing. -/
theorem sRemoveEntry_eq [DecidableEq K] [Inhabited K] [Inhabited V]
    (s : LruShard K V) (p : Nat)
    (hq : ∀ q, (getE s.arena p).prev = some q → q ≠ p)
    (hrne : ∀ r, (getE s.arena p).next = some r → r ≠ p) :
    sRemoveEntry s p = { s with
      arena := unlinkW s.arena (getE s.arena p).prev (getE s.arena p).next,
      items := eraseKey s.items (getE s.arena p).key,
      head := match (getE s.arena p).prev with
              | some _ => s.head
              | none => (getE s.arena p).next,
      tail := match (getE s.arena p).next with
              | some _ => s.tail
              | none => (getE s.arena p).prev,
      size := s.size - 1 } := by
  obtain ⟨A, items, head, tail, cap, sz, ac, hc⟩ := s
  simp only at hq hrne ⊢
  cases hprev : (getE A p).prev with
  | none =>
    cases hnext : (getE A p).next with
    | none =>
      simp only [sRemoveEntry, hprev, hnext]
      unfold unlinkW
      simp only [hprev, hnext]
    | some r =>
      have hrp : p ≠ r := fun hc9 => (hrne r hnext) hc9.symm
      simp only [sRemoveEntry, hprev, hnext]
      rw [getE_modifyE_ne _ p r _ hrp]
      unfold unlinkW
      simp only [hprev, hnext]
  | some q =>
    have hqp : p ≠ q := fun hc9 => (hq q hprev) hc9.symm
    cases hnext : (getE A p).next with
    | none =>
      simp only [sRemoveEntry, hprev, hnext]
      rw [getE_modifyE_ne _ p q _ hqp]
      simp only [hprev, hnext]
      rw [getE_modifyE_ne _ p q _ hqp]
      unfold unlinkW
      simp only [hprev, hnext]
    | some r =>
      have hrp : p ≠ r := fun hc9 => (hrne r hnext) hc9.symm
      simp only [sRemoveEntry, hprev, hnext]
      rw [getE_modifyE_ne _ p q _ hqp]
      simp only [hprev, hnext]
      rw [getE_modifyE_ne _ p r _ hrp, getE_modifyE_ne _ p q _ hqp]
      unfold unlinkW
      simp only [hprev, hnext]

/-- Facts shared by the removeEntry lemmas: the removed pointer is not
among its neighbours, and the computed head and tail match the shortened
chain. -/
theorem rep_remove_core [DecidableEq K] [Inhabited K] [Inhabited V]
    {s : LruShard K V} {p : Nat} {xs ys : List Nat}
    (hr : Rep s (xs ++ p :: ys)) :
    (∀ q, (getE s.arena p).prev = some q → q ≠ p) ∧
      (∀ r, (getE s.arena p).next = some r → r ≠ p) ∧
      (getE s.arena p).prev = lastOr xs none ∧
      (getE s.arena p).next = ys.head? ∧
      ChainAux (unlinkW s.arena (getE s.arena p).prev (getE s.arena p).next)
        none (xs ++ ys).head? (xs ++ ys) ∧
      ((match (getE s.arena p).prev with
        | some _ => s.head
        | none => (getE s.arena p).next) = (xs ++ ys).head?) ∧
      ((match (getE s.arena p).next with
        | some _ => s.tail
        | none => (getE s.arena p).prev) = (xs ++ ys).getLast?) ∧
      p ∉ xs ++ ys := by
  have hnd := hr.nodup
  have hndsplit : xs.Nodup ∧ (p :: ys).Nodup ∧ xs.Disjoint (p :: ys) :=
    List.nodup_append.1 hnd
  have hpnotxs : p ∉ xs := fun hc => hndsplit.2.2 hc (by simp)
  have hpnotys : p ∉ ys := (List.nodup_cons.1 hndsplit.2.1).1
  obtain ⟨e, hget, hprev, hchainys, hnext⟩ :=
    chainAux_entry_at s.arena p xs none s.head ys hr.chain
  have hgetE : getE s.arena p = e := getE_eq_of_get? hget
  have hq : ∀ q, (getE s.arena p).prev = some q → q ≠ p := by
    intro q h9 hc
    subst hc
    rw [hgetE, hprev, lastOr_none] at h9
    obtain ⟨hne9, hz9⟩ := List.mem_getLast?_eq_getLast
      (show q ∈ xs.getLast? by rw [h9]; rfl)
    exact hpnotxs (hz9 ▸ List.getLast_mem hne9)
  have hrne : ∀ r, (getE s.arena p).next = some r → r ≠ p := by
    intro r h9 hc
    subst hc
    rw [hgetE, hnext] at h9
    cases ys with
    | nil => simp at h9
    | cons y t =>
      have : y = r := by simpa using h9
      exact hpnotys (by simp [this])
  have hprev' : (getE s.arena p).prev = lastOr xs none := hgetE ▸ hprev
  have hnext' : (getE s.arena p).next = ys.head? := hgetE ▸ hnext
  refine ⟨hq, hrne, hprev', hnext', ?_, ?_, ?_, ?_⟩
  · rw [hprev', hnext']
    exact chainAux_unlink s.arena p xs none ys s.head hr.chain hnd
      (by intro q0 hq0; cases hq0)
  · rw [hprev']
    cases xs with
    | nil =>
      rw [hnext']
      simp [lastOr]
    | cons x xs' =>
      have : lastOr (x :: xs') none = (x :: xs').getLast? := lastOr_none _
      cases hl : (x :: xs').getLast? with
      | none => simp at hl
      | some z =>
        rw [this, hl]
        have := chainAux_head_eq s.arena _ none s.head hr.chain
        rw [this]
        simp
  · rw [hnext']
    cases ys with
    | nil =>
      simp [hprev', lastOr_none]
    | cons r ys2 =>
      simp only [List.head?_cons]
      rw [hr.tailEq]
      rw [List.getLast?_append_of_ne_nil _ (show (p :: r :: ys2) ≠ [] by simp),
        List.getLast?_cons_cons,
        List.getLast?_append_of_ne_nil _ (show (r :: ys2) ≠ [] by simp)]
  · intro hc
    rcases List.mem_append.1 hc with h9 | h9
    · exact hpnotxs h9
    · exact hpnotys h9

theorem rep_removeEntry_z [DecidableEq K] [Inhabited K] [Inhabited V]
    (cb : Bool) {s : LruShard K V} {p : Nat} {xs ys : List Nat}
    (hr : Rep s (xs ++ p :: ys)) :
    Rep (zRemoveEntry cb s p).1 (xs ++ ys) ∧
      KVOn s.arena (zRemoveEntry cb s p).1.arena (xs ++ ys) ∧
      (zRemoveEntry cb s p).1.arena.length = s.arena.length ∧
      (zRemoveEntry cb s p).2 = (if cb then [kvAt s.arena p] else []) ∧
      (zRemoveEntry cb s p).1.capacity = s.capacity ∧
      (zRemoveEntry cb s p).1.accessCnt = s.accessCnt ∧
      (zRemoveEntry cb s p).1.hitCnt = s.hitCnt ∧
      (zRemoveEntry cb s p).1.size = s.size - 1 := by
  obtain ⟨hq, hrne, hprev', hnext', hunlink, hhead, htail, hpnot⟩ :=
    rep_remove_core hr
  rw [zRemoveEntry_eq cb s p hq hrne]
  set A2 := unlinkW s.arena (getE s.arena p).prev (getE s.arena p).next
    with hA2
  set A3 := modifyE A2 p
    (fun _ => { key := default, value := default, prev := none, next := none })
    with hA3
  have hkvOn : KVOn s.arena A3 (xs ++ ys) := by
    intro x hx
    have hxp : x ≠ p := fun hc => hpnot (hc ▸ hx)
    have h1 : A3[x]? = A2[x]? := by
      rw [hA3]
      exact get?_modifyE_ne _ x p _ hxp
    have h2 := (sameKV_unlinkW s.arena (getE s.arena p).prev
      (getE s.arena p).next) x
    unfold kvAt getE at h2 ⊢
    rw [List.getD_eq_getElem?_getD, h1, ← List.getD_eq_getElem?_getD]
    exact h2
  refine ⟨?_, hkvOn, ?_, rfl, rfl, rfl, rfl, rfl⟩
  · refine ⟨?_, ?_, ?_, ?_, ?_, ?_⟩
    · show ChainAux A3 none _ (xs ++ ys)
      rw [show ((match (getE s.arena p).prev with
        | some _ => s.head
        | none => (getE s.arena p).next) : Option Nat) = (xs ++ ys).head?
        from hhead]
      apply chainAux_congr A2 A3 (xs ++ ys) none ((xs ++ ys).head?)
      · intro x hx
        exact get?_modifyE_ne _ x p _ (fun hc => hpnot (hc ▸ hx))
      · exact hunlink
    · exact htail
    · exact hr.nodup.sublist
        ((List.sublist_cons_self p ys).append_left xs)
    · show (eraseKey s.items (getE s.arena p).key).Perm
        ((xs ++ ys).map (fun x => (keyAt A3 x, x)))
      rw [itemsMap_congrOn hkvOn]
      have h1 : (eraseKey s.items (getE s.arena p).key).Perm
          (eraseKey ((xs ++ p :: ys).map (fun x => (keyAt s.arena x, x)))
            (getE s.arena p).key) := hr.itemsPerm.filter _
      rw [show (getE s.arena p).key = keyAt s.arena p from rfl] at h1 ⊢
      rwa [eraseKey_map s.arena xs ys p hr.keysNodup] at h1
    · show ((xs ++ ys).map (keyAt A3)).Nodup
      rw [keyAt_congrOn hkvOn]
      exact hr.keysNodup.sublist
        (((List.sublist_cons_self p ys).append_left xs).map _)
    · show s.size - 1 = ((xs ++ ys : List Nat).length : Int)
      have := hr.sizeEq
      simp only [List.length_append, List.length_cons] at this ⊢
      omega
  · show A3.length = s.arena.length
    rw [hA3, length_modifyE, hA2, length_unlinkW]

theorem rep_removeEntry_s [DecidableEq K] [Inhabited K] [Inhabited V]
    {s : LruShard K V} {p : Nat} {xs ys : List Nat}
    (hr : Rep s (xs ++ p :: ys)) :
    Rep (sRemoveEntry s p) (xs ++ ys) ∧
      KVOn s.arena (sRemoveEntry s p).arena (xs ++ ys) ∧
      (sRemoveEntry s p).arena.length = s.arena.length ∧
      (sRemoveEntry s p).capacity = s.capacity ∧
      (sRemoveEntry s p).accessCnt = s.accessCnt ∧
      (sRemoveEntry s p).hitCnt = s.hitCnt ∧
      (sRemoveEntry s p).size = s.size - 1 := by
  obtain ⟨hq, hrne, hprev', hnext', hunlink, hhead, htail, hpnot⟩ :=
    rep_remove_core hr
  rw [sRemoveEntry_eq s p hq hrne]
  set A2 := unlinkW s.arena (getE s.arena p).prev (getE s.arena p).next
    with hA2
  have hkvOn : KVOn s.arena A2 (xs ++ ys) := by
    intro x hx
    exact (sameKV_unlinkW s.arena (getE s.arena p).prev (getE s.arena p).next) x
  refine ⟨?_, hkvOn, ?_, rfl, rfl, rfl, rfl⟩
  · refine ⟨?_, ?_, ?_, ?_, ?_, ?_⟩
    · show ChainAux A2 none _ (xs ++ ys)
      rw [show ((match (getE s.arena p).prev with
        | some _ => s.head
        | none => (getE s.arena p).next) : Option Nat) = (xs ++ ys).head?
        from hhead]
      exact hunlink
    · exact htail
    · exact hr.nodup.sublist ((List.sublist_cons_self p ys).append_left xs)
    · show (eraseKey s.items (getE s.arena p).key).Perm
        ((xs ++ ys).map (fun x => (keyAt A2 x, x)))
      rw [itemsMap_congrOn hkvOn]
      have h1 : (eraseKey s.items (getE s.arena p).key).Perm
          (eraseKey ((xs ++ p :: ys).map (fun x => (keyAt s.arena x, x)))
            (getE s.arena p).key) := hr.itemsPerm.filter _
      rw [show (getE s.arena p).key = keyAt s.arena p from rfl] at h1 ⊢
      rwa [eraseKey_map s.arena xs ys p hr.keysNodup] at h1
    · show ((xs ++ ys).map (keyAt A2)).Nodup
      rw [keyAt_congrOn hkvOn]
      exact hr.keysNodup.sublist
        (((List.sublist_cons_self p ys).append_left xs).map _)
    · show s.size - 1 = ((xs ++ ys : List Nat).length : Int)
      have := hr.sizeEq
      simp only [List.length_append, List.length_cons] at this ⊢
      omega
  · show A2.length = s.arena.length
    rw [hA2, length_unlinkW]

/-- A value-only rewrite of arena entries preserves the chain structure. -/
theorem chainAux_links (A A' : Arena K V) :
    ∀ (ps : List Nat) (pr h : Option Nat),
      (∀ p ∈ ps, ∀ e, A[p]? = some e →
        ∃ e', A'[p]? = some e' ∧ e'.prev = e.prev ∧ e'.next = e.next) →
      ChainAux A pr h ps → ChainAux A' pr h ps := by
  intro ps
  induction ps with
  | nil => intro pr h _ hc; exact hc
  | cons p t ih =>
    intro pr h hag hc
    obtain ⟨hh, e, hget, hprev, hrest⟩ := hc
    obtain ⟨e', hget', hprev', hnext'⟩ := hag p (by simp) e hget
    refine ⟨hh, e', hget', hprev'.trans hprev, ?_⟩
    rw [hnext']
    exact ih (some p) e.next (fun x hx => hag x (by simp [hx])) hrest

/-- Filtering out the key of the middle chain element from any pointwise
image of the chain drops exactly that element. -/
theorem filter_key_map {β : Type} [DecidableEq K] (f : Nat → K) (g : Nat → β)
    (xs ys : List Nat) (p : Nat)
    (hnd : ((xs ++ p :: ys).map f).Nodup) :
    ((xs ++ p :: ys).map (fun x => (f x, g x))).filter
        (fun q => decide (q.1 ≠ f p))
      = (xs ++ ys).map (fun x => (f x, g x)) := by
  have hsplit : (xs.map f).Nodup ∧ (f p :: ys.map f).Nodup
      ∧ (xs.map f).Disjoint (f p :: ys.map f) := by
    rw [List.map_append, List.map_cons] at hnd
    exact List.nodup_append.1 hnd
  have hx : ∀ x ∈ xs, f x ≠ f p := by
    intro x hx hc
    exact hsplit.2.2 (List.mem_map_of_mem f hx) (by simp [hc])
  have hy : ∀ y ∈ ys, f y ≠ f p := by
    intro y hy hc
    exact (List.nodup_cons.1 hsplit.2.1).1 (hc ▸ List.mem_map_of_mem f hy)
  rw [List.map_append, List.map_cons, List.filter_append, List.filter_cons]
  rw [if_neg (by simp)]
  rw [List.map_append]
  congr 1
  · rw [List.filter_eq_self]
    intro a ha
    obtain ⟨x, hxm, rfl⟩ := List.mem_map.1 ha
    simpa using hx x hxm
  · rw [List.filter_eq_self]
    intro a ha
    obtain ⟨y, hym, rfl⟩ := List.mem_map.1 ha
    simpa using hy y hym

/-- The first pair with the key of the middle chain element in the
abstract list is exactly that element. -/
theorem find_key_map {β : Type} [DecidableEq K] (f : Nat → K) (g : Nat → β)
    (xs ys : List Nat) (p : Nat)
    (hnd : ((xs ++ p :: ys).map f).Nodup) :
    ((xs ++ p :: ys).map (fun x => (f x, g x))).find?
        (fun q => decide (q.1 = f p)) = some (f p, g p) := by
  have hsplit : (xs.map f).Nodup ∧ (f p :: ys.map f).Nodup
      ∧ (xs.map f).Disjoint (f p :: ys.map f) := by
    rw [List.map_append, List.map_cons] at hnd
    exact List.nodup_append.1 hnd
  induction xs with
  | nil =>
    rw [List.nil_append, List.map_cons, List.find?_cons_of_pos _ (by simp)]
  | cons x xs' ih =>
    have hxne : f x ≠ f p := by
      intro hc
      exact hsplit.2.2 (show f x ∈ (x :: xs').map f by simp)
        (show f x ∈ f p :: ys.map f by simp [hc])
    rw [List.cons_append, List.map_cons, List.find?_cons_of_neg _ (by simpa using hxne)]
    apply ih
    · rw [List.map_append, List.map_cons] at hnd ⊢
      rw [List.map_cons] at hnd
      exact (List.nodup_cons.1 hnd).2
    · constructor
      · exact (List.nodup_cons.1 hsplit.1).2
      · exact ⟨hsplit.2.1, fun a ha => hsplit.2.2 (by simp [ha])⟩

/-! ## The abstract per-shard operations -/

/-- Abstract effect of Set on the most-recently-used-first pair list. -/
def absSet [DecidableEq K] (c : Int) (k : K) (v : V) (L : List (K × V)) :
    List (K × V) :=
  if k ∈ L.map Prod.fst then (k, v) :: L.filter (fun q => decide (q.1 ≠ k))
  else if (L.length : Int) + 1 > c then ((k, v) :: L).dropLast
  else (k, v) :: L

/-- Abstract effect of Get. -/
def absGet [DecidableEq K] (k : K) (L : List (K × V)) : List (K × V) :=
  match L.find? (fun q => decide (q.1 = k)) with
  | some kv => kv :: L.filter (fun q => decide (q.1 ≠ k))
  | none => L

/-- Abstract effect of Delete. -/
def absDel [DecidableEq K] (k : K) (L : List (K × V)) : List (K × V) :=
  L.filter (fun q => decide (q.1 ≠ k))

/-- The callback invocations Set makes, abstractly: only an insert that
overflows the capacity evicts, and only a configured callback fires. -/
def absSetEv [DecidableEq K] (c : Int) (cb : Bool) (k : K)
    (L : List (K × V)) : List (K × V) :=
  if k ∈ L.map Prod.fst then []
  else if (L.length : Int) + 1 > c then (if cb then L.getLast?.toList else [])
  else []

/-- The shared insert path of Set on a miss: allocate the entry, link it at
the head, put it into items and bump size. -/
def linkNew [DecidableEq K] [Inhabited K] [Inhabited V] (s : LruShard K V)
    (k : K) (v : V) : LruShard K V :=
  let p := s.arena.length
  let A0 := s.arena ++ [⟨k, v, none, none⟩]
  let linked : Arena K V × Option Nat × Option Nat :=
    match s.head with
    | none => (A0, some p, some p)
    | some h =>
      (modifyE (modifyE A0 p (fun e => { e with next := some h }))
         h (fun e => { e with prev := some p }), some p, s.tail)
  { s with arena := linked.1, head := linked.2.1, tail := linked.2.2,
           items := (k, p) :: s.items, size := s.size + 1 }

theorem zRemoveEntryOpt_some [DecidableEq K] [Inhabited K] [Inhabited V]
    (cb : Bool) (s : LruShard K V) (p : Nat) :
    zRemoveEntryOpt cb s (some p) = zRemoveEntry cb s p := rfl

theorem zSet_miss [DecidableEq K] [Inhabited K] [Inhabited V] (cb : Bool)
    (s : LruShard K V) (k : K) (v : V) (hmiss : findPtr s.items k = none) :
    zSet cb s k v = (if s.size + 1 > s.capacity
      then zRemoveEntryOpt cb (linkNew s k v) (linkNew s k v).tail
      else (linkNew s k v, [])) := by
  unfold zSet linkNew
  rw [hmiss]

theorem sSet_miss [DecidableEq K] [Inhabited K] [Inhabited V] (cb : Bool)
    (s : LruShard K V) (k : K) (v : V) (hmiss : findPtr s.items k = none) :
    sSet cb s k v = (if s.size + 1 > s.capacity
      then sEvictLocked cb (linkNew s k v)
      else (linkNew s k v, [])) := by
  unfold sSet linkNew
  rw [hmiss]

/-- Linking a fresh key preserves the representation, consing the fresh
pointer in front. -/
theorem rep_linkNew [DecidableEq K] [Inhabited K] [Inhabited V]
    {s : LruShard K V} {ps : List Nat} (hr : Rep s ps) (k : K) (v : V)
    (hfresh : k ∉ ps.map (keyAt s.arena)) :
    Rep (linkNew s k v) (s.arena.length :: ps) ∧
      KVOn s.arena (linkNew s k v).arena ps ∧
      kvAt (linkNew s k v).arena s.arena.length = (k, v) ∧
      (linkNew s k v).arena.length = s.arena.length + 1 ∧
      (linkNew s k v).capacity = s.capacity ∧
      (linkNew s k v).accessCnt = s.accessCnt ∧
      (linkNew s k v).hitCnt = s.hitCnt ∧
      (linkNew s k v).size = s.size + 1 := by
  have hplt := chainAux_mem_lt s.arena ps none s.head hr.chain
  have hpnot : s.arena.length ∉ ps := by
    intro hc
    exact absurd (hplt _ hc) (by omega)
  have hA0p : (s.arena ++ [(⟨k, v, none, none⟩ : LruEntry K V)])[s.arena.length]?
      = some ⟨k, v, none, none⟩ := get?_append_len _ _
  have hA0frame : ∀ x ∈ ps,
      (s.arena ++ [(⟨k, v, none, none⟩ : LruEntry K V)])[x]? = s.arena[x]? :=
    fun x hx => get?_append_lt _ _ x (hplt x hx)
  cases hh : s.head with
  | none =>
    have hps : ps = [] := by
      have := chainAux_head_eq s.arena ps none s.head hr.chain
      rw [hh] at this
      cases ps with
      | nil => rfl
      | cons a t => simp at this
    subst hps
    have hitems : s.items = [] := hr.itemsPerm.eq_nil
    have harena : (linkNew s k v).arena
        = s.arena ++ [⟨k, v, none, none⟩] := by
      unfold linkNew
      rw [hh]
    refine ⟨⟨?_, ?_, ?_, ?_, ?_, ?_⟩, ?_, ?_, ?_, ?_, ?_, ?_, ?_⟩
    · show ChainAux (linkNew s k v).arena none (linkNew s k v).head
        [s.arena.length]
      rw [harena]
      have hhead : (linkNew s k v).head = some s.arena.length := by
        unfold linkNew
        rw [hh]
      rw [hhead]
      exact ⟨rfl, ⟨k, v, none, none⟩, hA0p, rfl, rfl⟩
    · show (linkNew s k v).tail = _
      unfold linkNew
      rw [hh]
      rfl
    · simp
    · show (linkNew s k v).items.Perm _
      have : (linkNew s k v).items = (k, s.arena.length) :: s.items := by
        unfold linkNew
        rw [hh]
      rw [this, hitems, harena]
      have hk : keyAt (s.arena ++ [(⟨k, v, none, none⟩ : LruEntry K V)])
          s.arena.length = k := by
        unfold keyAt
        rw [getE_eq_of_get? hA0p]
      simp [hk]
    · show ((List.map (keyAt (linkNew s k v).arena) [s.arena.length])).Nodup
      simp
    · show (linkNew s k v).size = _
      unfold linkNew
      rw [hh]
      simp only
      rw [hr.sizeEq]
      simp
    · intro x hx
      simp at hx
    · rw [harena]
      unfold kvAt
      rw [getE_eq_of_get? hA0p]
    · rw [harena]
      simp
    · unfold linkNew
      rw [hh]
    · unfold linkNew
      rw [hh]
    · unfold linkNew
      rw [hh]
    · unfold linkNew
      rw [hh]
  | some h0 =>
    have hps : ∃ rest, ps = h0 :: rest := by
      have := chainAux_head_eq s.arena ps none s.head hr.chain
      rw [hh] at this
      cases ps with
      | nil => simp at this
      | cons a t =>
        refine ⟨t, ?_⟩
        simp only [List.head?_cons, Option.some_inj] at this
        rw [this]
    obtain ⟨rest, hps⟩ := hps
    have hh0lt : h0 < s.arena.length := hplt h0 (by rw [hps]; simp)
    have hh0ne : h0 ≠ s.arena.length := by omega
    have harena : (linkNew s k v).arena
        = modifyE (modifyE (s.arena ++ [⟨k, v, none, none⟩]) s.arena.length
            (fun e => { e with next := some h0 })) h0
            (fun e => { e with prev := some s.arena.length }) := by
      unfold linkNew
      rw [hh]
    have hA1p : (linkNew s k v).arena[s.arena.length]?
        = some ⟨k, v, none, some h0⟩ := by
      rw [harena, get?_modifyE_ne _ _ h0 _ (Ne.symm hh0ne), get?_modifyE_self,
        hA0p]
      rfl
    have hframe : ∀ x ∈ ps, x ≠ h0 → (linkNew s k v).arena[x]? = s.arena[x]? := by
      intro x hx hxh0
      have hxne : x ≠ s.arena.length := by
        have := hplt x hx
        omega
      rw [harena, get?_modifyE_ne _ x h0 _ hxh0, get?_modifyE_ne _ x _ _ hxne,
        hA0frame x hx]
    have hA1h0 : ∀ e0, s.arena[h0]? = some e0 →
        (linkNew s k v).arena[h0]? = some { e0 with prev := some s.arena.length } := by
      intro e0 he0
      rw [harena, get?_modifyE_self, get?_modifyE_ne _ h0 _ _ hh0ne,
        hA0frame h0 (by rw [hps]; simp), he0]
      rfl
    have hkvOn : KVOn s.arena (linkNew s k v).arena ps := by
      intro x hx
      rcases eq_or_ne x h0 with rfl | hxh0
      · obtain ⟨e0, he0⟩ : ∃ e0, s.arena[x]? = some e0 := by
          have := chainAux_getE s.arena ps none s.head hr.chain x hx
          exact ⟨getE s.arena x, this⟩
        unfold kvAt
        rw [getE_eq_of_get? he0, getE_eq_of_get? (hA1h0 e0 he0)]
      · unfold kvAt getE
        rw [List.getD_eq_getElem?_getD, List.getD_eq_getElem?_getD,
          hframe x hx hxh0]
    have hhead1 : (linkNew s k v).head = some s.arena.length := by
      unfold linkNew
      rw [hh]
    have htail1 : (linkNew s k v).tail = s.tail := by
      unfold linkNew
      rw [hh]
    have hitems1 : (linkNew s k v).items = (k, s.arena.length) :: s.items := by
      unfold linkNew
      rw [hh]
    refine ⟨⟨?_, ?_, ?_, ?_, ?_, ?_⟩, hkvOn, ?_, ?_, ?_, ?_, ?_, ?_⟩
    · rw [hhead1]
      apply chainAux_prepend s.arena (linkNew s k v).arena s.arena.length
        ⟨k, v, none, some h0⟩ ps s.head hr.chain hA1p rfl
        (by rw [hh])
      · intro x hx
        have hxmem : x ∈ ps := by
          rw [hps]
          rw [hps] at hx
          simp at hx
          simp [hx]
        have hxh0 : x ≠ h0 := by
          rw [hps] at hx
          intro hc
          subst hc
          have := hr.nodup
          rw [hps] at this
          exact (List.nodup_cons.1 this).1 (by simpa using hx)
        exact hframe x hxmem hxh0
      · intro hx0 hhx0
        have : hx0 = h0 := by
          rw [hps] at hhx0
          simpa using hhx0.symm
        subst this
        obtain ⟨e0, he0⟩ : ∃ e0, s.arena[hx0]? = some e0 := by
          have := chainAux_getE s.arena ps none s.head hr.chain hx0
            (by rw [hps]; simp)
          exact ⟨getE s.arena hx0, this⟩
        exact ⟨e0, he0, hA1h0 e0 he0⟩
    · rw [htail1, hr.tailEq, hps, List.getLast?_cons_cons]
    · exact List.nodup_cons.2 ⟨hpnot, hr.nodup⟩
    · rw [hitems1]
      have hk : keyAt (linkNew s k v).arena s.arena.length = k := by
        unfold keyAt
        rw [getE_eq_of_get? hA1p]
      show ((k, s.arena.length) :: s.items).Perm
        ((s.arena.length :: ps).map (fun x => (keyAt (linkNew s k v).arena x, x)))
      rw [List.map_cons, hk, itemsMap_congrOn hkvOn]
      exact hr.itemsPerm.cons _
    · show ((s.arena.length :: ps).map (keyAt (linkNew s k v).arena)).Nodup
      rw [List.map_cons, keyAt_congrOn hkvOn]
      refine List.nodup_cons.2 ⟨?_, hr.keysNodup⟩
      have hk : keyAt (linkNew s k v).arena s.arena.length = k := by
        unfold keyAt
        rw [getE_eq_of_get? hA1p]
      rw [hk]
      exact hfresh
    · show (linkNew s k v).size = _
      unfold linkNew
      rw [hh]
      simp only
      rw [hr.sizeEq]
      simp
    · unfold kvAt
      rw [getE_eq_of_get? hA1p]
    · rw [harena, length_modifyE, length_modifyE]
      simp
    · unfold linkNew
      rw [hh]
    · unfold linkNew
      rw [hh]
    · unfold linkNew
      rw [hh]
    · unfold linkNew
      rw [hh]

theorem absOf_cons [Inhabited K] [Inhabited V] (A : Arena K V) (p : Nat)
    (ps : List Nat) : absOf A (p :: ps) = kvAt A p :: absOf A ps := rfl

theorem absOf_keys [Inhabited K] [Inhabited V] (A : Arena K V)
    (ps : List Nat) : (absOf A ps).map Prod.fst = ps.map (keyAt A) := by
  unfold absOf
  rw [List.map_map]
  rfl

theorem absOf_length [Inhabited K] [Inhabited V] (A : Arena K V)
    (ps : List Nat) : (absOf A ps).length = ps.length := by
  unfold absOf
  rw [List.length_map]

theorem absOf_append [Inhabited K] [Inhabited V] (A : Arena K V)
    (xs ys : List Nat) : absOf A (xs ++ ys) = absOf A xs ++ absOf A ys := by
  unfold absOf
  rw [List.map_append]

/-- In the sequential model the not-nil-head branch of the two moveToFront
variants coincide, and with a nonempty list the head is never nil. -/
theorem zMoveToFront_eq_s [DecidableEq K] [Inhabited K] [Inhabited V]
    (s : LruShard K V) (p h0 : Nat) (hh : s.head = some h0) :
    zMoveToFront s p = sMoveToFront s p := by
  obtain ⟨A, items, head, tail, cap, sz, ac, hc⟩ := s
  simp only at hh
  subst hh
  rfl

/-- Updating the value behind an existing key (the update branch of Set)
preserves the representation. -/
theorem rep_setValue [DecidableEq K] [Inhabited K] [Inhabited V]
    {s : LruShard K V} {ps : List Nat} (hr : Rep s ps) (p : Nat) (v : V) :
    Rep { s with arena := modifyE s.arena p (fun e => { e with value := v }) }
        ps ∧
      (∀ x, keyAt (modifyE s.arena p (fun e => { e with value := v })) x
        = keyAt s.arena x) ∧
      (∀ x, x ≠ p → kvAt (modifyE s.arena p (fun e => { e with value := v })) x
        = kvAt s.arena x) ∧
      (p ∈ ps → kvAt (modifyE s.arena p (fun e => { e with value := v })) p
        = (keyAt s.arena p, v)) := by
  set A' := modifyE s.arena p (fun e => { e with value := v }) with hA'
  have hkey : ∀ x, keyAt A' x = keyAt s.arena x := by
    intro x
    rcases eq_or_ne x p with rfl | hne
    · unfold keyAt getE
      rw [List.getD_eq_getElem?_getD, List.getD_eq_getElem?_getD, hA',
        get?_modifyE_self]
      cases s.arena[x]? <;> rfl
    · unfold keyAt getE
      rw [List.getD_eq_getElem?_getD, List.getD_eq_getElem?_getD, hA',
        get?_modifyE_ne _ x p _ hne]
  have hkv : ∀ x, x ≠ p → kvAt A' x = kvAt s.arena x := by
    intro x hne
    unfold kvAt getE
    rw [List.getD_eq_getElem?_getD, List.getD_eq_getElem?_getD, hA',
      get?_modifyE_ne _ x p _ hne]
  refine ⟨⟨?_, hr.tailEq, hr.nodup, ?_, ?_, hr.sizeEq⟩, hkey, hkv, ?_⟩
  · apply chainAux_links s.arena A' ps none s.head
    · intro x _ e hget
      rcases eq_or_ne x p with rfl | hne
      · refine ⟨{ e with value := v }, ?_, rfl, rfl⟩
        rw [hA', get?_modifyE_self, hget]
        rfl
      · exact ⟨e, by rw [hA', get?_modifyE_ne _ x p _ hne, hget], rfl, rfl⟩
    · exact hr.chain
  · show s.items.Perm (ps.map (fun x => (keyAt A' x, x)))
    have : ps.map (fun x => (keyAt A' x, x)) = ps.map (fun x => (keyAt s.arena x, x)) := by
      apply List.map_congr_left
      intro x _
      rw [hkey x]
    rw [this]
    exact hr.itemsPerm
  · show (ps.map (keyAt A')).Nodup
    have : ps.map (keyAt A') = ps.map (keyAt s.arena) :=
      List.map_congr_left (fun x _ => hkey x)
    rw [this]
    exact hr.keysNodup
  · intro hp
    have hsome := chainAux_getE s.arena ps none s.head hr.chain p hp
    unfold kvAt keyAt getE
    rw [List.getD_eq_getElem?_getD, List.getD_eq_getElem?_getD, hA',
      get?_modifyE_self, hsome]
    rfl

/-- One Set on a well-formed shard within capacity: the state stays well
formed and within capacity, the abstraction evolves by absSet, and the
callback fires exactly per absSetEv. -/
theorem zSet_step [DecidableEq K] [Inhabited K] [Inhabited V] (cb : Bool)
    {s : LruShard K V} {ps : List Nat} (hr : Rep s ps)
    (hcap : 1 ≤ s.capacity) (hlen : (ps.length : Int) ≤ s.capacity)
    (k : K) (v : V) :
    ∃ ps', Rep (zSet cb s k v).1 ps' ∧
      absOf (zSet cb s k v).1.arena ps'
        = absSet s.capacity k v (absOf s.arena ps) ∧
      ((ps'.length : Int) ≤ s.capacity) ∧
      (zSet cb s k v).2 = absSetEv s.capacity cb k (absOf s.arena ps) ∧
      (zSet cb s k v).1.capacity = s.capacity ∧
      (zSet cb s k v).1.accessCnt = s.accessCnt ∧
      (zSet cb s k v).1.hitCnt = s.hitCnt := by
  cases hfind : findPtr s.items k with
  | none =>
    have hknot : k ∉ ps.map (keyAt s.arena) := (rep_findPtr_none hr k).1 hfind
    have hknotL : k ∉ (absOf s.arena ps).map Prod.fst := by
      rw [absOf_keys]
      exact hknot
    rw [zSet_miss cb s k v hfind]
    obtain ⟨hrep1, hkvOn1, hkv1, hlen1, hcap1, hacc1, hhit1, hsize1⟩ :=
      rep_linkNew hr k v hknot
    by_cases hov : s.size + 1 > s.capacity
    · have hovL : ((absOf s.arena ps).length : Int) + 1 > s.capacity := by
        rw [absOf_length, ← hr.sizeEq]
        exact hov
      have hpslen : (ps.length : Int) = s.capacity := by
        rw [hr.sizeEq] at hov
        omega
      have hpsne : ps ≠ [] := by
        intro hc
        subst hc
        simp at hpslen
        omega
      have hLne : absOf s.arena ps ≠ [] := by
        intro hc
        have h9 := absOf_length s.arena ps
        rw [hc] at h9
        simp at h9
        exact hpsne (List.length_eq_zero.1 h9.symm)
      rw [if_pos hov]
      have htail1 : (linkNew s k v).tail = some (ps.getLast hpsne) := by
        rw [hrep1.tailEq]
        rw [show (s.arena.length :: ps).getLast? = ps.getLast? by
          cases ps with
          | nil => exact absurd rfl hpsne
          | cons a t => rw [List.getLast?_cons_cons]]
        rw [List.getLast?_eq_getLast_of_ne_nil hpsne]
      rw [htail1, zRemoveEntryOpt_some]
      have hdecomp : s.arena.length :: ps
          = (s.arena.length :: ps.dropLast) ++ ps.getLast hpsne :: [] := by
        rw [List.cons_append]
        congr 1
        rw [List.dropLast_append_getLast hpsne]
      have hrep1x : Rep (linkNew s k v)
          ((s.arena.length :: ps.dropLast) ++ ps.getLast hpsne :: []) := by
        rw [← hdecomp]
        exact hrep1
      obtain ⟨hrep2, hkvOn2, hlen2, hev2, hcap2, hacc2, hhit2, hsize2⟩ :=
        rep_removeEntry_z cb hrep1x
      rw [List.append_nil] at hrep2 hkvOn2
      have hdrop : KVOn s.arena (linkNew s k v).arena ps.dropLast :=
        fun x hx => hkvOn1 x ((List.dropLast_sublist ps).mem hx)
      have habs : absOf (zRemoveEntry cb (linkNew s k v) (ps.getLast hpsne)).1.arena
          (s.arena.length :: ps.dropLast)
          = (k, v) :: (absOf s.arena ps).dropLast := by
        rw [absOf_congrOn hkvOn2, absOf_cons, hkv1, absOf_congrOn hdrop]
        congr 1
        unfold absOf
        rw [← List.map_dropLast]
      refine ⟨s.arena.length :: ps.dropLast, hrep2, ?_, ?_, ?_, ?_, ?_, ?_⟩
      · rw [habs]
        unfold absSet
        rw [if_neg hknotL, if_pos hovL,
          List.dropLast_cons_of_ne_nil hLne]
      · have := List.length_dropLast ps
        have hps1 : 1 ≤ ps.length := by
          cases ps with
          | nil => exact absurd rfl hpsne
          | cons a t => simp
        simp only [List.length_cons]
        push_cast
        omega
      · rw [hev2]
        unfold absSetEv
        rw [if_neg hknotL, if_pos hovL]
        have hkvt : kvAt (linkNew s k v).arena (ps.getLast hpsne)
            = kvAt s.arena (ps.getLast hpsne) :=
          hkvOn1 _ (List.getLast_mem hpsne)
        have hgl : (absOf s.arena ps).getLast?
            = some (kvAt s.arena (ps.getLast hpsne)) := by
          unfold absOf
          rw [List.getLast?_map, List.getLast?_eq_getLast_of_ne_nil hpsne]
          rfl
        rw [hkvt, hgl]
        cases cb <;> rfl
      · rw [hcap2, hcap1]
      · rw [hacc2, hacc1]
      · rw [hhit2, hhit1]
    · rw [if_neg hov]
      have hovL : ¬ ((absOf s.arena ps).length : Int) + 1 > s.capacity := by
        rw [absOf_length, ← hr.sizeEq]
        exact hov
      refine ⟨s.arena.length :: ps, hrep1, ?_, ?_, ?_, hcap1, hacc1, hhit1⟩
      · rw [absOf_cons, hkv1, absOf_congrOn hkvOn1]
        unfold absSet
        rw [if_neg hknotL, if_neg hovL]
      · simp only [List.length_cons]
        rw [hr.sizeEq] at hov
        push_cast
        omega
      · unfold absSetEv
        rw [if_neg hknotL, if_neg hovL]
  | some p =>
    obtain ⟨hpmem, hpkey⟩ := (rep_findPtr hr k p).1 hfind
    have hkin : k ∈ ps.map (keyAt s.arena) :=
      hpkey ▸ List.mem_map_of_mem (keyAt s.arena) hpmem
    have hkinL : k ∈ (absOf s.arena ps).map Prod.fst := by
      rw [absOf_keys]
      exact hkin
    simp only [zSet, hfind]
    obtain ⟨hrepv, hkeyv, hkvv, hkvp⟩ := rep_setValue hr p v
    set sv : LruShard K V :=
      { s with arena := modifyE s.arena p (fun e => { e with value := v }) }
      with hsv
    obtain ⟨xs, ys, hxsys⟩ := List.append_of_mem hpmem
    have hpsne : ps ≠ [] := by
      rw [hxsys]
      simp
    have hh0 : ∃ h0, sv.head = some h0 := by
      have := chainAux_head_eq sv.arena ps none sv.head hrepv.chain
      rw [hxsys] at this
      cases xs with
      | nil => exact ⟨p, by rw [this]; simp⟩
      | cons a t => exact ⟨a, by rw [this]; simp⟩
    obtain ⟨h0, hh0⟩ := hh0
    rw [zMoveToFront_eq_s sv p h0 hh0]
    have hrepv' : Rep sv (xs ++ p :: ys) := hxsys ▸ hrepv
    obtain ⟨hrep2, hsame2, hlen2, hitems2, hsize2, hcap2, hacc2, hhit2⟩ :=
      rep_moveToFront hrepv'
    refine ⟨p :: (xs ++ ys), hrep2, ?_, ?_, ?_, ?_, ?_, ?_⟩
    · rw [absOf_congr hsame2, absOf_cons, hkvp hpmem, hpkey, absOf_append]
      have hxabs : absOf sv.arena xs = absOf s.arena xs := by
        apply absOf_congrOn
        intro x hx
        apply hkvv
        intro hc
        subst hc
        have := hr.nodup
        rw [hxsys, List.nodup_append] at this
        exact this.2.2 hx (by simp)
      have hyabs : absOf sv.arena ys = absOf s.arena ys := by
        apply absOf_congrOn
        intro x hx
        apply hkvv
        intro hc
        subst hc
        have := hr.nodup
        rw [hxsys, List.nodup_append] at this
        exact (List.nodup_cons.1 this.2.1).1 hx
      rw [hxabs, hyabs]
      unfold absSet
      rw [if_pos hkinL]
      have hfilter : (absOf s.arena ps).filter (fun q => decide (q.1 ≠ k))
          = absOf s.arena xs ++ absOf s.arena ys := by
        rw [hxsys]
        unfold absOf
        rw [← hpkey]
        rw [show (fun x => ((getE s.arena x).key, (getE s.arena x).value))
            = (fun x => (keyAt s.arena x, (getE s.arena x).value)) from rfl]
        rw [filter_key_map (keyAt s.arena) (fun x => (getE s.arena x).value)
          xs ys p (by rw [← hxsys]; exact hr.keysNodup), List.map_append]
      rw [hfilter]
    · have : (p :: (xs ++ ys)).length = ps.length := by
        rw [hxsys]
        simp
        omega
      rw [this]
      exact hlen
    · unfold absSetEv
      rw [if_pos hkinL]
    · rw [hcap2]
    · rw [hacc2]
    · rw [hhit2]

/-- One SimpleLRU.Set on a well-formed shard within capacity. -/
theorem sSet_step [DecidableEq K] [Inhabited K] [Inhabited V] (cb : Bool)
    {s : LruShard K V} {ps : List Nat} (hr : Rep s ps)
    (hcap : 1 ≤ s.capacity) (hlen : (ps.length : Int) ≤ s.capacity)
    (k : K) (v : V) :
    ∃ ps', Rep (sSet cb s k v).1 ps' ∧
      absOf (sSet cb s k v).1.arena ps'
        = absSet s.capacity k v (absOf s.arena ps) ∧
      ((ps'.length : Int) ≤ s.capacity) ∧
      (sSet cb s k v).2 = absSetEv s.capacity cb k (absOf s.arena ps) ∧
      (sSet cb s k v).1.capacity = s.capacity ∧
      (sSet cb s k v).1.accessCnt = s.accessCnt ∧
      (sSet cb s k v).1.hitCnt = s.hitCnt := by
  cases hfind : findPtr s.items k with
  | none =>
    have hknot : k ∉ ps.map (keyAt s.arena) := (rep_findPtr_none hr k).1 hfind
    have hknotL : k ∉ (absOf s.arena ps).map Prod.fst := by
      rw [absOf_keys]
      exact hknot
    rw [sSet_miss cb s k v hfind]
    obtain ⟨hrep1, hkvOn1, hkv1, hlen1, hcap1, hacc1, hhit1, hsize1⟩ :=
      rep_linkNew hr k v hknot
    by_cases hov : s.size + 1 > s.capacity
    · have hovL : ((absOf s.arena ps).length : Int) + 1 > s.capacity := by
        rw [absOf_length, ← hr.sizeEq]
        exact hov
      have hpslen : (ps.length : Int) = s.capacity := by
        rw [hr.sizeEq] at hov
        omega
      have hpsne : ps ≠ [] := by
        intro hc
        subst hc
        simp at hpslen
        omega
      have hLne : absOf s.arena ps ≠ [] := by
        intro hc
        have h9 := absOf_length s.arena ps
        rw [hc] at h9
        simp at h9
        exact hpsne (List.length_eq_zero.1 h9.symm)
      rw [if_pos hov]
      have htail1 : (linkNew s k v).tail = some (ps.getLast hpsne) := by
        rw [hrep1.tailEq]
        rw [show (s.arena.length :: ps).getLast? = ps.getLast? by
          cases ps with
          | nil => exact absurd rfl hpsne
          | cons a t => rw [List.getLast?_cons_cons]]
        rw [List.getLast?_eq_getLast_of_ne_nil hpsne]
      have hdecomp : s.arena.length :: ps
          = (s.arena.length :: ps.dropLast) ++ ps.getLast hpsne :: [] := by
        rw [List.cons_append]
        congr 1
        rw [List.dropLast_append_getLast hpsne]
      have hrep1x : Rep (linkNew s k v)
          ((s.arena.length :: ps.dropLast) ++ ps.getLast hpsne :: []) := by
        rw [← hdecomp]
        exact hrep1
      obtain ⟨hrep2, hkvOn2, hlen2, hcap2, hacc2, hhit2, hsize2⟩ :=
        rep_removeEntry_s hrep1x
      rw [List.append_nil] at hrep2 hkvOn2
      have hdrop : KVOn s.arena (linkNew s k v).arena ps.dropLast :=
        fun x hx => hkvOn1 x ((List.dropLast_sublist ps).mem hx)
      have hevl : sEvictLocked cb (linkNew s k v)
          = (sRemoveEntry (linkNew s k v) (ps.getLast hpsne),
             if cb then [kvAt (linkNew s k v).arena (ps.getLast hpsne)]
             else []) := by
        unfold sEvictLocked
        rw [htail1]
        cases cb with
        | true => rfl
        | false => rfl
      rw [hevl]
      have habs : absOf (sRemoveEntry (linkNew s k v) (ps.getLast hpsne)).arena
          (s.arena.length :: ps.dropLast)
          = (k, v) :: (absOf s.arena ps).dropLast := by
        rw [absOf_congrOn hkvOn2, absOf_cons, hkv1, absOf_congrOn hdrop]
        congr 1
        unfold absOf
        rw [← List.map_dropLast]
      refine ⟨s.arena.length :: ps.dropLast, hrep2, ?_, ?_, ?_, ?_, ?_, ?_⟩
      · rw [habs]
        unfold absSet
        rw [if_neg hknotL, if_pos hovL, List.dropLast_cons_of_ne_nil hLne]
      · have := List.length_dropLast ps
        have hps1 : 1 ≤ ps.length := by
          cases ps with
          | nil => exact absurd rfl hpsne
          | cons a t => simp
        simp only [List.length_cons]
        push_cast
        omega
      · unfold absSetEv
        rw [if_neg hknotL, if_pos hovL]
        have hkvt : kvAt (linkNew s k v).arena (ps.getLast hpsne)
            = kvAt s.arena (ps.getLast hpsne) :=
          hkvOn1 _ (List.getLast_mem hpsne)
        have hgl : (absOf s.arena ps).getLast?
            = some (kvAt s.arena (ps.getLast hpsne)) := by
          unfold absOf
          rw [List.getLast?_map, List.getLast?_eq_getLast_of_ne_nil hpsne]
          rfl
        rw [hkvt, hgl]
        cases cb <;> rfl
      · rw [hcap2, hcap1]
      · rw [hacc2, hacc1]
      · rw [hhit2, hhit1]
    · rw [if_neg hov]
      have hovL : ¬ ((absOf s.arena ps).length : Int) + 1 > s.capacity := by
        rw [absOf_length, ← hr.sizeEq]
        exact hov
      refine ⟨s.arena.length :: ps, hrep1, ?_, ?_, ?_, hcap1, hacc1, hhit1⟩
      · rw [absOf_cons, hkv1, absOf_congrOn hkvOn1]
        unfold absSet
        rw [if_neg hknotL, if_neg hovL]
      · simp only [List.length_cons]
        rw [hr.sizeEq] at hov
        push_cast
        omega
      · unfold absSetEv
        rw [if_neg hknotL, if_neg hovL]
  | some p =>
    obtain ⟨hpmem, hpkey⟩ := (rep_findPtr hr k p).1 hfind
    have hkin : k ∈ ps.map (keyAt s.arena) :=
      hpkey ▸ List.mem_map_of_mem (keyAt s.arena) hpmem
    have hkinL : k ∈ (absOf s.arena ps).map Prod.fst := by
      rw [absOf_keys]
      exact hkin
    simp only [sSet, hfind]
    obtain ⟨hrepv, hkeyv, hkvv, hkvp⟩ := rep_setValue hr p v
    set sv : LruShard K V :=
      { s with arena := modifyE s.arena p (fun e => { e with value := v }) }
      with hsv
    obtain ⟨xs, ys, hxsys⟩ := List.append_of_mem hpmem
    have hrepv' : Rep sv (xs ++ p :: ys) := hxsys ▸ hrepv
    obtain ⟨hrep2, hsame2, hlen2, hitems2, hsize2, hcap2, hacc2, hhit2⟩ :=
      rep_moveToFront hrepv'
    refine ⟨p :: (xs ++ ys), hrep2, ?_, ?_, ?_, ?_, ?_, ?_⟩
    · rw [absOf_congr hsame2, absOf_cons, hkvp hpmem, hpkey, absOf_append]
      have hxabs : absOf sv.arena xs = absOf s.arena xs := by
        apply absOf_congrOn
        intro x hx
        apply hkvv
        intro hc
        subst hc
        have := hr.nodup
        rw [hxsys, List.nodup_append] at this
        exact this.2.2 hx (by simp)
      have hyabs : absOf sv.arena ys = absOf s.arena ys := by
        apply absOf_congrOn
        intro x hx
        apply hkvv
        intro hc
        subst hc
        have := hr.nodup
        rw [hxsys, List.nodup_append] at this
        exact (List.nodup_cons.1 this.2.1).1 hx
      rw [hxabs, hyabs]
      unfold absSet
      rw [if_pos hkinL]
      have hfilter : (absOf s.arena ps).filter (fun q => decide (q.1 ≠ k))
          = absOf s.arena xs ++ absOf s.arena ys := by
        rw [hxsys]
        unfold absOf
        rw [← hpkey]
        rw [show (fun x => ((getE s.arena x).key, (getE s.arena x).value))
            = (fun x => (keyAt s.arena x, (getE s.arena x).value)) from rfl]
        rw [filter_key_map (keyAt s.arena) (fun x => (getE s.arena x).value)
          xs ys p (by rw [← hxsys]; exact hr.keysNodup), List.map_append]
      rw [hfilter]
    · have : (p :: (xs ++ ys)).length = ps.length := by
        rw [hxsys]
        simp
        omega
      rw [this]
      exact hlen
    · unfold absSetEv
      rw [if_pos hkinL]
    · rw [hcap2]
    · rw [hacc2]
    · rw [hhit2]

/-- Abstract lookup: the stored value of key k, if any. -/
def absLookup [DecidableEq K] (k : K) (L : List (K × V)) : Option V :=
  (L.find? (fun q => decide (q.1 = k))).map (·.2)

theorem absLookup_none_iff [DecidableEq K] [Inhabited K] [Inhabited V]
    {s : LruShard K V} {ps : List Nat} (hr : Rep s ps) (k : K) :
    absLookup k (absOf s.arena ps) = none ↔ findPtr s.items k = none := by
  rw [rep_findPtr_none hr k]
  unfold absLookup
  rw [Option.map_eq_none', List.find?_eq_none]
  constructor
  · intro h hmem
    obtain ⟨p, hp, hpk⟩ := List.mem_map.1 hmem
    have := h (kvAt s.arena p) (List.mem_map_of_mem _ hp)
    rw [show (kvAt s.arena p).1 = keyAt s.arena p from rfl] at this
    simp [hpk] at this
  · intro h q hq
    obtain ⟨p, hp, rfl⟩ := List.mem_map.1 hq
    simp only [decide_eq_true_eq]
    intro hc
    exact h (hc ▸ List.mem_map_of_mem (keyAt s.arena) hp)

theorem absLookup_find [DecidableEq K] [Inhabited K] [Inhabited V]
    {s : LruShard K V} {xs ys : List Nat} {p : Nat}
    (hr : Rep s (xs ++ p :: ys)) (k : K) (hpkey : keyAt s.arena p = k) :
    (absOf s.arena (xs ++ p :: ys)).find? (fun q => decide (q.1 = k))
      = some (k, (getE s.arena p).value) := by
  have := find_key_map (keyAt s.arena) (fun x => (getE s.arena x).value)
    xs ys p hr.keysNodup
  rw [hpkey] at this
  exact this

/-- One LRUShardMap.Get restricted to the owning shard: the returned pair
is the abstract lookup, the hit moves the key to the front, and the
counters advance. -/
theorem zGet_step [DecidableEq K] [Inhabited K] [Inhabited V]
    {s : LruShard K V} {ps : List Nat} (hr : Rep s ps) (k : K) :
    ∃ ps', Rep (zGet s k).2 ps' ∧
      absOf (zGet s k).2.arena ps' = absGet k (absOf s.arena ps) ∧
      ps'.length = ps.length ∧
      (zGet s k).1 = ((absLookup k (absOf s.arena ps)).getD default,
        (absLookup k (absOf s.arena ps)).isSome) ∧
      (zGet s k).2.capacity = s.capacity ∧
      (zGet s k).2.accessCnt = s.accessCnt + 1 ∧
      (zGet s k).2.hitCnt = s.hitCnt +
        (if (absLookup k (absOf s.arena ps)).isSome then 1 else 0) := by
  have hr0 : Rep { s with accessCnt := s.accessCnt + 1 } ps :=
    ⟨hr.chain, hr.tailEq, hr.nodup, hr.itemsPerm, hr.keysNodup, hr.sizeEq⟩
  cases hfind : findPtr s.items k with
  | none =>
    have hlk : absLookup k (absOf s.arena ps) = none :=
      (absLookup_none_iff hr k).2 hfind
    have habs : absGet k (absOf s.arena ps) = absOf s.arena ps := by
      unfold absGet
      rw [show (absOf s.arena ps).find? (fun q => decide (q.1 = k)) = none from
        Option.map_eq_none'.1 hlk]
    have hres : zGet s k = ((default, false),
        { s with accessCnt := s.accessCnt + 1 }) := by
      simp only [zGet, hfind]
    rw [hres]
    refine ⟨ps, hr0, ?_, rfl, ?_, rfl, rfl, ?_⟩
    · rw [habs]
    · rw [hlk]
      rfl
    · rw [hlk]
      simp
  | some p =>
    obtain ⟨hpmem, hpkey⟩ := (rep_findPtr hr k p).1 hfind
    obtain ⟨xs, ys, hxsys⟩ := List.append_of_mem hpmem
    have hrx : Rep s (xs ++ p :: ys) := hxsys ▸ hr
    have hfindabs := absLookup_find hrx k hpkey
    have hlk : absLookup k (absOf s.arena ps) = some (getE s.arena p).value := by
      unfold absLookup
      rw [hxsys, hfindabs]
      rfl
    simp only [zGet, hfind, if_pos rfl, if_true]
    have hr0x : Rep { s with accessCnt := s.accessCnt + 1 } (xs ++ p :: ys) :=
      hxsys ▸ hr0
    have hh0 : ∃ h0, ({ s with accessCnt := s.accessCnt + 1 } :
        LruShard K V).head = some h0 := by
      have := chainAux_head_eq s.arena ps none s.head hr.chain
      rw [hxsys] at this
      cases xs with
      | nil => exact ⟨p, by show s.head = _; rw [this]; simp⟩
      | cons a t => exact ⟨a, by show s.head = _; rw [this]; simp⟩
    obtain ⟨h0, hh0⟩ := hh0
    rw [zMoveToFront_eq_s _ p h0 hh0]
    obtain ⟨hrep2, hsame2, hlen2, hitems2, hsize2, hcap2, hacc2, hhit2⟩ :=
      rep_moveToFront hr0x
    refine ⟨p :: (xs ++ ys), ?_, ?_, ?_, ?_, ?_, ?_, ?_⟩
    · exact ⟨hrep2.chain, hrep2.tailEq, hrep2.nodup, hrep2.itemsPerm,
        hrep2.keysNodup, hrep2.sizeEq⟩
    · show absOf (sMoveToFront { s with accessCnt := s.accessCnt + 1 } p).arena
        (p :: (xs ++ ys)) = absGet k (absOf s.arena ps)
      rw [absOf_congr hsame2]
      show absOf s.arena (p :: (xs ++ ys)) = _
      rw [absOf_cons, absOf_append]
      unfold absGet
      rw [hxsys, hfindabs]
      have hfilter : (absOf s.arena (xs ++ p :: ys)).filter
          (fun q => decide (q.1 ≠ k))
          = absOf s.arena xs ++ absOf s.arena ys := by
        unfold absOf
        rw [← hpkey]
        rw [show (fun x => ((getE s.arena x).key, (getE s.arena x).value))
            = (fun x => (keyAt s.arena x, (getE s.arena x).value)) from rfl]
        rw [filter_key_map (keyAt s.arena) (fun x => (getE s.arena x).value)
          xs ys p (hxsys ▸ hr.keysNodup), List.map_append]
      rw [hfilter]
      show kvAt s.arena p :: _ = _
      rw [show kvAt s.arena p = (k, (getE s.arena p).value) by
        unfold kvAt
        rw [← hpkey]
        rfl]
    · rw [hxsys]
      simp
      omega
    · rw [hlk]
      rfl
    · rw [hcap2]
    · rw [hacc2]
    · rw [hhit2, hlk]
      simp

/-- One SimpleLRU.Get restricted to the shard. -/
theorem sGet_step [DecidableEq K] [Inhabited K] [Inhabited V]
    {s : LruShard K V} {ps : List Nat} (hr : Rep s ps) (k : K) :
    ∃ ps', Rep (sGet s k).2 ps' ∧
      absOf (sGet s k).2.arena ps' = absGet k (absOf s.arena ps) ∧
      ps'.length = ps.length ∧
      (sGet s k).1 = ((absLookup k (absOf s.arena ps)).getD default,
        (absLookup k (absOf s.arena ps)).isSome) ∧
      (sGet s k).2.capacity = s.capacity ∧
      (sGet s k).2.accessCnt = s.accessCnt ∧
      (sGet s k).2.hitCnt = s.hitCnt := by
  cases hfind : findPtr s.items k with
  | none =>
    have hlk : absLookup k (absOf s.arena ps) = none :=
      (absLookup_none_iff hr k).2 hfind
    have habs : absGet k (absOf s.arena ps) = absOf s.arena ps := by
      unfold absGet
      rw [show (absOf s.arena ps).find? (fun q => decide (q.1 = k)) = none from
        Option.map_eq_none'.1 hlk]
    have hres : sGet s k = ((default, false), s) := by
      simp only [sGet, hfind]
    rw [hres]
    refine ⟨ps, hr, ?_, rfl, ?_, rfl, rfl, rfl⟩
    · rw [habs]
    · rw [hlk]
      rfl
  | some p =>
    obtain ⟨hpmem, hpkey⟩ := (rep_findPtr hr k p).1 hfind
    obtain ⟨xs, ys, hxsys⟩ := List.append_of_mem hpmem
    have hrx : Rep s (xs ++ p :: ys) := hxsys ▸ hr
    have hfindabs := absLookup_find hrx k hpkey
    have hlk : absLookup k (absOf s.arena ps) = some (getE s.arena p).value := by
      unfold absLookup
      rw [hxsys, hfindabs]
      rfl
    simp only [sGet, hfind]
    obtain ⟨hrep2, hsame2, hlen2, hitems2, hsize2, hcap2, hacc2, hhit2⟩ :=
      rep_moveToFront hrx
    have hval : (getE (sMoveToFront s p).arena p).value
        = (getE s.arena p).value := by
      have := hsame2 p
      unfold kvAt at this
      exact congrArg Prod.snd this
    refine ⟨p :: (xs ++ ys), hrep2, ?_, ?_, ?_, hcap2, hacc2, hhit2⟩
    · rw [absOf_congr hsame2]
      show absOf s.arena (p :: (xs ++ ys)) = _
      rw [absOf_cons, absOf_append]
      unfold absGet
      rw [hxsys, hfindabs]
      have hfilter : (absOf s.arena (xs ++ p :: ys)).filter
          (fun q => decide (q.1 ≠ k))
          = absOf s.arena xs ++ absOf s.arena ys := by
        unfold absOf
        rw [← hpkey]
        rw [show (fun x => ((getE s.arena x).key, (getE s.arena x).value))
            = (fun x => (keyAt s.arena x, (getE s.arena x).value)) from rfl]
        rw [filter_key_map (keyAt s.arena) (fun x => (getE s.arena x).value)
          xs ys p (hxsys ▸ hr.keysNodup), List.map_append]
      rw [hfilter]
      show kvAt s.arena p :: _ = _
      rw [show kvAt s.arena p = (k, (getE s.arena p).value) by
        unfold kvAt
        rw [← hpkey]
        rfl]
    · rw [hxsys]
      simp
      omega
    · rw [hval, hlk]
      rfl

/-- One LRUShardMap.Delete restricted to the owning shard: a miss returns
false and leaves the state untouched; a hit removes exactly that entry and
passes it to the configured callback once. -/
theorem zDelete_step [DecidableEq K] [Inhabited K] [Inhabited V] (cb : Bool)
    {s : LruShard K V} {ps : List Nat} (hr : Rep s ps) (k : K) :
    ∃ ps', Rep (zDelete cb s k).1.2 ps' ∧
      absOf (zDelete cb s k).1.2.arena ps' = absDel k (absOf s.arena ps) ∧
      (zDelete cb s k).1.1 = (absLookup k (absOf s.arena ps)).isSome ∧
      (zDelete cb s k).2 = (match absLookup k (absOf s.arena ps) with
        | some v0 => if cb then [(k, v0)] else []
        | none => []) ∧
      (ps'.length + (if (absLookup k (absOf s.arena ps)).isSome then 1 else 0)
        = ps.length) ∧
      (zDelete cb s k).1.2.capacity = s.capacity ∧
      (zDelete cb s k).1.2.accessCnt = s.accessCnt ∧
      (zDelete cb s k).1.2.hitCnt = s.hitCnt ∧
      (absLookup k (absOf s.arena ps) = none → (zDelete cb s k).1.2 = s) := by
  cases hfind : findPtr s.items k with
  | none =>
    have hlk : absLookup k (absOf s.arena ps) = none :=
      (absLookup_none_iff hr k).2 hfind
    have hres : zDelete cb s k = ((false, s), []) := by
      simp only [zDelete, hfind]
    rw [hres, hlk]
    exact ⟨ps, hr, by
      rw [show absDel k (absOf s.arena ps) = absOf s.arena ps by
        unfold absDel
        rw [List.filter_eq_self]
        intro q hq
        simp only [decide_eq_true_eq]
        intro hc
        have : k ∈ (absOf s.arena ps).map Prod.fst :=
          hc ▸ List.mem_map_of_mem Prod.fst hq
        rw [absOf_keys] at this
        exact (rep_findPtr_none hr k).1 hfind this],
      rfl, rfl, by simp, rfl, rfl, rfl, fun _ => rfl⟩
  | some p =>
    obtain ⟨hpmem, hpkey⟩ := (rep_findPtr hr k p).1 hfind
    obtain ⟨xs, ys, hxsys⟩ := List.append_of_mem hpmem
    have hrx : Rep s (xs ++ p :: ys) := hxsys ▸ hr
    have hfindabs := absLookup_find hrx k hpkey
    have hlk : absLookup k (absOf s.arena ps) = some (getE s.arena p).value := by
      unfold absLookup
      rw [hxsys, hfindabs]
      rfl
    have hres : zDelete cb s k
        = ((true, (zRemoveEntry cb s p).1), (zRemoveEntry cb s p).2) := by
      simp only [zDelete, hfind]
    rw [hres, hlk]
    obtain ⟨hrep2, hkvOn2, hlen2, hev2, hcap2, hacc2, hhit2, hsize2⟩ :=
      rep_removeEntry_z cb hrx
    refine ⟨xs ++ ys, hrep2, ?_, rfl, ?_, ?_, hcap2, hacc2, hhit2, ?_⟩
    · rw [absOf_congrOn hkvOn2, absOf_append]
      unfold absDel
      rw [hxsys]
      have hfilter : (absOf s.arena (xs ++ p :: ys)).filter
          (fun q => decide (q.1 ≠ k))
          = absOf s.arena xs ++ absOf s.arena ys := by
        unfold absOf
        rw [← hpkey]
        rw [show (fun x => ((getE s.arena x).key, (getE s.arena x).value))
            = (fun x => (keyAt s.arena x, (getE s.arena x).value)) from rfl]
        rw [filter_key_map (keyAt s.arena) (fun x => (getE s.arena x).value)
          xs ys p (hxsys ▸ hr.keysNodup), List.map_append]
      rw [hfilter]
    · rw [hev2]
      have : kvAt s.arena p = (k, (getE s.arena p).value) := by
        unfold kvAt
        rw [← hpkey]
        rfl
      rw [this]
    · rw [hxsys]
      simp
      omega
    · intro hc
      simp at hc

/-- One SimpleLRU.Delete restricted to the shard. -/
theorem sDelete_step [DecidableEq K] [Inhabited K] [Inhabited V] (cb : Bool)
    {s : LruShard K V} {ps : List Nat} (hr : Rep s ps) (k : K) :
    ∃ ps', Rep (sDelete cb s k).1.2 ps' ∧
      absOf (sDelete cb s k).1.2.arena ps' = absDel k (absOf s.arena ps) ∧
      (sDelete cb s k).1.1 = (absLookup k (absOf s.arena ps)).isSome ∧
      (sDelete cb s k).2 = (match absLookup k (absOf s.arena ps) with
        | some v0 => if cb then [(k, v0)] else []
        | none => []) ∧
      (ps'.length + (if (absLookup k (absOf s.arena ps)).isSome then 1 else 0)
        = ps.length) ∧
      (sDelete cb s k).1.2.capacity = s.capacity ∧
      (sDelete cb s k).1.2.accessCnt = s.accessCnt ∧
      (sDelete cb s k).1.2.hitCnt = s.hitCnt ∧
      (absLookup k (absOf s.arena ps) = none → (sDelete cb s k).1.2 = s) := by
  cases hfind : findPtr s.items k with
  | none =>
    have hlk : absLookup k (absOf s.arena ps) = none :=
      (absLookup_none_iff hr k).2 hfind
    have hres : sDelete cb s k = ((false, s), []) := by
      simp only [sDelete, hfind]
    rw [hres, hlk]
    exact ⟨ps, hr, by
      rw [show absDel k (absOf s.arena ps) = absOf s.arena ps by
        unfold absDel
        rw [List.filter_eq_self]
        intro q hq
        simp only [decide_eq_true_eq]
        intro hc
        have : k ∈ (absOf s.arena ps).map Prod.fst :=
          hc ▸ List.mem_map_of_mem Prod.fst hq
        rw [absOf_keys] at this
        exact (rep_findPtr_none hr k).1 hfind this],
      rfl, rfl, by simp, rfl, rfl, rfl, fun _ => rfl⟩
  | some p =>
    obtain ⟨hpmem, hpkey⟩ := (rep_findPtr hr k p).1 hfind
    obtain ⟨xs, ys, hxsys⟩ := List.append_of_mem hpmem
    have hrx : Rep s (xs ++ p :: ys) := hxsys ▸ hr
    have hfindabs := absLookup_find hrx k hpkey
    have hlk : absLookup k (absOf s.arena ps) = some (getE s.arena p).value := by
      unfold absLookup
      rw [hxsys, hfindabs]
      rfl
    have hres : sDelete cb s k
        = ((true, sRemoveEntry s p),
           if cb then [((getE s.arena p).key, (getE s.arena p).value)]
           else []) := by
      simp only [sDelete, hfind]
    rw [hres, hlk]
    obtain ⟨hrep2, hkvOn2, hlen2, hcap2, hacc2, hhit2, hsize2⟩ :=
      rep_removeEntry_s hrx
    refine ⟨xs ++ ys, hrep2, ?_, rfl, ?_, ?_, hcap2, hacc2, hhit2, ?_⟩
    · rw [absOf_congrOn hkvOn2, absOf_append]
      unfold absDel
      rw [hxsys]
      have hfilter : (absOf s.arena (xs ++ p :: ys)).filter
          (fun q => decide (q.1 ≠ k))
          = absOf s.arena xs ++ absOf s.arena ys := by
        unfold absOf
        rw [← hpkey]
        rw [show (fun x => ((getE s.arena x).key, (getE s.arena x).value))
            = (fun x => (keyAt s.arena x, (getE s.arena x).value)) from rfl]
        rw [filter_key_map (keyAt s.arena) (fun x => (getE s.arena x).value)
          xs ys p (hxsys ▸ hr.keysNodup), List.map_append]
      rw [hfilter]
    · rw [← hpkey]
      rfl
    · rw [hxsys]
      simp
      omega
    · intro hc
      simp at hc

theorem rep_zClear [DecidableEq K] [Inhabited K] [Inhabited V]
    (s : LruShard K V) : Rep (zClear s) [] := by
  refine ⟨?_, rfl, List.nodup_nil, List.Perm.refl _, List.nodup_nil, rfl⟩
  show ChainAux (zClear s).arena none none []
  rfl

theorem zContains_spec [DecidableEq K] [Inhabited K] [Inhabited V]
    {s : LruShard K V} {ps : List Nat} (hr : Rep s ps) (k : K) :
    zContains s k = (absLookup k (absOf s.arena ps)).isSome := by
  unfold zContains
  cases hfind : findPtr s.items k with
  | none =>
    rw [(absLookup_none_iff hr k).2 hfind]
    rfl
  | some p =>
    obtain ⟨hpmem, hpkey⟩ := (rep_findPtr hr k p).1 hfind
    obtain ⟨xs, ys, hxsys⟩ := List.append_of_mem hpmem
    have hrx : Rep s (xs ++ p :: ys) := hxsys ▸ hr
    have hfindabs := absLookup_find hrx k hpkey
    unfold absLookup
    rw [hxsys, hfindabs]
    rfl

/-! ## Operation traces and touch recency. A COp is one public map call;
the same op type drives the single shard SimpleLRU and the sharded map. -/

inductive COp (K V : Type) where
  | set : K → V → COp K V
  | get : K → COp K V
  | del : K → COp K V
  | clear : COp K V

/-- Whether one call touches key k (a Set or a Get on k). -/
def touches [DecidableEq K] (k : K) : COp K V → Bool
  | .set k' _ => decide (k' = k)
  | .get k' => decide (k' = k)
  | _ => false

/-- The position (1-based, 0 for never) of the last touch of key k in the
trace. -/
def lastTouch [DecidableEq K] : List (COp K V) → K → Nat
  | [], _ => 0
  | op :: rest, k =>
    let r := lastTouch rest k
    if r ≠ 0 then r + 1 else if touches k op then 1 else 0

theorem lastTouch_le [DecidableEq K] (t : List (COp K V)) (k : K) :
    lastTouch t k ≤ t.length := by
  induction t with
  | nil => simp [lastTouch]
  | cons op rest ih =>
    unfold lastTouch
    simp only [List.length_cons]
    split
    · omega
    · split <;> omega

theorem lastTouch_append [DecidableEq K] (t : List (COp K V))
    (op : COp K V) (k : K) :
    lastTouch (t ++ [op]) k
      = if touches k op then t.length + 1 else lastTouch t k := by
  induction t with
  | nil =>
    show lastTouch [op] k = _
    simp [lastTouch]
  | cons op2 rest ih =>
    show lastTouch (op2 :: (rest ++ [op])) k = _
    by_cases ht : touches k op
    · rw [if_pos ht]
      unfold lastTouch
      rw [ih, if_pos ht, if_pos (by omega : rest.length + 1 ≠ 0)]
      simp only [List.length_cons]
    · rw [if_neg ht]
      show _ = lastTouch (op2 :: rest) k
      unfold lastTouch
      rw [ih, if_neg ht]

/-- The resident pair list is strictly sorted by decreasing last-touch
position. -/
def SortedTouch [DecidableEq K] (t : List (COp K V)) (L : List (K × V)) :
    Prop :=
  List.Pairwise (fun a b => lastTouch t b.1 < lastTouch t a.1) L ∧
    ∀ q ∈ L, 1 ≤ lastTouch t q.1

/-- An op that touches no resident key leaves sortedness intact. -/
theorem sortedTouch_frame [DecidableEq K] {t : List (COp K V)}
    {L : List (K × V)} (hs : SortedTouch t L) (op : COp K V)
    (hnot : ∀ q ∈ L, touches q.1 op = false) :
    SortedTouch (t ++ [op]) L := by
  have hsame : ∀ q ∈ L, lastTouch (t ++ [op]) q.1 = lastTouch t q.1 := by
    intro q hq
    rw [lastTouch_append]
    rw [show touches q.1 op = false from hnot q hq]
    simp
  constructor
  · apply List.Pairwise.imp_of_mem ?_ hs.1
    intro a b ha hb h
    rw [hsame a ha, hsame b hb]
    exact h
  · intro q hq
    rw [hsame q hq]
    exact hs.2 q hq

theorem sortedTouch_sublist [DecidableEq K] {t : List (COp K V)}
    {L L' : List (K × V)} (hs : SortedTouch t L) (h : L'.Sublist L) :
    SortedTouch t L' :=
  ⟨hs.1.sublist h, fun q hq => hs.2 q (h.mem hq)⟩

/-- Placing the just-touched key in front of residents whose keys differ
from it keeps the list sorted. -/
theorem sortedTouch_front [DecidableEq K] {t : List (COp K V)}
    {L' : List (K × V)} (op : COp K V) (k : K) (v : V)
    (htouch : touches k op = true)
    (hs : SortedTouch t L')
    (hne : ∀ q ∈ L', q.1 ≠ k)
    (hop : ∀ k', touches k' op = true → k' = k) :
    SortedTouch (t ++ [op]) ((k, v) :: L') := by
  have hsame : ∀ q ∈ L', lastTouch (t ++ [op]) q.1 = lastTouch t q.1 := by
    intro q hq
    rw [lastTouch_append]
    rw [show touches q.1 op = false by
      cases h9 : touches q.1 op
      · rfl
      · exact absurd (hop q.1 h9) (hne q hq)]
    simp
  have hk : lastTouch (t ++ [op]) k = t.length + 1 := by
    rw [lastTouch_append, if_pos htouch]
  constructor
  · refine List.Pairwise.cons ?_ ?_
    · intro q hq
      rw [hk, hsame q hq]
      have := lastTouch_le t q.1
      omega
    · apply List.Pairwise.imp_of_mem ?_ hs.1
      intro a b ha hb h
      rw [hsame a ha, hsame b hb]
      exact h
  · intro q hq
    rcases List.mem_cons.1 hq with rfl | hq2
    · rw [hk]
      omega
    · rw [hsame q hq2]
      exact hs.2 q hq2

/-- The abstract effect of one call on the resident pair list. -/
def absOp [DecidableEq K] (c : Int) (L : List (K × V)) : COp K V → List (K × V)
  | .set k v => absSet c k v L
  | .get k => absGet k L
  | .del k => absDel k L
  | .clear => []

/-- The abstract resident list after a trace, newest call last. -/
def absTrace [DecidableEq K] (c : Int) (t : List (COp K V)) : List (K × V) :=
  t.foldl (absOp c) []

theorem absTrace_append [DecidableEq K] (c : Int) (t : List (COp K V))
    (op : COp K V) :
    absTrace c (t ++ [op]) = absOp c (absTrace c t) op := by
  unfold absTrace
  rw [List.foldl_append]
  rfl

theorem sortedTouch_absSet [DecidableEq K] {t : List (COp K V)}
    {L : List (K × V)} (hs : SortedTouch t L) (c : Int) (k : K) (v : V) :
    SortedTouch (t ++ [COp.set k v]) (absSet c k v L) := by
  have hop : ∀ k', touches k' (COp.set k v : COp K V) = true → k' = k := by
    intro k' h9
    have h10 : k = k' := by simpa [touches] using h9
    exact h10.symm
  have htouch : touches k (COp.set k v : COp K V) = true := by
    simp [touches]
  unfold absSet
  by_cases hk : k ∈ L.map Prod.fst
  · rw [if_pos hk]
    apply sortedTouch_front (COp.set k v) k v htouch
      (sortedTouch_sublist hs (List.filter_sublist L))
    · intro q hq
      have := List.of_mem_filter hq
      simpa using this
    · exact hop
  · rw [if_neg hk]
    have hfront : SortedTouch (t ++ [COp.set k v]) ((k, v) :: L) := by
      apply sortedTouch_front (COp.set k v) k v htouch hs
      · intro q hq hc
        exact hk (hc ▸ List.mem_map_of_mem Prod.fst hq)
      · exact hop
    split
    · exact sortedTouch_sublist hfront (List.dropLast_sublist _)
    · exact hfront

theorem sortedTouch_absGet [DecidableEq K] {t : List (COp K V)}
    {L : List (K × V)} (hs : SortedTouch t L) (k : K) :
    SortedTouch (t ++ [COp.get k]) (absGet k L) := by
  unfold absGet
  cases hf : L.find? (fun q => decide (q.1 = k)) with
  | none =>
    apply sortedTouch_frame hs
    intro q hq
    rw [List.find?_eq_none] at hf
    have := hf q hq
    simp only [decide_eq_true_eq] at this
    show touches q.1 (COp.get k) = false
    simpa [touches] using fun hc => this hc.symm
  | some kv =>
    have hkv : kv.1 = k := by
      have := List.find?_some hf
      simpa using this
    have hkveq : kv = (k, kv.2) := by
      cases kv
      simp only at hkv
      rw [hkv]
    rw [hkveq]
    apply sortedTouch_front (COp.get k) k kv.2 (by simp [touches])
      (sortedTouch_sublist hs (List.filter_sublist L))
    · intro q hq
      have := List.of_mem_filter hq
      simpa using this
    · intro k' h9
      have h10 : k = k' := by simpa [touches] using h9
      exact h10.symm

theorem sortedTouch_absDel [DecidableEq K] {t : List (COp K V)}
    {L : List (K × V)} (hs : SortedTouch t L) (k : K) :
    SortedTouch (t ++ [COp.del k]) (absDel k L) := by
  apply sortedTouch_sublist ?_ (List.filter_sublist L)
  apply sortedTouch_frame hs
  intro q _
  rfl

theorem sortedTouch_nil [DecidableEq K] (t : List (COp K V)) :
    SortedTouch t ([] : List (K × V)) :=
  ⟨List.Pairwise.nil, by intro q hq; simp at hq⟩

/-- The resident list after any trace is sorted by recency of touch. -/
theorem absTrace_sorted [DecidableEq K] (c : Int) (t : List (COp K V)) :
    SortedTouch t (absTrace c t) := by
  induction t using List.reverseRecOn with
  | nil => exact sortedTouch_nil []
  | append_singleton t op ih =>
    rw [absTrace_append]
    cases op with
    | set k v => exact sortedTouch_absSet ih c k v
    | get k => exact sortedTouch_absGet ih k
    | del k => exact sortedTouch_absDel ih k
    | clear => exact sortedTouch_nil _

/-! ## Running traces on a SimpleLRU -/

/-- One SimpleLRU call (state part). -/
def runSOp [DecidableEq K] [Inhabited K] [Inhabited V] (cb : Bool)
    (s : LruShard K V) : COp K V → LruShard K V
  | .set k v => (sSet cb s k v).1
  | .get k => (sGet s k).2
  | .del k => (sDelete cb s k).1.2
  | .clear => (sClear cb s).1

/-- A trace of SimpleLRU calls. -/
def runSTrace [DecidableEq K] [Inhabited K] [Inhabited V] (cb : Bool)
    (s : LruShard K V) (t : List (COp K V)) : LruShard K V :=
  t.foldl (runSOp cb) s

theorem runSTrace_append [DecidableEq K] [Inhabited K] [Inhabited V]
    (cb : Bool) (s : LruShard K V) (t : List (COp K V)) (op : COp K V) :
    runSTrace cb s (t ++ [op]) = runSOp cb (runSTrace cb s t) op := by
  unfold runSTrace
  rw [List.foldl_append]
  rfl

/-- Any SimpleLRU state reachable from a fresh cache is well formed, stays
within capacity and abstracts to the abstract trace semantics. -/
theorem sTrace_invariant [DecidableEq K] [Inhabited K] [Inhabited V]
    (cb : Bool) (cap : Int) (hcap : 1 ≤ cap) (t : List (COp K V)) :
    ∃ ps, Rep (runSTrace cb (newLruShard cap) t) ps ∧
      absOf (runSTrace cb (newLruShard cap) t).arena ps = absTrace cap t ∧
      ((ps.length : Int) ≤ cap) ∧
      (runSTrace cb (newLruShard cap) t).capacity = cap := by
  induction t using List.reverseRecOn with
  | nil =>
    refine ⟨[], ?_, rfl, by simp; omega, rfl⟩
    exact ⟨rfl, rfl, List.nodup_nil, List.Perm.refl _, List.nodup_nil, rfl⟩
  | append_singleton t op ih =>
    obtain ⟨ps, hr, habs, hlen, hcapEq⟩ := ih
    rw [runSTrace_append, absTrace_append]
    set s := runSTrace cb (newLruShard cap : LruShard K V) t with hsdef
    cases op with
    | set k v =>
      simp only [runSOp, absOp]
      obtain ⟨ps', hr', habs', hlen', _, hcap', _, _⟩ :=
        sSet_step cb hr (by rw [hcapEq]; exact hcap) (by rw [hcapEq]; exact hlen)
          k v
      refine ⟨ps', hr', ?_, ?_, ?_⟩
      · rw [habs', habs, hcapEq]
      · rw [← hcapEq]
        exact hlen'
      · rw [hcap', hcapEq]
    | get k =>
      simp only [runSOp, absOp]
      obtain ⟨ps', hr', habs', hlen', _, hcap', _, _⟩ := sGet_step hr k
      refine ⟨ps', hr', ?_, ?_, ?_⟩
      · rw [habs', habs]
      · rw [hlen']
        exact hlen
      · rw [hcap', hcapEq]
    | del k =>
      simp only [runSOp, absOp]
      obtain ⟨ps', hr', habs', _, _, hlen', hcap', _, _, _⟩ :=
        sDelete_step cb hr k
      refine ⟨ps', hr', ?_, ?_, ?_⟩
      · rw [habs', habs]
      · have : ps'.length ≤ ps.length := by omega
        have h2 : (ps'.length : Int) ≤ (ps.length : Int) := by
          exact_mod_cast this
        omega
      · rw [hcap', hcapEq]
    | clear =>
      simp only [runSOp, absOp]
      refine ⟨[], ?_, rfl, by simp; omega, ?_⟩
      · show Rep (sClear cb s).1 []
        exact rep_zClear _
      · show (sClear cb s).1.capacity = cap
        rw [show (sClear cb s).1.capacity = s.capacity from rfl, hcapEq]

/-! ## Walking the linked list explicitly -/

/-- Follow next pointers from h, visiting at most fuel entries. -/
def traverseFrom [Inhabited K] [Inhabited V] (A : Arena K V) :
    Nat → Option Nat → List Nat
  | 0, _ => []
  | Nat.succ fuel, h =>
    match h with
    | none => []
    | some p => p :: traverseFrom A fuel (getE A p).next

/-- Under the chain invariant, walking from the head with enough fuel
visits exactly the pointer list. -/
theorem chainAux_traverse [Inhabited K] [Inhabited V] (A : Arena K V) :
    ∀ (ps : List Nat) (pr h : Option Nat), ChainAux A pr h ps →
      traverseFrom A ps.length h = ps := by
  intro ps
  induction ps with
  | nil =>
    intro pr h hc
    have hh : h = none := hc
    rw [hh]
    rfl
  | cons p ps ih =>
    intro pr h hc
    obtain ⟨hh, e, he, hprev, hnext⟩ := hc
    rw [hh]
    show p :: traverseFrom A ps.length (getE A p).next = p :: ps
    rw [getE_eq_of_get? he, ih _ _ hnext]

/-- In a touch-sorted resident list the last element minimises the
last-touch position. -/
theorem sortedTouch_getLast_min [DecidableEq K] {t : List (COp K V)} :
    ∀ {L : List (K × V)}, SortedTouch t L → ∀ {ev : K × V},
      L.getLast? = some ev → ∀ q ∈ L, lastTouch t ev.1 ≤ lastTouch t q.1 := by
  intro L
  induction L with
  | nil =>
    intro _ ev h
    simp at h
  | cons a L2 ih =>
    intro hs ev hlast q hq
    cases L2 with
    | nil =>
      have hev : a = ev := by simpa using hlast
      have hqa : q = a := by simpa using hq
      rw [hqa, ← hev]
    | cons b L3 =>
      have hlast2 : (b :: L3).getLast? = some ev := by
        rw [← List.getLast?_cons_cons]
        exact hlast
      have hs2 : SortedTouch t (b :: L3) :=
        ⟨List.Pairwise.sublist (List.sublist_cons_self a (b :: L3)) hs.1,
         fun r hr => hs.2 r (List.mem_cons_of_mem a hr)⟩
      have hevmem : ev ∈ b :: L3 := by
        obtain ⟨hne9, hevg⟩ := List.mem_getLast?_eq_getLast (by
          rw [hlast2]; rfl)
        rw [hevg]
        exact List.getLast_mem hne9
      rcases List.mem_cons.1 hq with rfl | hq2
      · have := (List.pairwise_cons.1 hs.1).1 ev hevmem
        omega
      · exact ih hs2 hlast2 q hq2

/-- Setting key k makes it the front resident, so a Get of k right after
finds v (capacity at least 1 keeps the new pair from being dropped). -/
theorem absLookup_absSet [DecidableEq K] (c : Int) (hc : 1 ≤ c) (k : K)
    (v : V) (L : List (K × V)) : absLookup k (absSet c k v L) = some v := by
  unfold absSet
  by_cases hk : k ∈ L.map Prod.fst
  · rw [if_pos hk]
    unfold absLookup
    rw [List.find?_cons_of_pos _ (by simp)]
    rfl
  · rw [if_neg hk]
    by_cases hov : (L.length : Int) + 1 > c
    · rw [if_pos hov]
      have hne : L ≠ [] := by
        intro h
        subst h
        simp at hov
        omega
      rw [List.dropLast_cons_of_ne_nil hne]
      unfold absLookup
      rw [List.find?_cons_of_pos _ (by simp)]
      rfl
    · rw [if_neg hov]
      unfold absLookup
      rw [List.find?_cons_of_pos _ (by simp)]
      rfl

theorem mem_absSet [DecidableEq K] {c : Int} {k : K} {v : V}
    {L : List (K × V)} {q : K × V} (h : q ∈ absSet c k v L) :
    q = (k, v) ∨ q ∈ L := by
  unfold absSet at h
  split at h
  · rcases List.mem_cons.1 h with h1 | h1
    · exact Or.inl h1
    · exact Or.inr (List.mem_of_mem_filter h1)
  · split at h
    · have := (List.dropLast_sublist ((k, v) :: L)).mem h
      rcases List.mem_cons.1 this with h1 | h1
      · exact Or.inl h1
      · exact Or.inr h1
    · rcases List.mem_cons.1 h with h1 | h1
      · exact Or.inl h1
      · exact Or.inr h1

theorem mem_absGet [DecidableEq K] {k : K} {L : List (K × V)} {q : K × V}
    (h : q ∈ absGet k L) : q ∈ L := by
  unfold absGet at h
  split at h
  · next kv hf =>
    rcases List.mem_cons.1 h with rfl | h1
    · exact List.mem_of_find?_eq_some hf
    · exact List.mem_of_mem_filter h1
  · exact h

theorem mem_absDel [DecidableEq K] {k : K} {L : List (K × V)} {q : K × V}
    (h : q ∈ absDel k L) : q ∈ L :=
  List.mem_of_mem_filter h

/-- Deleting k does not change the lookup of any other key. -/
theorem absLookup_absDel_ne [DecidableEq K] (k k' : K) (hne : k' ≠ k)
    (L : List (K × V)) : absLookup k' (absDel k L) = absLookup k' L := by
  unfold absDel absLookup
  induction L with
  | nil => rfl
  | cons a L ih =>
    by_cases ha : a.1 = k
    · rw [List.filter_cons_of_neg (by simp [ha])]
      rw [List.find?_cons_of_neg _ (by
        simp only [decide_eq_true_eq]
        rw [ha]
        exact fun h => hne h.symm)]
      exact ih
    · rw [List.filter_cons_of_pos (by simp [ha])]
      by_cases hk9 : a.1 = k'
      · rw [List.find?_cons_of_pos _ (by simp [hk9]),
          List.find?_cons_of_pos _ (by simp [hk9])]
      · rw [List.find?_cons_of_neg _ (by simp [hk9]),
          List.find?_cons_of_neg _ (by simp [hk9])]
        exact ih

theorem sum_set_int (l : List Int) : ∀ (i : Nat) (x : Int), i < l.length →
    (l.set i x).sum + l[i]! = l.sum + x := by
  induction l with
  | nil => intro i x h; simp at h
  | cons a t ih =>
    intro i x h
    match i with
    | 0 => simp [List.sum_cons]; omega
    | Nat.succ j =>
      simp only [List.set_cons_succ, List.sum_cons]
      have hj : j < t.length := by simpa using h
      have := ih j x hj
      have hget : (a :: t)[j + 1]! = t[j]! := by
        rw [List.getElem!_cons_succ]
      rw [hget]
      omega

/-! ## The sharded map level (LRUShardMap, src/zmap/lru_shard_map.go).
maphash.Comparable with the internal seed is the ambient hash function hf;
getShard picks shards[int(hash) AND shardMask]. The onEvict callback is
the flag cb handed to each shard operation; the events each operation
returns are the callback invocations it makes. -/

structure LRUShardMapM (K V : Type) where
  shards : List (LruShard K V)
  shardMask : Nat

/-- NewLRUShardMap: shardCount shards after the default and power-of-two
rounding, each a fresh shard of the computed per-shard capacity, and the
mask shardCount - 1. -/
def newLRUShardMap (shardCount capacity : Int) : LRUShardMapM K V :=
  { shards := List.replicate (lruShardMapShardCount shardCount).toNat
      (newLruShard (lruShardMapPerShardCap shardCount capacity)),
    shardMask := (lruShardMapShardCount shardCount).toNat - 1 }

/-- getShard: the index of the shard owning key k. -/
def lmIdx (hf : K → Nat) (m : LRUShardMapM K V) (k : K) : Nat :=
  hf k &&& m.shardMask

/-- LRUShardMap.Set: route to the owning shard and run the shard body. -/
def lmSet [DecidableEq K] [Inhabited K] [Inhabited V] (hf : K → Nat)
    (cb : Bool) (m : LRUShardMapM K V) (k : K) (v : V) :
    LRUShardMapM K V × List (K × V) :=
  match m.shards[lmIdx hf m k]? with
  | some s =>
    let r := zSet cb s k v
    ({ m with shards := m.shards.set (lmIdx hf m k) r.1 }, r.2)
  | none => (m, [])

/-- LRUShardMap.Get. -/
def lmGet [DecidableEq K] [Inhabited K] [Inhabited V] (hf : K → Nat)
    (m : LRUShardMapM K V) (k : K) : (V × Bool) × LRUShardMapM K V :=
  match m.shards[lmIdx hf m k]? with
  | some s =>
    let r := zGet s k
    (r.1, { m with shards := m.shards.set (lmIdx hf m k) r.2 })
  | none => ((default, false), m)

/-- LRUShardMap.Delete. -/
def lmDelete [DecidableEq K] [Inhabited K] [Inhabited V] (hf : K → Nat)
    (cb : Bool) (m : LRUShardMapM K V) (k : K) :
    (Bool × LRUShardMapM K V) × List (K × V) :=
  match m.shards[lmIdx hf m k]? with
  | some s =>
    let r := zDelete cb s k
    ((r.1.1, { m with shards := m.shards.set (lmIdx hf m k) r.1.2 }), r.2)
  | none => ((false, m), [])

/-- LRUShardMap.Clear: clears every shard (counters stay). -/
def lmClear (m : LRUShardMapM K V) : LRUShardMapM K V :=
  { m with shards := m.shards.map zClear }

/-- LRUShardMap.Contains. -/
def lmContains [DecidableEq K] (hf : K → Nat) (m : LRUShardMapM K V)
    (k : K) : Bool :=
  match m.shards[lmIdx hf m k]? with
  | some s => zContains s k
  | none => false

/-- LRUShardMap.Len: the sum of the per-shard size counters. -/
def lmLen (m : LRUShardMapM K V) : Int :=
  (m.shards.map (fun s => s.size)).sum

/-- LRUShardMap.Stats: the overall hit rate (0 when there has been no
access) and one load figure size/capacity per shard; float64 arithmetic
on these exactly representable counters is modelled over the rationals. -/
def lmStats (m : LRUShardMapM K V) : ℚ × List ℚ :=
  (if (m.shards.map (fun s => s.accessCnt)).sum = 0 then 0
   else ((m.shards.map (fun s => s.hitCnt)).sum : ℚ)
      / ((m.shards.map (fun s => s.accessCnt)).sum : ℚ),
   m.shards.map (fun s => (s.size : ℚ) / (s.capacity : ℚ)))

/-- One public LRUShardMap call (state part). -/
def runMOp [DecidableEq K] [Inhabited K] [Inhabited V] (hf : K → Nat)
    (cb : Bool) (m : LRUShardMapM K V) : COp K V → LRUShardMapM K V
  | .set k v => (lmSet hf cb m k v).1
  | .get k => (lmGet hf m k).2
  | .del k => (lmDelete hf cb m k).1.2
  | .clear => lmClear m

/-- A trace of LRUShardMap calls. -/
def runMTrace [DecidableEq K] [Inhabited K] [Inhabited V] (hf : K → Nat)
    (cb : Bool) (m : LRUShardMapM K V) (t : List (COp K V)) :
    LRUShardMapM K V :=
  t.foldl (runMOp hf cb) m

theorem runMTrace_append [DecidableEq K] [Inhabited K] [Inhabited V]
    (hf : K → Nat) (cb : Bool) (m : LRUShardMapM K V) (t : List (COp K V))
    (op : COp K V) :
    runMTrace hf cb m (t ++ [op]) = runMOp hf cb (runMTrace hf cb m t) op := by
  unfold runMTrace
  rw [List.foldl_append]
  rfl

/-- The whole-map representation invariant after trace t: the mask is
shard count minus one, there is at least one shard, and every shard is a
well-formed LRU within capacity whose counters are consistent, whose
resident keys route to it, and whose resident list is sorted by recency
of touch in t. -/
def MapRep [DecidableEq K] [Inhabited K] [Inhabited V] (hf : K → Nat)
    (t : List (COp K V)) (m : LRUShardMapM K V) : Prop :=
  m.shardMask = m.shards.length - 1 ∧ 0 < m.shards.length ∧
  ∀ i (hi : i < m.shards.length), ∃ ps : List Nat,
    Rep m.shards[i] ps ∧
    1 ≤ m.shards[i].capacity ∧
    ((ps.length : Int) ≤ m.shards[i].capacity) ∧
    m.shards[i].hitCnt ≤ m.shards[i].accessCnt ∧
    (∀ q ∈ absOf m.shards[i].arena ps, hf q.1 &&& m.shardMask = i) ∧
    SortedTouch t (absOf m.shards[i].arena ps)

theorem lmIdx_lt [DecidableEq K] [Inhabited K] [Inhabited V]
    (hf : K → Nat) {t : List (COp K V)} {m : LRUShardMapM K V}
    (h : MapRep hf t m) (k : K) : lmIdx hf m k < m.shards.length := by
  obtain ⟨hmask, hpos, _⟩ := h
  have : hf k &&& m.shardMask ≤ m.shardMask := Nat.and_le_right
  unfold lmIdx
  omega

theorem lruShardMapShardCount_pos (shardCount : Int) :
    0 < lruShardMapShardCount shardCount := by
  unfold lruShardMapShardCount
  exact pow_pos (by norm_num) _

theorem one_le_lruShardMapPerShardCap (shardCount capacity : Int) :
    1 ≤ lruShardMapPerShardCap shardCount capacity := by
  unfold lruShardMapPerShardCap
  dsimp only
  split <;> omega

theorem rep_newLruShard [DecidableEq K] [Inhabited K] [Inhabited V]
    (capacity : Int) : Rep (newLruShard capacity : LruShard K V) [] :=
  ⟨rfl, rfl, List.nodup_nil, List.Perm.refl _, List.nodup_nil, rfl⟩

/-- A freshly constructed map satisfies the invariant for the empty
trace. -/
theorem mapRep_new [DecidableEq K] [Inhabited K] [Inhabited V]
    (hf : K → Nat) (shardCount capacity : Int) :
    MapRep hf ([] : List (COp K V))
      (newLRUShardMap shardCount capacity : LRUShardMapM K V) := by
  have hpos := lruShardMapShardCount_pos shardCount
  refine ⟨by simp [newLRUShardMap], by simp [newLRUShardMap]; omega, ?_⟩
  intro i hi
  have hget : (newLRUShardMap shardCount capacity : LRUShardMapM K V).shards[i]
      = (newLruShard (lruShardMapPerShardCap shardCount capacity) :
          LruShard K V) := by
    simp [newLRUShardMap]
  refine ⟨[], ?_, ?_, ?_, ?_, ?_, ?_⟩
  · rw [hget]
    exact rep_newLruShard _
  · rw [hget]
    exact one_le_lruShardMapPerShardCap shardCount capacity
  · rw [hget]
    have := one_le_lruShardMapPerShardCap shardCount capacity
    simp [newLruShard]
    omega
  · rw [hget]
    exact Nat.le.refl
  · intro q hq
    simp [absOf] at hq
  · exact sortedTouch_nil []

/-- One public call preserves the whole-map invariant, extending the
trace by the call. -/
theorem mapRep_step [DecidableEq K] [Inhabited K] [Inhabited V]
    (hf : K → Nat) (cb : Bool) {t : List (COp K V)} {m : LRUShardMapM K V}
    (h : MapRep hf t m) (op : COp K V) :
    MapRep hf (t ++ [op]) (runMOp hf cb m op) := by
  obtain ⟨hmask, hpos, hsh⟩ := h
  cases op with
  | set k v =>
    have hi0 : lmIdx hf m k < m.shards.length :=
      lmIdx_lt hf ⟨hmask, hpos, hsh⟩ k
    have hsome : m.shards[lmIdx hf m k]? = some m.shards[lmIdx hf m k] :=
      List.getElem?_eq_getElem hi0
    simp only [runMOp, lmSet, hsome]
    refine ⟨by simpa using hmask, by simpa using hpos, ?_⟩
    intro i hi
    simp only [List.length_set] at hi
    rcases eq_or_ne i (lmIdx hf m k) with rfl | hne
    · obtain ⟨ps, hr, hcap, hlen, hcnt, hroute, hsort⟩ := hsh _ hi
      obtain ⟨ps', hr', habs', hlen', _, hcapEq, hacc, hhit⟩ :=
        zSet_step cb hr hcap hlen k v
      have hget : (m.shards.set (lmIdx hf m k)
          (zSet cb m.shards[lmIdx hf m k] k v).1)[lmIdx hf m k]
          = (zSet cb m.shards[lmIdx hf m k] k v).1 :=
        List.getElem_set_self (by simpa using hi)
    -- the new shard state replaces the old one at the routed index
      refine ⟨ps', ?_, ?_, ?_, ?_, ?_, ?_⟩
      · rw [hget]; exact hr'
      · rw [hget, hcapEq]; exact hcap
      · rw [hget, hcapEq]; exact hlen'
      · rw [hget, hacc, hhit]; exact hcnt
      · rw [hget]
        intro q hq
        rw [habs'] at hq
        rcases mem_absSet hq with rfl | hq2
        · rfl
        · exact hroute q hq2
      · rw [hget, habs']
        exact sortedTouch_absSet hsort _ k v
    · obtain ⟨ps, hr, hcap, hlen, hcnt, hroute, hsort⟩ := hsh _ hi
      have hget : (m.shards.set (lmIdx hf m k)
          (zSet cb m.shards[lmIdx hf m k] k v).1)[i] = m.shards[i] :=
        List.getElem_set_ne (fun hc => hne hc.symm) (by simpa using hi)
      refine ⟨ps, ?_, ?_, ?_, ?_, ?_, ?_⟩
      · rw [hget]; exact hr
      · rw [hget]; exact hcap
      · rw [hget]; exact hlen
      · rw [hget]; exact hcnt
      · rw [hget]; exact hroute
      · rw [hget]
        apply sortedTouch_frame hsort
        intro q hq
        show touches q.1 (COp.set k v) = false
        have hqr : hf q.1 &&& m.shardMask = i := hroute q hq
        have : q.1 ≠ k := by
          intro hc
          exact hne (by rw [← hqr, hc]; rfl)
        simpa [touches] using fun hc => this hc.symm
  | get k =>
    have hi0 : lmIdx hf m k < m.shards.length :=
      lmIdx_lt hf ⟨hmask, hpos, hsh⟩ k
    have hsome : m.shards[lmIdx hf m k]? = some m.shards[lmIdx hf m k] :=
      List.getElem?_eq_getElem hi0
    simp only [runMOp, lmGet, hsome]
    refine ⟨by simpa using hmask, by simpa using hpos, ?_⟩
    intro i hi
    simp only [List.length_set] at hi
    rcases eq_or_ne i (lmIdx hf m k) with rfl | hne
    · obtain ⟨ps, hr, hcap, hlen, hcnt, hroute, hsort⟩ := hsh _ hi
      obtain ⟨ps', hr', habs', hlen', _, hcapEq, hacc, hhit⟩ :=
        zGet_step hr k
      have hget : (m.shards.set (lmIdx hf m k)
          (zGet m.shards[lmIdx hf m k] k).2)[lmIdx hf m k]
          = (zGet m.shards[lmIdx hf m k] k).2 :=
        List.getElem_set_self (by simpa using hi)
      refine ⟨ps', ?_, ?_, ?_, ?_, ?_, ?_⟩
      · rw [hget]; exact hr'
      · rw [hget, hcapEq]; exact hcap
      · rw [hget, hcapEq, hlen']; exact hlen
      · rw [hget, hacc, hhit]
        split <;> omega
      · rw [hget]
        intro q hq
        rw [habs'] at hq
        exact hroute q (mem_absGet hq)
      · rw [hget, habs']
        exact sortedTouch_absGet hsort k
    · obtain ⟨ps, hr, hcap, hlen, hcnt, hroute, hsort⟩ := hsh _ hi
      have hget : (m.shards.set (lmIdx hf m k)
          (zGet m.shards[lmIdx hf m k] k).2)[i] = m.shards[i] :=
        List.getElem_set_ne (fun hc => hne hc.symm) (by simpa using hi)
      refine ⟨ps, ?_, ?_, ?_, ?_, ?_, ?_⟩
      · rw [hget]; exact hr
      · rw [hget]; exact hcap
      · rw [hget]; exact hlen
      · rw [hget]; exact hcnt
      · rw [hget]; exact hroute
      · rw [hget]
        apply sortedTouch_frame hsort
        intro q hq
        show touches q.1 (COp.get k) = false
        have hqr : hf q.1 &&& m.shardMask = i := hroute q hq
        have : q.1 ≠ k := by
          intro hc
          exact hne (by rw [← hqr, hc]; rfl)
        simpa [touches] using fun hc => this hc.symm
  | del k =>
    have hi0 : lmIdx hf m k < m.shards.length :=
      lmIdx_lt hf ⟨hmask, hpos, hsh⟩ k
    have hsome : m.shards[lmIdx hf m k]? = some m.shards[lmIdx hf m k] :=
      List.getElem?_eq_getElem hi0
    simp only [runMOp, lmDelete, hsome]
    refine ⟨by simpa using hmask, by simpa using hpos, ?_⟩
    intro i hi
    simp only [List.length_set] at hi
    rcases eq_or_ne i (lmIdx hf m k) with rfl | hne
    · obtain ⟨ps, hr, hcap, hlen, hcnt, hroute, hsort⟩ := hsh _ hi
      obtain ⟨ps', hr', habs', _, _, hlen', hcapEq, hacc, hhit, _⟩ :=
        zDelete_step cb hr k
      have hget : (m.shards.set (lmIdx hf m k)
          (zDelete cb m.shards[lmIdx hf m k] k).1.2)[lmIdx hf m k]
          = (zDelete cb m.shards[lmIdx hf m k] k).1.2 :=
        List.getElem_set_self (by simpa using hi)
      refine ⟨ps', ?_, ?_, ?_, ?_, ?_, ?_⟩
      · rw [hget]; exact hr'
      · rw [hget, hcapEq]; exact hcap
      · rw [hget, hcapEq]
        have h9 : ps'.length ≤ ps.length := by omega
        have h8 : (ps'.length : Int) ≤ (ps.length : Int) := by
          exact_mod_cast h9
        omega
      · rw [hget, hacc, hhit]; exact hcnt
      · rw [hget]
        intro q hq
        rw [habs'] at hq
        exact hroute q (mem_absDel hq)
      · rw [hget, habs']
        exact sortedTouch_absDel hsort k
    · obtain ⟨ps, hr, hcap, hlen, hcnt, hroute, hsort⟩ := hsh _ hi
      have hget : (m.shards.set (lmIdx hf m k)
          (zDelete cb m.shards[lmIdx hf m k] k).1.2)[i] = m.shards[i] :=
        List.getElem_set_ne (fun hc => hne hc.symm) (by simpa using hi)
      refine ⟨ps, ?_, ?_, ?_, ?_, ?_, ?_⟩
      · rw [hget]; exact hr
      · rw [hget]; exact hcap
      · rw [hget]; exact hlen
      · rw [hget]; exact hcnt
      · rw [hget]; exact hroute
      · rw [hget]
        apply sortedTouch_frame hsort
        intro q _
        rfl
  | clear =>
    simp only [runMOp, lmClear]
    refine ⟨by simpa using hmask, by simpa using hpos, ?_⟩
    intro i hi
    simp only [List.length_map] at hi
    obtain ⟨ps, hr, hcap, hlen, hcnt, hroute, hsort⟩ := hsh _ hi
    have hget : (m.shards.map zClear)[i] = zClear m.shards[i] := by
      rw [List.getElem_map]
    refine ⟨[], ?_, ?_, ?_, ?_, ?_, ?_⟩
    · rw [hget]; exact rep_zClear _
    · rw [hget]
      show 1 ≤ m.shards[i].capacity
      exact hcap
    · rw [hget]
      show ((0 : Nat) : Int) ≤ m.shards[i].capacity
      omega
    · rw [hget]
      show m.shards[i].hitCnt ≤ m.shards[i].accessCnt
      exact hcnt
    · intro q hq
      simp [absOf] at hq
    · exact sortedTouch_nil _

/-- Any state reachable from a freshly constructed LRUShardMap satisfies
the whole-map invariant for its trace. -/
theorem mTrace_invariant [DecidableEq K] [Inhabited K] [Inhabited V]
    (hf : K → Nat) (cb : Bool) (shardCount capacity : Int)
    (t : List (COp K V)) :
    MapRep hf t
      (runMTrace hf cb (newLRUShardMap shardCount capacity) t) := by
  induction t using List.reverseRecOn with
  | nil => exact mapRep_new hf shardCount capacity
  | append_singleton t op ih =>
    rw [runMTrace_append]
    exact mapRep_step hf cb ih op

/-! ## The claims -/

/-- C1: after any sequence of public Get/Set/Delete/Clear calls on a
freshly constructed LRUShardMap, every shard's size counter equals the
number of keys in its items map, walking the linked list from the head
visits exactly the entries of items in most-recently-touched-first order
(the traversal is the pointer list ps, items holds exactly the keyed
pointers of ps, and the resident pairs are sorted by recency of touch),
each size stays within the shard capacity, and the total size is at most
the sum of the per-shard capacities. -/
theorem C1_shard_invariants [DecidableEq K] [Inhabited K] [Inhabited V]
    (hf : K → Nat) (cb : Bool) (shardCount capacity : Int)
    (t : List (COp K V)) :
    (∀ s ∈ (runMTrace hf cb (newLRUShardMap shardCount capacity) t).shards,
      ∃ ps : List Nat,
        Rep s ps ∧
        s.size = s.items.length ∧
        traverseFrom s.arena s.size.toNat s.head = ps ∧
        s.items.Perm (ps.map (fun p => (keyAt s.arena p, p))) ∧
        SortedTouch t (absOf s.arena ps) ∧
        s.size ≤ s.capacity) ∧
    lmLen (runMTrace hf cb (newLRUShardMap shardCount capacity) t)
      ≤ ((runMTrace hf cb (newLRUShardMap shardCount capacity) t).shards.map
          (fun s => s.capacity)).sum := by
  obtain ⟨hmask, hpos, hsh⟩ :=
    mTrace_invariant hf cb shardCount capacity t
  have hall : ∀ s ∈
      (runMTrace hf cb (newLRUShardMap shardCount capacity) t).shards,
      ∃ ps : List Nat,
        Rep s ps ∧
        s.size = s.items.length ∧
        traverseFrom s.arena s.size.toNat s.head = ps ∧
        s.items.Perm (ps.map (fun p => (keyAt s.arena p, p))) ∧
        SortedTouch t (absOf s.arena ps) ∧
        s.size ≤ s.capacity := by
    intro s hs
    obtain ⟨i, hi, rfl⟩ := List.mem_iff_getElem.1 hs
    obtain ⟨ps, hr, hcap, hlen, hcnt, hroute, hsort⟩ := hsh i hi
    refine ⟨ps, hr, ?_, ?_, hr.itemsPerm, hsort, ?_⟩
    · rw [hr.sizeEq, hr.itemsPerm.length_eq, List.length_map]
    · have htn : (runMTrace hf cb (newLRUShardMap shardCount capacity)
          t).shards[i].size.toNat = ps.length := by
        rw [hr.sizeEq]
        omega
      rw [htn]
      exact chainAux_traverse _ ps none _ hr.chain
    · rw [hr.sizeEq]
      exact hlen
  refine ⟨hall, ?_⟩
  unfold lmLen
  apply List.sum_le_sum
  intro s hs
  obtain ⟨ps, hr, _, _, _, _, hsc⟩ := hall s hs
  exact hsc

/-- C2: on a single SimpleLRU shard of capacity N holding N residents, a
Set of a fresh key evicts exactly the least recently touched resident
(Set and Get both touch): the eviction callback fires on precisely the
last listed resident, that resident minimises the last-touch position
over the trace, and afterwards the residents are the fresh pair followed
by every other prior resident. -/
theorem C2_evicts_least_recently_touched [DecidableEq K] [Inhabited K]
    [Inhabited V] (cap : Int) (hcap : 1 ≤ cap) (t : List (COp K V))
    (k : K) (v : V)
    (hnew : k ∉ (absTrace cap t).map Prod.fst)
    (hfull : ((absTrace cap t).length : Int) = cap) :
    ∃ ev : K × V,
      (absTrace cap t).getLast? = some ev ∧
      (sSet true (runSTrace true (newLruShard cap) t) k v).2 = [ev] ∧
      (∀ q ∈ absTrace cap t, lastTouch t ev.1 ≤ lastTouch t q.1) ∧
      ∃ ps : List Nat,
        Rep (sSet true (runSTrace true (newLruShard cap) t) k v).1 ps ∧
        absOf (sSet true (runSTrace true (newLruShard cap) t) k v).1.arena
            ps = (k, v) :: (absTrace cap t).dropLast := by
  obtain ⟨ps, hr, habs, hlen, hcapEq⟩ := sTrace_invariant true cap hcap t
  have hLne : absTrace cap t ≠ [] := by
    intro h9
    rw [h9] at hfull
    simp at hfull
    omega
  obtain ⟨ev, hev⟩ :=
    Option.isSome_iff_exists.1 (List.getLast?_isSome.2 hLne)
  have hov : ((absTrace cap t).length : Int) + 1 > cap := by omega
  obtain ⟨ps1, hr1, habs1, hlen1, hevt, hcap1, _, _⟩ :=
    sSet_step true hr (by rw [hcapEq]; exact hcap)
      (by rw [hcapEq]; exact hlen) k v
  have hevt2 : (sSet true (runSTrace true (newLruShard cap) t) k v).2
      = [ev] := by
    rw [hevt, habs, hcapEq]
    have h8 : absSetEv cap true k (absTrace cap t)
        = (absTrace cap t).getLast?.toList := by
      unfold absSetEv
      rw [if_neg hnew, if_pos hov]
      simp
    rw [h8, hev]
    rfl
  have habs3 : absTrace cap (t ++ [COp.set k v])
      = (k, v) :: (absTrace cap t).dropLast := by
    rw [absTrace_append]
    show absSet cap k v (absTrace cap t) = _
    unfold absSet
    rw [if_neg hnew, if_pos hov, List.dropLast_cons_of_ne_nil hLne]
  obtain ⟨ps2, hr2, habs2, _, _⟩ :=
    sTrace_invariant true cap hcap (t ++ [COp.set k v])
  have hrw : runSTrace true (newLruShard cap : LruShard K V)
      (t ++ [COp.set k v])
      = (sSet true (runSTrace true (newLruShard cap) t) k v).1 := by
    rw [runSTrace_append]
    rfl
  rw [hrw] at hr2 habs2
  exact ⟨ev, hev, hevt2,
    sortedTouch_getLast_min (absTrace_sorted cap t) hev, ps2, hr2,
    by rw [habs2, habs3]⟩

theorem C2_witness :
    ((3 : Nat) ∉ (absTrace (3 : Int)
      ([COp.set 0 100, COp.set 1 101, COp.set 2 102, COp.get 0]
        : List (COp Nat Nat))).map Prod.fst) ∧
    (((absTrace (3 : Int) ([COp.set 0 100, COp.set 1 101, COp.set 2 102,
        COp.get 0] : List (COp Nat Nat))).length : Int) = 3) ∧
    (∃ ev : Nat × Nat,
      (absTrace (3 : Int) ([COp.set 0 100, COp.set 1 101, COp.set 2 102,
        COp.get 0] : List (COp Nat Nat))).getLast? = some ev ∧
      (sSet true (runSTrace true (newLruShard 3)
        ([COp.set 0 100, COp.set 1 101, COp.set 2 102, COp.get 0]
          : List (COp Nat Nat))) 3 103).2 = [ev] ∧
      (∀ q ∈ absTrace (3 : Int) ([COp.set 0 100, COp.set 1 101,
          COp.set 2 102, COp.get 0] : List (COp Nat Nat)),
        lastTouch ([COp.set 0 100, COp.set 1 101, COp.set 2 102,
          COp.get 0] : List (COp Nat Nat)) ev.1
          ≤ lastTouch ([COp.set 0 100, COp.set 1 101, COp.set 2 102,
            COp.get 0] : List (COp Nat Nat)) q.1) ∧
      ∃ ps : List Nat,
        Rep (sSet true (runSTrace true (newLruShard 3)
          ([COp.set 0 100, COp.set 1 101, COp.set 2 102, COp.get 0]
            : List (COp Nat Nat))) 3 103).1 ps ∧
        absOf (sSet true (runSTrace true (newLruShard 3)
          ([COp.set 0 100, COp.set 1 101, COp.set 2 102, COp.get 0]
            : List (COp Nat Nat))) 3 103).1.arena ps
          = (3, 103) :: (absTrace (3 : Int) ([COp.set 0 100, COp.set 1 101,
              COp.set 2 102, COp.get 0] : List (COp Nat Nat))).dropLast) ∧
    ((sSet true (runSTrace true (newLruShard 3)
      ([COp.set 0 100, COp.set 1 101, COp.set 2 102, COp.get 0]
        : List (COp Nat Nat))) 3 103).2 = [(1, 101)]) ∧
    ((absTrace (3 : Int) (([COp.set 0 100, COp.set 1 101, COp.set 2 102,
        COp.get 0] : List (COp Nat Nat)) ++ [COp.set 3 103])).map Prod.fst
      = [3, 0, 2]) :=
  ⟨by decide, by decide,
   C2_evicts_least_recently_touched 3 (by norm_num) _ 3 103 (by decide)
     (by decide),
   by decide, by decide⟩

theorem bitsLen_pow_ge (n : Nat) (h : 1 ≤ n) : n ≤ 2 ^ bitsLen (n - 1) := by
  unfold bitsLen
  rcases Nat.lt_or_ge n 2 with h2 | h2
  · interval_cases n
    simp
  · have hn1 : n - 1 ≠ 0 := by omega
    rw [if_neg hn1]
    have : n - 1 < 2 ^ (Nat.log 2 (n - 1)).succ :=
      Nat.lt_pow_succ_log_self (by norm_num) (n - 1)
    rw [Nat.log2_eq_log_two]
    omega

theorem bitsLen_pow_lt (n : Nat) (h : 1 ≤ n) : 2 ^ bitsLen (n - 1) < 2 * n := by
  unfold bitsLen
  rcases Nat.lt_or_ge n 2 with h2 | h2
  · interval_cases n
    simp
  · have hn1 : n - 1 ≠ 0 := by omega
    rw [if_neg hn1]
    have hlog : 2 ^ Nat.log 2 (n - 1) ≤ n - 1 :=
      Nat.pow_log_le_self 2 (by omega)
    rw [Nat.log2_eq_log_two, pow_succ]
    omega

theorem nextPowerOfTwo_pow (n : Int) : ∃ e : Nat, nextPowerOfTwo n = 2 ^ e := by
  unfold nextPowerOfTwo
  split
  · exact ⟨0, rfl⟩
  · exact ⟨_, rfl⟩

theorem bitsLen_eq (n e : Nat) (h1 : 2 ^ e ≤ n) (h2 : n < 2 ^ (e + 1)) :
    bitsLen n = e + 1 := by
  have hp : 0 < 2 ^ e := pow_pos (by norm_num) e
  unfold bitsLen
  rw [if_neg (by omega), Nat.log2_eq_log_two,
    Nat.log_eq_of_pow_le_of_lt_pow h1 h2]

theorem nextPowerOfTwo_4 : nextPowerOfTwo 4 = 4 := by
  unfold nextPowerOfTwo
  rw [if_neg (by norm_num)]
  have h9 : ((4 : Int) - 1).toNat = 3 := by decide
  rw [h9, bitsLen_eq 3 1 (by norm_num) (by norm_num)]
  norm_num

theorem nextPowerOfTwo_100 : nextPowerOfTwo 100 = 128 := by
  unfold nextPowerOfTwo
  rw [if_neg (by norm_num)]
  have h9 : ((100 : Int) - 1).toNat = 99 := by decide
  rw [h9, bitsLen_eq 99 6 (by norm_num) (by norm_num)]
  norm_num

theorem nextPowerOfTwo_128 : nextPowerOfTwo 128 = 128 := by
  unfold nextPowerOfTwo
  rw [if_neg (by norm_num)]
  have h9 : ((128 : Int) - 1).toNat = 127 := by decide
  rw [h9, bitsLen_eq 127 6 (by norm_num) (by norm_num)]
  norm_num

theorem newShardLRUConfig_ex_capacity :
    (newShardLRUConfig 4 [ShardLRUOpt.withShardCount 4,
      ShardLRUOpt.withCapacity 100]).capacity = 128 := by
  show nextPowerOfTwo (nextPowerOfTwo 100) = 128
  rw [nextPowerOfTwo_100, nextPowerOfTwo_128]

theorem newShardLRUConfig_ex_shardCount :
    (newShardLRUConfig 4 [ShardLRUOpt.withShardCount 4,
      ShardLRUOpt.withCapacity 100]).shardCount = 4 := by
  show nextPowerOfTwo (nextPowerOfTwo 4) = 4
  rw [nextPowerOfTwo_4, nextPowerOfTwo_4]

/-- C4 counterexample: NewShardLRU (src/unnamed/part_023) requested with 4
shards and total capacity 100 gives every shard capacity 32, because the
total capacity is first rounded up to the power of two 128; the claimed
floor(totalCapacity / shardCount) would be 25. -/
theorem C4_counterexample :
    shardLRUPerShardCap (newShardLRUConfig 4
      [ShardLRUOpt.withShardCount 4, ShardLRUOpt.withCapacity 100]) = 32 ∧
    (100 : Int) / 4 = 25 ∧
    shardLRUPerShardCap (newShardLRUConfig 4
      [ShardLRUOpt.withShardCount 4, ShardLRUOpt.withCapacity 100])
      ≠ 100 / 4 := by
  have hps : shardLRUPerShardCap (newShardLRUConfig 4
      [ShardLRUOpt.withShardCount 4, ShardLRUOpt.withCapacity 100])
      = 32 := by
    unfold shardLRUPerShardCap
    rw [newShardLRUConfig_ex_capacity, newShardLRUConfig_ex_shardCount]
    decide
  refine ⟨hps, by decide, ?_⟩
  rw [hps]
  decide

/-- C4 amended: the shard count of NewLRUShardMap is a power of two, at
least 1, rounds the requested count up, and defaults to 16 on a
non-positive request; a non-positive total capacity defaults to 1024; its
per-shard capacity is floor(effectiveCapacity / shardCount) with a
minimum of 1, and every constructed shard carries it. NewShardLRU
(src/unnamed/part_023) instead rounds the requested total capacity up to
a power of two before dividing, so its per-shard capacity is
floor(roundedCapacity / shardCount) with a minimum of 1, not in general
floor(requestedCapacity / shardCount). -/
theorem C4_amended (shardCount capacity g : Int) (opts : List ShardLRUOpt) :
    (∃ e : Nat, lruShardMapShardCount shardCount = 2 ^ e) ∧
    1 ≤ lruShardMapShardCount shardCount ∧
    (0 < shardCount → shardCount ≤ lruShardMapShardCount shardCount) ∧
    (shardCount ≤ 0 → lruShardMapShardCount shardCount = 16) ∧
    (capacity ≤ 0 → lruShardMapCapacity capacity = 1024) ∧
    lruShardMapPerShardCap shardCount capacity
      = max 1 (lruShardMapCapacity capacity
          / lruShardMapShardCount shardCount) ∧
    (newLRUShardMap shardCount capacity : LRUShardMapM K V).shards.length
      = (lruShardMapShardCount shardCount).toNat ∧
    (∀ s ∈ (newLRUShardMap shardCount capacity : LRUShardMapM K V).shards,
      s.capacity = lruShardMapPerShardCap shardCount capacity) ∧
    (∃ e : Nat, (newShardLRUConfig g opts).capacity = 2 ^ e) ∧
    shardLRUPerShardCap (newShardLRUConfig g opts)
      = max 1 ((newShardLRUConfig g opts).capacity
          / (newShardLRUConfig g opts).shardCount) := by
  refine ⟨⟨_, rfl⟩, ?_, ?_, ?_, ?_, ?_, ?_, ?_, ?_, ?_⟩
  · have := lruShardMapShardCount_pos shardCount
    omega
  · intro hscpos
    unfold lruShardMapShardCount
    dsimp only
    rw [if_neg (by omega)]
    have h2 : (shardCount - 1).toNat = shardCount.toNat - 1 := by omega
    rw [h2]
    have h1 : shardCount.toNat ≤ 2 ^ bitsLen (shardCount.toNat - 1) :=
      bitsLen_pow_ge shardCount.toNat (by omega)
    have h3 : ((2 : Int)) ^ bitsLen (shardCount.toNat - 1)
        = ((2 ^ bitsLen (shardCount.toNat - 1) : Nat) : Int) := by
      push_cast
      ring
    rw [h3]
    omega
  · intro h
    unfold lruShardMapShardCount
    dsimp only
    rw [if_pos h]
    have h9 : ((16 : Int) - 1).toNat = 15 := by decide
    rw [h9, bitsLen_eq 15 3 (by norm_num) (by norm_num)]
    norm_num
  · intro h
    unfold lruShardMapCapacity
    rw [if_pos h]
  · unfold lruShardMapPerShardCap
    dsimp only
    split <;> omega
  · simp [newLRUShardMap]
  · intro s hs
    have h9 : s = newLruShard (lruShardMapPerShardCap shardCount capacity) :=
      List.eq_of_mem_replicate (show s ∈ List.replicate
        (lruShardMapShardCount shardCount).toNat
        (newLruShard (lruShardMapPerShardCap shardCount capacity)) from hs)
    rw [h9]
    rfl
  · unfold newShardLRUConfig
    dsimp only
    exact nextPowerOfTwo_pow _
  · unfold shardLRUPerShardCap
    dsimp only
    split <;> omega

/-- Whether some exported TtlMap method delivers the janitor stop signal
on every state: the property a public stop/shutdown operation would have
(runStopJanitor, which only runtime.SetFinalizer installs, has it). -/
def ttlExportedStopExists : Prop :=
  ∃ op : TtlExportedOp Nat Nat,
    ∀ m : TtlMapM Nat Nat × Bool,
      (runTtlExportedOp (fun n => n) op m).2 = true

/-- C5 counterexample: no exported TtlMap method delivers the janitor
stop signal; the only stop path is the stopJanitor closure installed as a
garbage-collection finalizer, so the map offers callers no explicit
stop operation. -/
theorem C5_counterexample : ttlExportedStopExists = False := by
  rw [eq_iff_iff, iff_false]
  rintro ⟨op, hop⟩
  have h9 := hop ⟨⟨⟨[]⟩, 0⟩, false⟩
  cases op <;> simp [runTtlExportedOp] at h9

theorem janitorRun_stops {σ : Type} (sweep : σ → σ) :
    ∀ (evs : List JEvent) (st : σ),
      (janitorRun sweep evs st).2 = true ↔ JEvent.stop ∈ evs := by
  intro evs
  induction evs with
  | nil =>
    intro st
    simp [janitorRun]
  | cons e rest ih =>
    intro st
    cases e with
    | tick => simp [janitorRun, ih (sweep st)]
    | stop => simp [janitorRun]

/-- C5 amended: the janitor select loop returns exactly when a stop is
delivered (ticks only run the sweep and loop on), and the stopJanitor
closure delivers the stop; but stopJanitor is package private and is
installed only as a runtime.SetFinalizer finalizer, so no exported
operation stops the sweep (see the counterexample) and termination does
rely on the garbage-collection finalizer. -/
theorem C5_amended {σ : Type} (sweep : σ → σ) (evs : List JEvent) (st : σ)
    (m : TtlMapM K V × Bool) :
    ((janitorRun sweep evs st).2 = true ↔ JEvent.stop ∈ evs) ∧
    (runStopJanitor m).2 = true :=
  ⟨janitorRun_stops sweep evs st, rfl⟩

/-- C3: TtlMap.Get with the injectable clock: found is false exactly when
the key is absent or its stored expiry lies strictly before now; an
expired hit returns the stored value with found=false, deletes the key
(so Length drops by one and a Get at any later instant misses as well,
with no sweep having run); a live hit returns the stored value with
found=true and leaves the map unchanged. -/
theorem C3_ttl_get_expiry [DecidableEq K] [Inhabited V] (hf : K → Nat)
    (m : TtlMapM K V) (hwf : TtlWF m) (now now2 : Int) (k : K) :
    ((ttlGet hf m now k).1.2 = false ↔
      hmGet hf m.hashMap k = none ∨
        ∃ tv, hmGet hf m.hashMap k = some tv ∧ now > tv.exp) ∧
    (∀ tv, hmGet hf m.hashMap k = some tv → now > tv.exp →
      (ttlGet hf m now k).1 = (tv.value, false) ∧
      (ttlGet hf m now k).2 = ttlDelete hf m k ∧
      ttlLength (ttlGet hf m now k).2 + 1 = ttlLength m ∧
      (ttlGet hf (ttlGet hf m now k).2 now2 k).1.2 = false) ∧
    (∀ tv, hmGet hf m.hashMap k = some tv → ¬ now > tv.exp →
      (ttlGet hf m now k).1 = (tv.value, true) ∧
      (ttlGet hf m now k).2 = m) := by
  cases hg : hmGet hf m.hashMap k with
  | none =>
    have hres : ttlGet hf m now k = ((default, false), m) := by
      simp only [ttlGet, hg]
    refine ⟨?_, ?_, ?_⟩
    · rw [hres]
      simp
    · intro tv htv
      exact absurd htv (by simp)
    · intro tv htv
      exact absurd htv (by simp)
  | some tv =>
    by_cases hexp : now > tv.exp
    · have hres : ttlGet hf m now k
          = ((tv.value, false), ttlDelete hf m k) := by
        simp only [ttlGet, hg, if_pos hexp]
      have hdel : hmGet hf (ttlDelete hf m k).hashMap k = none :=
        hmGet_del_self hf m.hashMap k hwf.1
      refine ⟨?_, ?_, ?_⟩
      · rw [hres]
        constructor
        · intro _
          exact Or.inr ⟨tv, rfl, hexp⟩
        · intro _
          rfl
      · intro tv2 htv2 _
        have h8 : tv2 = tv := (Option.some.inj htv2).symm
        subst h8
        refine ⟨by rw [hres], by rw [hres], ?_, ?_⟩
        · rw [hres]
          show hmLen (hmDel hf m.hashMap k) + 1 = hmLen m.hashMap
          exact hmLen_del_mem hf m.hashMap k hwf (by rw [hg]; rfl)
        · rw [hres]
          show (ttlGet hf (ttlDelete hf m k) now2 k).1.2 = false
          simp only [ttlGet, hdel]
      · intro tv2 htv2 hexp2
        have h8 : tv2 = tv := (Option.some.inj htv2).symm
        subst h8
        exact absurd hexp hexp2
    · have hres : ttlGet hf m now k = ((tv.value, true), m) := by
        simp only [ttlGet, hg, if_neg hexp]
      refine ⟨?_, ?_, ?_⟩
      · rw [hres]
        constructor
        · intro h9
          simp at h9
        · rintro (h9 | ⟨tv2, htv2, hexp2⟩)
          · exact absurd h9 (by simp)
          · have h8 : tv2 = tv := (Option.some.inj htv2).symm
            subst h8
            exact absurd hexp2 hexp
      · intro tv2 htv2 hexp2
        have h8 : tv2 = tv := (Option.some.inj htv2).symm
        subst h8
        exact absurd hexp2 hexp
      · intro tv2 htv2 _
        have h8 : tv2 = tv := (Option.some.inj htv2).symm
        subst h8
        exact ⟨by rw [hres], by rw [hres]⟩

/-- A concrete one-shard TtlMap holding key 5 with value 42 and expiry
10, default TTL 7. -/
def ttlExampleMap : TtlMapM Nat Nat := ⟨⟨[[(5, ⟨42, 10⟩)]]⟩, 7⟩

theorem ttlExampleMap_wf : TtlWF ttlExampleMap :=
  ⟨by decide, by
    intro s hs
    have h9 : s = [(5, (⟨42, 10⟩ : TtlValue Nat))] := by
      simpa [ttlExampleMap] using hs
    rw [h9]
    show List.Nodup [5]
    decide⟩

theorem C3_witness :
    TtlWF ttlExampleMap ∧
    (((ttlGet (fun n => n) ttlExampleMap 11 5).1.2 = false ↔
      hmGet (fun n => n) ttlExampleMap.hashMap 5 = none ∨
        ∃ tv, hmGet (fun n => n) ttlExampleMap.hashMap 5 = some tv ∧
          (11 : Int) > tv.exp) ∧
    (∀ tv, hmGet (fun n => n) ttlExampleMap.hashMap 5 = some tv →
      (11 : Int) > tv.exp →
      (ttlGet (fun n => n) ttlExampleMap 11 5).1 = (tv.value, false) ∧
      (ttlGet (fun n => n) ttlExampleMap 11 5).2
        = ttlDelete (fun n => n) ttlExampleMap 5 ∧
      ttlLength (ttlGet (fun n => n) ttlExampleMap 11 5).2 + 1
        = ttlLength ttlExampleMap ∧
      (ttlGet (fun n => n) (ttlGet (fun n => n) ttlExampleMap 11 5).2
        12 5).1.2 = false) ∧
    (∀ tv, hmGet (fun n => n) ttlExampleMap.hashMap 5 = some tv →
      ¬ (11 : Int) > tv.exp →
      (ttlGet (fun n => n) ttlExampleMap 11 5).1 = (tv.value, true) ∧
      (ttlGet (fun n => n) ttlExampleMap 11 5).2 = ttlExampleMap)) :=
  ⟨ttlExampleMap_wf,
   C3_ttl_get_expiry (fun n => n) ttlExampleMap ttlExampleMap_wf 11 12 5⟩

/-- C10: SetWithTTL with a non-positive ttl stores expiry now + ttl, not
later than the call time, so the entry expires immediately rather than
living forever: a Get at any strictly later time returns found=false and
removes the key. -/
theorem C10_nonpositive_ttl [DecidableEq K] [Inhabited V] (hf : K → Nat)
    (m : TtlMapM K V) (hwf : TtlWF m) (now later ttl : Int) (k : K) (v : V)
    (httl : ttl ≤ 0) (hlater : now < later) :
    ∃ tv : TtlValue V,
      hmGet hf (ttlSetWithTTL hf m now k v ttl).hashMap k = some tv ∧
      tv.exp ≤ now ∧
      (ttlGet hf (ttlSetWithTTL hf m now k v ttl) later k).1.2 = false ∧
      hmGet hf
        (ttlGet hf (ttlSetWithTTL hf m now k v ttl) later k).2.hashMap k
        = none := by
  have hget : hmGet hf (ttlSetWithTTL hf m now k v ttl).hashMap k
      = some ⟨v, now + ttl⟩ :=
    hmGet_set_self hf m.hashMap k ⟨v, now + ttl⟩ hwf.1
  have hexp : later > (⟨v, now + ttl⟩ : TtlValue V).exp := by
    show later > now + ttl
    omega
  have hres : ttlGet hf (ttlSetWithTTL hf m now k v ttl) later k
      = ((v, false), ttlDelete hf (ttlSetWithTTL hf m now k v ttl) k) := by
    simp only [ttlGet, hget, if_pos hexp]
  have hlen : 0 < (ttlSetWithTTL hf m now k v ttl).hashMap.shards.length := by
    have h9 := hwf.1
    simp only [ttlSetWithTTL, hmSet, List.length_set]
    exact h9
  refine ⟨⟨v, now + ttl⟩, hget, by show now + ttl ≤ now; omega, by rw [hres], ?_⟩
  rw [hres]
  exact hmGet_del_self hf (ttlSetWithTTL hf m now k v ttl).hashMap k hlen

theorem C10_witness :
    TtlWF ttlExampleMap ∧ (0 : Int) ≤ 0 ∧ (20 : Int) < 21 ∧
    ∃ tv : TtlValue Nat,
      hmGet (fun n => n)
        (ttlSetWithTTL (fun n => n) ttlExampleMap 20 9 77 0).hashMap 9
        = some tv ∧
      tv.exp ≤ 20 ∧
      (ttlGet (fun n => n)
        (ttlSetWithTTL (fun n => n) ttlExampleMap 20 9 77 0) 21 9).1.2
        = false ∧
      hmGet (fun n => n)
        (ttlGet (fun n => n)
          (ttlSetWithTTL (fun n => n) ttlExampleMap 20 9 77 0) 21
            9).2.hashMap 9 = none :=
  ⟨ttlExampleMap_wf, by norm_num, by norm_num,
   C10_nonpositive_ttl (fun n => n) ttlExampleMap ttlExampleMap_wf 20 21 0
     9 77 (by norm_num) (by norm_num)⟩

/-- C6: Set(k,v) immediately followed by Get(k) returns (v, true): on the
sharded LRU map in any reachable state, and on the plain sharded HashMap
in any state with at least one shard. -/
theorem C6_set_get_roundtrip [DecidableEq K] [Inhabited K] [Inhabited V]
    (hf : K → Nat) (cb : Bool) (shardCount capacity : Int)
    (t : List (COp K V)) (k : K) (v : V) (hm : HashMapM K V)
    (hwf : 0 < hm.shards.length) :
    (lmGet hf ((lmSet hf cb
        (runMTrace hf cb (newLRUShardMap shardCount capacity) t) k v).1)
      k).1 = (v, true) ∧
    hmGet hf (hmSet hf hm k v) k = some v := by
  refine ⟨?_, hmGet_set_self hf hm k v hwf⟩
  obtain ⟨hmask, hpos, hsh⟩ := mTrace_invariant hf cb shardCount capacity t
  set M := runMTrace hf cb (newLRUShardMap shardCount capacity) t with hM
  have hi0 : lmIdx hf M k < M.shards.length := by
    have h9 : hf k &&& M.shardMask ≤ M.shardMask := Nat.and_le_right
    unfold lmIdx
    omega
  have hsome : M.shards[lmIdx hf M k]? = some M.shards[lmIdx hf M k] :=
    List.getElem?_eq_getElem hi0
  obtain ⟨ps, hr, hcap, hlen, hcnt, hroute, hsort⟩ := hsh _ hi0
  obtain ⟨ps1, hr1, habs1, _, _, _, _, _⟩ := zSet_step cb hr hcap hlen k v
  have hset : (lmSet hf cb M k v).1
      = { M with shards := (M.shards.set (lmIdx hf M k)
          ((zSet cb M.shards[lmIdx hf M k] k v).1)) } := by
    simp only [lmSet, hsome]
  have hidx1 : lmIdx hf (lmSet hf cb M k v).1 k = lmIdx hf M k := by
    rw [hset]
    rfl
  have hget1 : (lmSet hf cb M k v).1.shards[lmIdx hf M k]?
      = some (zSet cb M.shards[lmIdx hf M k] k v).1 := by
    rw [hset]
    exact List.getElem?_set_self (by simpa using hi0)
  have hres : (lmGet hf (lmSet hf cb M k v).1 k).1
      = (zGet (zSet cb M.shards[lmIdx hf M k] k v).1 k).1 := by
    unfold lmGet
    rw [hidx1, hget1]
  obtain ⟨ps2, _, _, _, hres2, _, _, _⟩ := zGet_step hr1 k
  have hlook : absLookup k
      (absOf (zSet cb M.shards[lmIdx hf M k] k v).1.arena ps1) = some v := by
    rw [habs1]
    exact absLookup_absSet _ hcap k v _
  rw [hres, hres2, hlook]
  rfl

theorem C6_witness :
    0 < (⟨[[]]⟩ : HashMapM Nat Nat).shards.length ∧
    ((lmGet (fun n => n) ((lmSet (fun n => n) false
        (runMTrace (fun n => n) false (newLRUShardMap 2 8)
          ([] : List (COp Nat Nat))) 3 9).1) 3).1 = (9, true) ∧
    hmGet (fun n => n) (hmSet (fun n => n) (⟨[[]]⟩ : HashMapM Nat Nat) 3 9)
      3 = some 9) :=
  ⟨by decide,
   C6_set_get_roundtrip (fun n => n) false 2 8 ([] : List (COp Nat Nat))
     3 9 (⟨[[]]⟩ : HashMapM Nat Nat) (by decide)⟩

/-- C7: a SimpleLRU of capacity 1: inserting a first key fires no
eviction callback, and inserting a second, distinct key fires it exactly
once, with the first key and its value. -/
theorem C7_capacity_one_eviction [DecidableEq K] [Inhabited K] [Inhabited V]
    (k1 k2 : K) (v1 v2 : V) (hne : k1 ≠ k2) :
    (sSet true (newSimpleLRU 1) k1 v1).2 = [] ∧
    (sSet true (sSet true (newSimpleLRU 1 : LruShard K V) k1 v1).1
      k2 v2).2 = [(k1, v1)] := by
  have h0 : (newSimpleLRU 1 : LruShard K V) = newLruShard 1 := by
    unfold newSimpleLRU
    norm_num
  rw [h0]
  obtain ⟨ps1, hr1, habs1, hlen1, hev1, hcap1, _, _⟩ :=
    sSet_step true (rep_newLruShard 1) (by simp [newLruShard])
      (by simp [newLruShard]) k1 v1
  have hev1a : (sSet true (newLruShard 1 : LruShard K V) k1 v1).2 = [] := by
    rw [hev1]
    show absSetEv (1 : Int) true k1 [] = []
    unfold absSetEv
    rw [if_neg (by simp), if_neg (by simp)]
  refine ⟨hev1a, ?_⟩
  obtain ⟨ps2, hr2, habs2, hlen2, hev2, hcap2, _, _⟩ :=
    sSet_step true hr1 (by rw [hcap1]; simp [newLruShard])
      (by rw [hcap1]; exact hlen1) k2 v2
  rw [hev2, hcap1, habs1]
  have habsSet : absSet ((newLruShard 1 : LruShard K V)).capacity k1 v1
      (absOf (newLruShard 1 : LruShard K V).arena []) = [(k1, v1)] := by
    show absSet (1 : Int) k1 v1 [] = [(k1, v1)]
    unfold absSet
    rw [if_neg (by simp), if_neg (by simp)]
  rw [habsSet]
  show absSetEv (1 : Int) true k2 [(k1, v1)] = [(k1, v1)]
  have hc1 : k2 ∉ List.map Prod.fst [(k1, v1)] := by
    simp only [List.map_cons, List.map_nil, List.mem_singleton]
    exact fun h => hne h.symm
  have hc2 : ((List.length [(k1, v1)] : Int) + 1 > 1) := by simp
  unfold absSetEv
  rw [if_neg hc1, if_pos hc2]
  simp

theorem C7_witness :
    (0 : Nat) ≠ 1 ∧
    ((sSet true (newSimpleLRU 1) 0 (10 : Nat)).2 = [] ∧
    (sSet true (sSet true (newSimpleLRU 1 : LruShard Nat Nat) 0 10).1
      1 11).2 = [(0, 10)]) :=
  ⟨by decide, C7_capacity_one_eviction 0 1 10 11 (by decide)⟩

theorem absLookup_absDel_self [DecidableEq K] (k : K) (L : List (K × V)) :
    absLookup k (absDel k L) = none := by
  unfold absLookup absDel
  rw [Option.map_eq_none']
  rw [List.find?_eq_none]
  intro q hq
  have h9 := List.of_mem_filter hq
  simp only [decide_eq_true_eq] at h9 ⊢
  exact h9

/-- C8: Delete on an absent key returns false, changes nothing and fires
no callback; Delete on a present key returns true, removes exactly that
entry (Len drops by one, the key is gone, every other key keeps its
membership) and fires the configured callback exactly once with the
removed key and its current value. Stated for the sharded LRUShardMap in
any reachable state, and for SimpleLRU on any well-formed shard. -/
theorem C8_delete_semantics [DecidableEq K] [Inhabited K] [Inhabited V]
    (hf : K → Nat) (cb : Bool) (shardCount capacity : Int)
    (t : List (COp K V)) (k : K)
    (s : LruShard K V) (ps0 : List Nat) (hrep : Rep s ps0) :
    (lmContains hf (runMTrace hf cb (newLRUShardMap shardCount capacity) t)
        k = false →
      lmDelete hf cb (runMTrace hf cb (newLRUShardMap shardCount capacity)
        t) k = ((false,
          runMTrace hf cb (newLRUShardMap shardCount capacity) t), [])) ∧
    (lmContains hf (runMTrace hf cb (newLRUShardMap shardCount capacity) t)
        k = true →
      (lmDelete hf cb (runMTrace hf cb (newLRUShardMap shardCount capacity)
        t) k).1.1 = true ∧
      lmLen (lmDelete hf cb (runMTrace hf cb
        (newLRUShardMap shardCount capacity) t) k).1.2 + 1
        = lmLen (runMTrace hf cb (newLRUShardMap shardCount capacity) t) ∧
      (∀ k2, lmContains hf (lmDelete hf cb (runMTrace hf cb
          (newLRUShardMap shardCount capacity) t) k).1.2 k2
        = if k2 = k then false
          else lmContains hf (runMTrace hf cb
            (newLRUShardMap shardCount capacity) t) k2) ∧
      ∃ v0 : V, (lmGet hf (runMTrace hf cb
          (newLRUShardMap shardCount capacity) t) k).1 = (v0, true) ∧
        (lmDelete hf cb (runMTrace hf cb
          (newLRUShardMap shardCount capacity) t) k).2
          = (if cb then [(k, v0)] else [])) ∧
    (absLookup k (absOf s.arena ps0) = none →
      (sDelete cb s k).1.1 = false ∧ (sDelete cb s k).1.2 = s ∧
      (sDelete cb s k).2 = []) ∧
    (∀ v0, absLookup k (absOf s.arena ps0) = some v0 →
      (sDelete cb s k).1.1 = true ∧
      (sDelete cb s k).2 = (if cb then [(k, v0)] else []) ∧
      ∃ ps2, Rep (sDelete cb s k).1.2 ps2 ∧
        absOf (sDelete cb s k).1.2.arena ps2
          = absDel k (absOf s.arena ps0)) := by
  obtain ⟨hmask, hpos, hsh⟩ := mTrace_invariant hf cb shardCount capacity t
  set M := runMTrace hf cb (newLRUShardMap shardCount capacity) t with hM
  have hi0 : lmIdx hf M k < M.shards.length := by
    have h9 : hf k &&& M.shardMask ≤ M.shardMask := Nat.and_le_right
    unfold lmIdx
    omega
  have hsome : M.shards[lmIdx hf M k]? = some M.shards[lmIdx hf M k] :=
    List.getElem?_eq_getElem hi0
  obtain ⟨ps, hr, hcap, hlen, hcnt, hroute, hsort⟩ := hsh _ hi0
  obtain ⟨ps2, hr2, habs2, hfound, hev, hlencnt, hcapEq, _, _, hnone⟩ :=
    zDelete_step cb hr k
  have hcont : lmContains hf M k = zContains M.shards[lmIdx hf M k] k := by
    unfold lmContains
    rw [hsome]
  have hdel : lmDelete hf cb M k
      = (((zDelete cb M.shards[lmIdx hf M k] k).1.1,
          { M with shards := (M.shards.set (lmIdx hf M k)
            ((zDelete cb M.shards[lmIdx hf M k] k).1.2)) }),
         (zDelete cb M.shards[lmIdx hf M k] k).2) := by
    simp only [lmDelete, hsome]
  refine ⟨?_, ?_, ?_, ?_⟩
  · intro hfalse
    have hlk : absLookup k (absOf M.shards[lmIdx hf M k].arena ps)
        = none := by
      cases h9 : absLookup k (absOf M.shards[lmIdx hf M k].arena ps) with
      | none => rfl
      | some v0 =>
        rw [hcont, zContains_spec hr k, h9] at hfalse
        simp at hfalse
    rw [hdel]
    rw [show (zDelete cb M.shards[lmIdx hf M k] k).1.2
        = M.shards[lmIdx hf M k] from hnone hlk]
    rw [list_set_getElem_self _ _ hi0]
    rw [show (zDelete cb M.shards[lmIdx hf M k] k).1.1 = false from by
      rw [hfound, hlk]
      rfl]
    rw [show (zDelete cb M.shards[lmIdx hf M k] k).2 = [] from by
      rw [hev, hlk]]
  · intro htrue
    rw [hcont, zContains_spec hr k] at htrue
    obtain ⟨v0, hlk⟩ := Option.isSome_iff_exists.1 htrue
    have hlen2 : ps2.length + 1 = ps.length := by
      rw [hlk] at hlencnt
      simpa using hlencnt
    refine ⟨?_, ?_, ?_, ?_⟩
    · rw [hdel]
      show (zDelete cb M.shards[lmIdx hf M k] k).1.1 = true
      rw [hfound, hlk]
      rfl
    · have hmap1 : lmLen (lmDelete hf cb M k).1.2
          = ((M.shards.map (fun s3 => s3.size)).set (lmIdx hf M k)
            ((zDelete cb M.shards[lmIdx hf M k] k).1.2.size)).sum := by
        rw [hdel]
        show ((M.shards.set (lmIdx hf M k)
          ((zDelete cb M.shards[lmIdx hf M k] k).1.2)).map
            (fun s3 => s3.size)).sum = _
        rw [List.map_set]
      have hsum := sum_set_int (M.shards.map (fun s3 => s3.size))
        (lmIdx hf M k) ((zDelete cb M.shards[lmIdx hf M k] k).1.2.size)
        (by simpa using hi0)
      have hgeti : (M.shards.map (fun s3 => s3.size))[lmIdx hf M k]!
          = M.shards[lmIdx hf M k].size := by
        rw [getElem!_pos (M.shards.map (fun s3 => s3.size)) (lmIdx hf M k)
          (by simpa using hi0), List.getElem_map]
      rw [hgeti] at hsum
      have hs0 : M.shards[lmIdx hf M k].size = (ps.length : Int) :=
        hr.sizeEq
      have hsd : (zDelete cb M.shards[lmIdx hf M k] k).1.2.size
          = (ps2.length : Int) := hr2.sizeEq
      rw [hmap1]
      show _ + 1 = (M.shards.map (fun s3 => s3.size)).sum
      omega
    · intro k2
      rw [hdel]
      by_cases hik : lmIdx hf M k2 = lmIdx hf M k
      · have hget2 : (M.shards.set (lmIdx hf M k)
            ((zDelete cb M.shards[lmIdx hf M k] k).1.2))[lmIdx hf M k2]?
            = some (zDelete cb M.shards[lmIdx hf M k] k).1.2 := by
          rw [hik]
          exact List.getElem?_set_self (by simpa using hi0)
        have hc2 : lmContains hf { M with shards :=
            (M.shards.set (lmIdx hf M k)
              ((zDelete cb M.shards[lmIdx hf M k] k).1.2)) } k2
            = zContains (zDelete cb M.shards[lmIdx hf M k] k).1.2 k2 := by
          unfold lmContains
          rw [show lmIdx hf { M with shards := (M.shards.set (lmIdx hf M k)
            ((zDelete cb M.shards[lmIdx hf M k] k).1.2)) } k2
            = lmIdx hf M k2 from rfl]
          rw [hget2]
        rw [hc2, zContains_spec hr2 k2, habs2]
        by_cases hk2 : k2 = k
        · subst hk2
          rw [absLookup_absDel_self, if_pos rfl]
          rfl
        · rw [absLookup_absDel_ne k k2 hk2, if_neg hk2]
          have hck2 : lmContains hf M k2
              = (absLookup k2
                  (absOf M.shards[lmIdx hf M k].arena ps)).isSome := by
            unfold lmContains
            rw [hik, hsome]
            show zContains M.shards[lmIdx hf M k] k2 = _
            exact zContains_spec hr k2
          rw [hck2]
      · have hk2 : k2 ≠ k := by
          intro hc
          subst hc
          exact hik rfl
        have hget2 : (M.shards.set (lmIdx hf M k)
            ((zDelete cb M.shards[lmIdx hf M k] k).1.2))[lmIdx hf M k2]?
            = M.shards[lmIdx hf M k2]? := by
          exact List.getElem?_set_ne (fun hc => hik hc.symm)
        have hc2 : lmContains hf { M with shards :=
            (M.shards.set (lmIdx hf M k)
              ((zDelete cb M.shards[lmIdx hf M k] k).1.2)) } k2
            = lmContains hf M k2 := by
          unfold lmContains
          rw [show lmIdx hf { M with shards := (M.shards.set (lmIdx hf M k)
            ((zDelete cb M.shards[lmIdx hf M k] k).1.2)) } k2
            = lmIdx hf M k2 from rfl]
          rw [hget2]
        rw [hc2, if_neg hk2]
    · refine ⟨v0, ?_, ?_⟩
      · obtain ⟨ps3, _, _, _, hres3, _, _, _⟩ := zGet_step hr k
        have hres : (lmGet hf M k).1
            = (zGet M.shards[lmIdx hf M k] k).1 := by
          unfold lmGet
          rw [hsome]
        rw [hres, hres3, hlk]
        rfl
      · rw [hdel]
        show (zDelete cb M.shards[lmIdx hf M k] k).2 = _
        rw [hev, hlk]
  · intro hlk
    obtain ⟨psb, hrb, habsb, hfoundb, hevb, _, _, _, _, hnoneb⟩ :=
      sDelete_step cb hrep k
    refine ⟨?_, ?_, ?_⟩
    · rw [hfoundb, hlk]
      rfl
    · exact hnoneb hlk
    · rw [hevb, hlk]
  · intro v0 hlk
    obtain ⟨psb, hrb, habsb, hfoundb, hevb, _, _, _, _, _⟩ :=
      sDelete_step cb hrep k
    refine ⟨?_, ?_, psb, hrb, habsb⟩
    · rw [hfoundb, hlk]
      rfl
    · rw [hevb, hlk]

theorem C8_witness :
    Rep (newLruShard 4 : LruShard Nat Nat) [] ∧
    ((lmContains (fun n => n) (runMTrace (fun n => n) true
        (newLRUShardMap 2 8) ([COp.set 1 5] : List (COp Nat Nat))) 1
        = false →
      lmDelete (fun n => n) true (runMTrace (fun n => n) true
        (newLRUShardMap 2 8) ([COp.set 1 5] : List (COp Nat Nat))) 1
        = ((false, runMTrace (fun n => n) true (newLRUShardMap 2 8)
            ([COp.set 1 5] : List (COp Nat Nat))), [])) ∧
    (lmContains (fun n => n) (runMTrace (fun n => n) true
        (newLRUShardMap 2 8) ([COp.set 1 5] : List (COp Nat Nat))) 1
        = true →
      (lmDelete (fun n => n) true (runMTrace (fun n => n) true
        (newLRUShardMap 2 8) ([COp.set 1 5] : List (COp Nat Nat)))
        1).1.1 = true ∧
      lmLen (lmDelete (fun n => n) true (runMTrace (fun n => n) true
        (newLRUShardMap 2 8) ([COp.set 1 5] : List (COp Nat Nat)))
        1).1.2 + 1
        = lmLen (runMTrace (fun n => n) true (newLRUShardMap 2 8)
            ([COp.set 1 5] : List (COp Nat Nat))) ∧
      (∀ k2, lmContains (fun n => n) (lmDelete (fun n => n) true
          (runMTrace (fun n => n) true (newLRUShardMap 2 8)
            ([COp.set 1 5] : List (COp Nat Nat))) 1).1.2 k2
        = if k2 = 1 then false
          else lmContains (fun n => n) (runMTrace (fun n => n) true
            (newLRUShardMap 2 8) ([COp.set 1 5] : List (COp Nat Nat)))
              k2) ∧
      ∃ v0 : Nat, (lmGet (fun n => n) (runMTrace (fun n => n) true
          (newLRUShardMap 2 8) ([COp.set 1 5] : List (COp Nat Nat)))
            1).1 = (v0, true) ∧
        (lmDelete (fun n => n) true (runMTrace (fun n => n) true
          (newLRUShardMap 2 8) ([COp.set 1 5] : List (COp Nat Nat))) 1).2
          = (if true then [(1, v0)] else [])) ∧
    (absLookup 1 (absOf (newLruShard 4 : LruShard Nat Nat).arena [])
        = none →
      (sDelete true (newLruShard 4 : LruShard Nat Nat) 1).1.1 = false ∧
      (sDelete true (newLruShard 4 : LruShard Nat Nat) 1).1.2
        = newLruShard 4 ∧
      (sDelete true (newLruShard 4 : LruShard Nat Nat) 1).2 = []) ∧
    (∀ v0, absLookup 1 (absOf (newLruShard 4 : LruShard Nat Nat).arena [])
        = some v0 →
      (sDelete true (newLruShard 4 : LruShard Nat Nat) 1).1.1 = true ∧
      (sDelete true (newLruShard 4 : LruShard Nat Nat) 1).2
        = (if true then [(1, v0)] else []) ∧
      ∃ ps2, Rep (sDelete true (newLruShard 4 : LruShard Nat Nat) 1).1.2
          ps2 ∧
        absOf (sDelete true (newLruShard 4 : LruShard Nat Nat) 1).1.2.arena
          ps2 = absDel 1 (absOf (newLruShard 4 : LruShard Nat Nat).arena
            []))) :=
  ⟨rep_newLruShard 4,
   C8_delete_semantics (fun n => n) true 2 8
     ([COp.set 1 5] : List (COp Nat Nat)) 1 (newLruShard 4) []
     (rep_newLruShard 4)⟩

/-- C9: after any trace, the total hit count never exceeds the total
access count, so the Stats hit rate lies in [0,1] and is exactly 0 when
there has been no access; the per-shard load list is exactly
size/capacity per shard and each load lies in [0,1]. -/
theorem C9_stats_bounds [DecidableEq K] [Inhabited K] [Inhabited V]
    (hf : K → Nat) (cb : Bool) (shardCount capacity : Int)
    (t : List (COp K V)) :
    ((runMTrace hf cb (newLRUShardMap shardCount capacity) t).shards.map
        (fun s2 => s2.hitCnt)).sum
      ≤ ((runMTrace hf cb (newLRUShardMap shardCount capacity)
          t).shards.map (fun s2 => s2.accessCnt)).sum ∧
    0 ≤ (lmStats (runMTrace hf cb (newLRUShardMap shardCount capacity)
        t)).1 ∧
    (lmStats (runMTrace hf cb (newLRUShardMap shardCount capacity) t)).1
      ≤ 1 ∧
    (((runMTrace hf cb (newLRUShardMap shardCount capacity) t).shards.map
        (fun s2 => s2.accessCnt)).sum = 0 →
      (lmStats (runMTrace hf cb (newLRUShardMap shardCount capacity)
        t)).1 = 0) ∧
    (lmStats (runMTrace hf cb (newLRUShardMap shardCount capacity) t)).2
      = (runMTrace hf cb (newLRUShardMap shardCount capacity) t).shards.map
        (fun s2 => (s2.size : ℚ) / (s2.capacity : ℚ)) ∧
    ∀ q ∈ (lmStats (runMTrace hf cb (newLRUShardMap shardCount capacity)
        t)).2, 0 ≤ q ∧ q ≤ 1 := by
  obtain ⟨hmask, hpos, hsh⟩ := mTrace_invariant hf cb shardCount capacity t
  set M := runMTrace hf cb (newLRUShardMap shardCount capacity) t with hM
  have hcnt : ∀ s2 ∈ M.shards, s2.hitCnt ≤ s2.accessCnt := by
    intro s2 hs2
    obtain ⟨i, hi, rfl⟩ := List.mem_iff_getElem.1 hs2
    obtain ⟨ps, _, _, _, h9, _, _⟩ := hsh i hi
    exact h9
  have hbnd : ∀ s2 ∈ M.shards,
      0 ≤ s2.size ∧ s2.size ≤ s2.capacity ∧ 1 ≤ s2.capacity := by
    intro s2 hs2
    obtain ⟨i, hi, rfl⟩ := List.mem_iff_getElem.1 hs2
    obtain ⟨ps, hr, hcap, hlen, _, _, _⟩ := hsh i hi
    refine ⟨?_, ?_, hcap⟩
    · rw [hr.sizeEq]
      exact_mod_cast Nat.zero_le _
    · rw [hr.sizeEq]
      exact hlen
  have hsum : ((M.shards.map (fun s2 => s2.hitCnt)).sum)
      ≤ ((M.shards.map (fun s2 => s2.accessCnt)).sum) :=
    List.sum_le_sum hcnt
  have hnum : (M.shards.map (fun s2 => (s2.hitCnt : ℚ))).sum
      = (Nat.cast ((M.shards.map (fun s2 => s2.hitCnt)).sum) : ℚ) := by
    rw [Nat.cast_list_sum, List.map_map]
    rfl
  have hden : (M.shards.map (fun s2 => (s2.accessCnt : ℚ))).sum
      = (Nat.cast ((M.shards.map (fun s2 => s2.accessCnt)).sum) : ℚ) := by
    rw [Nat.cast_list_sum, List.map_map]
    rfl
  refine ⟨hsum, ?_, ?_, ?_, rfl, ?_⟩
  · show (0 : ℚ) ≤ if (M.shards.map (fun s2 => s2.accessCnt)).sum = 0
      then 0 else (M.shards.map (fun s2 => (s2.hitCnt : ℚ))).sum
        / (M.shards.map (fun s2 => (s2.accessCnt : ℚ))).sum
    by_cases h0 : (M.shards.map (fun s2 => s2.accessCnt)).sum = 0
    · rw [if_pos h0]
    · rw [if_neg h0, hnum, hden]
      positivity
  · show (if (M.shards.map (fun s2 => s2.accessCnt)).sum = 0
      then 0 else (M.shards.map (fun s2 => (s2.hitCnt : ℚ))).sum
        / (M.shards.map (fun s2 => (s2.accessCnt : ℚ))).sum) ≤ 1
    by_cases h0 : (M.shards.map (fun s2 => s2.accessCnt)).sum = 0
    · rw [if_pos h0]
      norm_num
    · rw [if_neg h0, hnum, hden]
      rw [div_le_one (by exact_mod_cast Nat.pos_of_ne_zero h0)]
      exact_mod_cast hsum
  · intro h0
    show (if (M.shards.map (fun s2 => s2.accessCnt)).sum = 0
      then 0 else (M.shards.map (fun s2 => (s2.hitCnt : ℚ))).sum
        / (M.shards.map (fun s2 => (s2.accessCnt : ℚ))).sum) = 0
    rw [if_pos h0]
  · intro q hq
    rw [show (lmStats M).2 = M.shards.map
        (fun s2 => (s2.size : ℚ) / (s2.capacity : ℚ)) from rfl] at hq
    obtain ⟨s2, hs2, rfl⟩ := List.mem_map.1 hq
    obtain ⟨h1, h2, h3⟩ := hbnd s2 hs2
    constructor
    · apply div_nonneg
      · exact_mod_cast h1
      · exact_mod_cast (by omega : (0 : Int) ≤ s2.capacity)
    · rw [div_le_one (by exact_mod_cast (by omega : (0 : Int) < s2.capacity))]
      exact_mod_cast h2

end Zmap
